import Mathlib

/-!
Product extraction and acceptance filter of the Amazon crawler.

A shallow embedding of `crawler/product.go`.

Modelling conventions.

* A Go string is a list of Unicode characters (`GoString`); the texts handed to the
  extractors are valid UTF-8.  The only byte-level operation of the source, the slice
  `s[1:]`, is modelled by `sliceFrom1`.
* A `float64` is a value of `F64`: NaN, the two infinities, or a finite number given by its
  rational value.  The arithmetic operations and the conversion `float64(n)` round their
  exact result to the nearest `float64` value, ties to even, with overflow to an infinity
  and gradual underflow (`F64.round`); on `float64` operands this is the IEEE 754 result.
  Signed zeros are not represented.  `strconv.ParseFloat` keeps the value of the numeral it
  read, which stands for the `float64` nearest to it, and reports its range error.
* `uint` is 64 bits wide.
* A run-time panic is the outcome `Run.fault`.
* Logging has no effect on the returned values and is left out.
* The collaborators of `getProduct` are inputs of its model: what the request comes to,
  whether the `done` channel is ready when the `select` is reached, and the reader that
  turns a body into the texts of the page regions.
* The standard-library functions (`strings`, `strconv`, `regexp`) follow their documented
  behaviour (Go 1.13 and later for the numeral forms accepted by `strconv.ParseFloat`).
-/

namespace Crawler

/-- A Go string, as the list of its characters. -/
abbrev GoString := List Char

/-- Outcome of running Go code that may stop with a run-time panic. -/
inductive Run (α : Type) where
  | ok (v : α)
  | fault
  deriving DecidableEq, Repr

/-! ## package `strings` -/

/-- Go `strings.HasPrefix`. -/
def hasPrefix (s p : GoString) : Bool := p.isPrefixOf s

/-- Go `strings.Contains`. -/
def contains : GoString → GoString → Bool
  | [], sub => sub.isEmpty
  | c :: cs, sub => sub.isPrefixOf (c :: cs) || contains cs sub

/-- Worker of `removeAll`: the counter is the number of characters of a found occurrence
that are still to be skipped. -/
def removeAllAux (old : GoString) : Nat → GoString → GoString
  | _, [] => []
  | skip + 1, _ :: cs => removeAllAux old skip cs
  | 0, c :: cs =>
    if old.isPrefixOf (c :: cs) then removeAllAux old (old.length - 1) cs
    else c :: removeAllAux old 0 cs

/-- Go `strings.Replace(s, old, "", -1)` for a non-empty `old`: every non-overlapping
occurrence of `old`, found from left to right, is deleted. -/
def removeAll (old s : GoString) : GoString := removeAllAux old 0 s

/-- Go `strings.Split(s, sep)` for a separator of one character. The result is never
empty. -/
def splitOn (sep : Char) : GoString → List GoString
  | [] => [[]]
  | c :: cs =>
    if c = sep then [] :: splitOn sep cs
    else
      match splitOn sep cs with
      | [] => [[c]]
      | h :: t => (c :: h) :: t

/-- Go `unicode.IsSpace`. -/
def isSpace (c : Char) : Bool :=
  c = '\t' || c = '\n' || c.toNat = 0x0B || c.toNat = 0x0C || c = '\r' || c = ' ' ||
  c.toNat = 0x85 || c.toNat = 0xA0 || c.toNat = 0x1680 ||
  (0x2000 ≤ c.toNat && c.toNat ≤ 0x200A) ||
  c.toNat = 0x2028 || c.toNat = 0x2029 || c.toNat = 0x202F || c.toNat = 0x205F ||
  c.toNat = 0x3000

/-- Go `strings.TrimSpace`. -/
def trimSpace (s : GoString) : GoString :=
  ((s.dropWhile isSpace).reverse.dropWhile isSpace).reverse

/-- The Go slice expression `s[1:]`, which drops the first byte: it panics on the empty
string; when the first character is not ASCII its remaining bytes are no longer valid UTF-8
and read as replacement characters. -/
def sliceFrom1 : GoString → Run GoString
  | [] => Run.fault
  | c :: cs =>
    if c.toNat < 128 then Run.ok cs
    else Run.ok (List.replicate (c.utf8Size - 1) (Char.ofNat 0xFFFD) ++ cs)

/-! ## Rounding to `float64` -/

/-- Smallest magnitude that rounds to an infinite `float64`: halfway between the largest
finite value and `2^1024`. -/
def overflowBound : ℚ := 2 ^ 1024 - 2 ^ 970

/-- The number of halvings that bring `n` below 2, that is `⌊log2 n⌋` for a positive `n`;
the first argument bounds the number of steps. -/
def log2Nat : Nat → Nat → Nat
  | 0, _ => 0
  | f + 1, n => if n < 2 then 0 else log2Nat f (n / 2) + 1

/-- The binary exponent `⌊log2 x⌋` of a positive rational. -/
def log2Floor (x : ℚ) : ℤ :=
  let k : ℤ := (log2Nat x.num.natAbs x.num.natAbs : ℤ) - (log2Nat x.den x.den : ℤ)
  if (2 : ℚ) ^ k ≤ x then k else k - 1

/-- The exponent of the last place of the `float64` values around a positive `x`: 52
places below the binary exponent of `x`, and `-1074` in the subnormal range. -/
def ulpExp (x : ℚ) : ℤ := max (log2Floor x - 52) (-1074)

/-- The integer nearest to `y`, the even one of the two when `y` lies halfway. -/
def roundEven (y : ℚ) : ℤ :=
  if y - ⌊y⌋ < 1 / 2 then ⌊y⌋
  else if 1 / 2 < y - ⌊y⌋ then ⌊y⌋ + 1
  else if ⌊y⌋ % 2 = 0 then ⌊y⌋ else ⌊y⌋ + 1

/-- The multiple of the last place nearest to a non-negative `x` (ties to even). -/
def roundPos (x : ℚ) : ℚ := (roundEven (x / 2 ^ ulpExp x) : ℚ) * 2 ^ ulpExp x

/-- A rational that is a finite `float64` value: an integer below `2^53` in magnitude times
a power of two between `2^-1074` and `2^971`. -/
def IsFloatQ (q : ℚ) : Prop :=
  ∃ m e : ℤ, |m| < 2 ^ 53 ∧ -1074 ≤ e ∧ e ≤ 971 ∧ q = (m : ℚ) * 2 ^ e

/-- The `float64` value nearest to `q` (ties to even), for a `q` below the overflow bound
in magnitude. -/
def roundQ (q : ℚ) : ℚ := if q < 0 then -roundPos (-q) else roundPos q

/-! ## `float64` -/

/-- A `float64` value. -/
inductive F64 where
  | nan
  | inf (neg : Bool)
  | fin (q : ℚ)
  deriving DecidableEq

namespace F64

/-- The zero value of `float64`. -/
def zero : F64 := fin 0

/-- Go `x < y` on `float64`. -/
def lt : F64 → F64 → Bool
  | nan, _ => false
  | _, nan => false
  | inf n, inf m => n && !m
  | inf n, fin _ => n
  | fin _, inf m => !m
  | fin a, fin b => decide (a < b)

/-- Go `x > y` on `float64`. -/
def gt (x y : F64) : Bool := lt y x

/-- Go `x <= y` on `float64`. -/
def le : F64 → F64 → Bool
  | nan, _ => false
  | _, nan => false
  | inf n, inf m => n || !m
  | inf n, fin _ => n
  | fin _, inf m => !m
  | fin a, fin b => decide (a ≤ b)

/-- The `float64` nearest to the rational `q`: an infinity when `q` reaches the overflow
bound in magnitude, the nearest value (ties to even) otherwise. -/
def round (q : ℚ) : F64 :=
  if overflowBound ≤ |q| then inf (decide (q < 0)) else fin (roundQ q)

/-- Go `x + y` on `float64`. -/
def add : F64 → F64 → F64
  | nan, _ => nan
  | _, nan => nan
  | inf n, inf m => if n = m then inf n else nan
  | inf n, fin _ => inf n
  | fin _, inf m => inf m
  | fin a, fin b => round (a + b)

/-- Go `-x` on `float64`. -/
def neg : F64 → F64
  | nan => nan
  | inf n => inf (!n)
  | fin a => fin (-a)

/-- Go `x - y` on `float64`. -/
def sub (x y : F64) : F64 := add x (neg y)

/-- Go `x * y` on `float64`. -/
def mul : F64 → F64 → F64
  | nan, _ => nan
  | _, nan => nan
  | inf n, inf m => inf (n != m)
  | inf n, fin b => if b = 0 then nan else inf (n != decide (b < 0))
  | fin a, inf m => if a = 0 then nan else inf (m != decide (a < 0))
  | fin a, fin b => round (a * b)

/-- Go `x / c` on `float64` for a positive constant `c`. -/
def divConst (x : F64) (c : ℚ) : F64 :=
  match x with
  | nan => nan
  | inf n => inf n
  | fin a => round (a / c)

/-- Go `float64(n)` for an integer `n`. -/
def ofInt (n : ℤ) : F64 := round n

end F64

/-! ## package `strconv` -/

/-- The two errors of the `strconv` parsers. -/
inductive NumErr where
  | badForm
  | outOfRange
  deriving DecidableEq, Repr

/-- Lower-casing of an ASCII letter, as in `commonPrefixLenIgnoreCase`. -/
def asciiLower (c : Char) : Char :=
  if 'A' ≤ c ∧ c ≤ 'Z' then Char.ofNat (c.toNat + 32) else c

/-- Go `commonPrefixLenIgnoreCase(s, pat)` for a lower-case `pat`. -/
def commonPrefixLenIgnoreCase : GoString → GoString → Nat
  | c :: cs, p :: ps => if asciiLower c = p then commonPrefixLenIgnoreCase cs ps + 1 else 0
  | _, _ => 0

/-- Length of the infinity word at the start of `s`: only `inf` and `infinity` count. -/
def infLen (s : GoString) : Option Nat :=
  let n := commonPrefixLenIgnoreCase s "infinity".toList
  let n := if 3 < n ∧ n < 8 then 3 else n
  if n = 3 ∨ n = 8 then some n else none

/-- Go `strconv.special`: the special value at the start of `s` and the number of
characters it takes. -/
def special : GoString → Option (F64 × Nat)
  | [] => none
  | c :: cs =>
    if c = '+' ∨ c = '-' then
      (infLen cs).map (fun n => (F64.inf (decide (c = '-')), n + 1))
    else if c = 'i' ∨ c = 'I' then
      (infLen (c :: cs)).map (fun n => (F64.inf false, n))
    else if c = 'n' ∨ c = 'N' then
      if commonPrefixLenIgnoreCase (c :: cs) "nan".toList = 3 then some (F64.nan, 3) else none
    else none

/-- Value of a decimal digit or, in a hexadecimal numeral, of a hexadecimal digit. -/
def digitVal (hex : Bool) (c : Char) : Option Nat :=
  if '0' ≤ c ∧ c ≤ '9' then some (c.toNat - 48)
  else if hex ∧ 'a' ≤ c ∧ c ≤ 'f' then some (c.toNat - 87)
  else if hex ∧ 'A' ≤ c ∧ c ≤ 'F' then some (c.toNat - 55)
  else none

/-- State of the mantissa loop of `readFloat`: the digits read so far as a number, how many
of them followed the point, and the two flags of the loop. -/
structure Scan where
  mant : Nat
  frac : Nat
  sawdot : Bool
  sawdigits : Bool
  deriving DecidableEq, Repr

/-- The mantissa loop of `readFloat`: reads digits, underscores and at most one point, and
returns the state together with the unread rest. -/
def scanMant (hex : Bool) : Scan → GoString → Scan × GoString
  | st, [] => (st, [])
  | st, c :: cs =>
    if c = '_' then scanMant hex st cs
    else if c = '.' then
      if st.sawdot then (st, c :: cs) else scanMant hex { st with sawdot := true } cs
    else
      match digitVal hex c with
      | some d =>
        scanMant hex
          { st with sawdigits := true,
                    mant := st.mant * (if hex then 16 else 10) + d,
                    frac := if st.sawdot then st.frac + 1 else st.frac } cs
      | none => (st, c :: cs)

/-- The exponent loop of `readFloat`: digits and underscores; the exponent stops growing
once it has reached 10000. -/
def scanExp : Nat → GoString → Nat × GoString
  | e, [] => (e, [])
  | e, c :: cs =>
    if c = '_' then scanExp e cs
    else if '0' ≤ c ∧ c ≤ '9' then scanExp (if e < 10000 then e * 10 + (c.toNat - 48) else e) cs
    else (e, c :: cs)

/-- The exponent part of `readFloat`, on the text left by the mantissa loop. The result is
the signed exponent when the whole text is a well-formed exponent part (for a decimal
numeral the empty text is one, a hexadecimal numeral must have an exponent). -/
def readExp (hex : Bool) : GoString → Option ℤ
  | [] => if hex then none else some 0
  | c :: r =>
    if (hex ∧ (c = 'p' ∨ c = 'P')) ∨ (¬ hex ∧ (c = 'e' ∨ c = 'E')) then
      match r with
      | [] => none
      | d :: r2 =>
        let r3 := if d = '+' ∨ d = '-' then r2 else d :: r2
        match r3 with
        | [] => none
        | d0 :: _ =>
          if '0' ≤ d0 ∧ d0 ≤ '9' then
            match scanExp 0 r3 with
            | (e, []) => some (if d = '-' then -(e : ℤ) else (e : ℤ))
            | (_, _ :: _) => none
          else none
    else none

/-- Worker of `underscoreOK`: `saw` is the class of the last character seen, `0` for a
digit, `1` for an underscore, `2` for anything else. -/
def underscoreScan (hex : Bool) : Nat → GoString → Bool
  | saw, [] => saw != 1
  | saw, c :: cs =>
    if (digitVal hex c).isSome then underscoreScan hex 0 cs
    else if c = '_' then (if saw = 0 then underscoreScan hex 1 cs else false)
    else if saw = 1 then false
    else underscoreScan hex 2 cs

/-- Go `strconv.underscoreOK`: underscores stand only between digits, or between a base
prefix and a digit. -/
def underscoreOK (s : GoString) : Bool :=
  let s1 := match s with
    | c :: cs => if c = '-' ∨ c = '+' then cs else c :: cs
    | [] => []
  match s1 with
  | '0' :: x :: rest =>
    if x = 'b' ∨ x = 'B' ∨ x = 'o' ∨ x = 'O' ∨ x = 'x' ∨ x = 'X' then
      underscoreScan (decide (x = 'x' ∨ x = 'X')) 0 rest
    else underscoreScan false 2 s1
  | _ => underscoreScan false 2 s1

/-- The numeral read by `readFloat`: sign, hexadecimal flag, mantissa state and exponent. -/
structure Numeral where
  neg : Bool
  hex : Bool
  st : Scan
  exp : ℤ
  deriving DecidableEq

/-- The test of `readFloat` for the base prefix `0x`, which needs a character after it. -/
def isHexStart : GoString → Bool
  | '0' :: x :: _ :: _ => decide (x = 'x' ∨ x = 'X')
  | _ => false

/-- The part of `readFloat` after the optional sign: base prefix, mantissa and exponent. -/
def readBody (body : GoString) : Option (Bool × Scan × ℤ) :=
  let hex := isHexStart body
  let r := scanMant hex ⟨0, 0, false, false⟩ (if hex then body.drop 2 else body)
  if r.1.sawdigits then (readExp hex r.2).map (fun e => (hex, r.1, e)) else none

/-- Go `strconv.readFloat` followed by the check that the whole text was read. -/
def readFloat : GoString → Option Numeral
  | [] => none
  | c :: cs =>
    match readBody (if c = '+' ∨ c = '-' then cs else c :: cs) with
    | some (hex, st, e) =>
      if underscoreOK (c :: cs) then some ⟨decide (c = '-'), hex, st, e⟩ else none
    | none => none

/-- The exact magnitude of a numeral. -/
def Numeral.magnitude (n : Numeral) : ℚ :=
  if n.hex then (n.st.mant : ℚ) / 16 ^ n.st.frac * 2 ^ n.exp
  else (n.st.mant : ℚ) / 10 ^ n.st.frac * 10 ^ n.exp

/-- Go `strconv.ParseFloat(s, 64)`. -/
def parseFloat (s : GoString) : Except NumErr F64 :=
  match special s with
  | some (v, n) => if n = s.length then .ok v else .error .badForm
  | none =>
    match readFloat s with
    | none => .error .badForm
    | some n =>
      if overflowBound ≤ n.magnitude then .error .outOfRange
      else .ok (F64.fin (if n.neg then -n.magnitude else n.magnitude))

/-- Value of a text of decimal digits only, with the number of digits read. -/
def digitsValue : Nat → GoString → Option Nat
  | acc, [] => some acc
  | acc, c :: cs => if '0' ≤ c ∧ c ≤ '9' then digitsValue (acc * 10 + (c.toNat - 48)) cs else none

/-- Go `strconv.ParseUint(s, 10, 64)`. -/
def parseUint (s : GoString) : Except NumErr Nat :=
  match s with
  | [] => .error .badForm
  | _ :: _ =>
    match digitsValue 0 s with
    | none => .error .badForm
    | some n => if n < 2 ^ 64 then .ok n else .error .outOfRange

/-! ## The extractors of `product.go` -/

/-- The body of Go `findPrice` once the price text has been chosen (lines 46 to 95). -/
def parsePrice (strPrice : GoString) : Run F64 :=
  if strPrice = [] then Run.ok F64.zero
  else if !hasPrefix strPrice ['$'] then Run.ok F64.zero
  else
    let strPrice := removeAll [','] strPrice
    if contains strPrice ['-'] then
      match splitOn '-' strPrice with
      | [p0, p1] =>
        match sliceFrom1 p0, sliceFrom1 p1 with
        | Run.ok l, Run.ok h =>
          match parseFloat (trimSpace l) with
          | .error _ => Run.ok F64.zero
          | .ok lowPrice =>
            match parseFloat (trimSpace h) with
            | .error _ => Run.ok F64.zero
            | .ok highPrice => Run.ok (F64.divConst (F64.add lowPrice highPrice) 2)
        | _, _ => Run.fault
      | _ => Run.ok F64.zero
    else
      match sliceFrom1 strPrice with
      | Run.fault => Run.fault
      | Run.ok rest =>
        match parseFloat (removeAll [','] (trimSpace rest)) with
        | .error _ => Run.ok F64.zero
        | .ok numPrice => Run.ok numPrice

/-- Go `findPrice`, on the texts of the sale-price and the regular-price regions: the
sale-price text is used unless it is empty. -/
def findPrice (sale regular : GoString) : Run F64 :=
  parsePrice (if sale = [] then regular else sale)

/-- Go `findReviews`, on the text of the review-count region. -/
def findReviews (strReviews : GoString) : Run Nat :=
  if !contains strReviews "customer review".toList then Run.ok 0
  else
    match splitOn ' ' (removeAll [','] strReviews) with
    | [] => Run.fault
    | r0 :: _ =>
      match parseUint (trimSpace r0) with
      | .error _ => Run.ok 0
      | .ok numReviews => Run.ok numReviews

/-! ## package `regexp` -/

/-- One element of a pattern: a character class taken once, optionally, any number of times
or at least once (the repetitions are greedy), or a choice between literal words, tried in
the order written. -/
inductive Item where
  | one (p : Char → Bool)
  | opt (p : Char → Bool)
  | star (p : Char → Bool)
  | plus (p : Char → Bool)
  | alt (ws : List GoString)

/-- Greedy repetition of the class `p` followed by the rest of the pattern `k`: one more
character is taken whenever that leads to a match, and the rest is tried at the current
position otherwise. The result is the matched text. -/
def starK (p : Char → Bool) (k : GoString → Option GoString) : GoString → Option GoString
  | [] => k []
  | c :: cs =>
    if p c then
      match starK p k cs with
      | some m => some (c :: m)
      | none => k (c :: cs)
    else k (c :: cs)

/-- A choice between literal words followed by the rest of the pattern `k`; the first word
that leads to a match wins. -/
def altK (k : GoString → Option GoString) (s : GoString) : List GoString → Option GoString
  | [] => none
  | w :: ws =>
    if w.isPrefixOf s then
      match k (s.drop w.length) with
      | some m => some (w ++ m)
      | none => altK k s ws
    else altK k s ws

/-- One element of a pattern followed by the rest of the pattern `k`, matched at the start
of the text. -/
def matchItem (k : GoString → Option GoString) : Item → GoString → Option GoString
  | Item.one _, [] => none
  | Item.one p, c :: cs => if p c then (k cs).map (fun m => c :: m) else none
  | Item.opt _, [] => k []
  | Item.opt p, c :: cs =>
    if p c then
      match k cs with
      | some m => some (c :: m)
      | none => k (c :: cs)
    else k (c :: cs)
  | Item.star p, s => starK p k s
  | Item.plus _, [] => none
  | Item.plus p, c :: cs => if p c then (starK p k cs).map (fun m => c :: m) else none
  | Item.alt ws, s => altK k s ws

/-- The text matched by a pattern at the start of `s`, with the leftmost-first preference of
Go `regexp`. -/
def matchSeq : List Item → GoString → Option GoString
  | [], _ => some []
  | it :: rest, s => matchItem (matchSeq rest) it s

/-- The leftmost match of a pattern in `s`, with the text that follows it. -/
def firstMatch (re : List Item) : GoString → Option (GoString × GoString)
  | [] => (matchSeq re []).map (fun m => (m, []))
  | c :: cs =>
    match matchSeq re (c :: cs) with
    | some m => some (m, (c :: cs).drop m.length)
    | none => firstMatch re cs

/-- Go `(*Regexp).FindString`: the leftmost match, or the empty string when there is
none. -/
def findString (re : List Item) (s : GoString) : GoString :=
  match firstMatch re s with
  | some (m, _) => m
  | none => []

/-- Go `(*Regexp).FindAllString(s, n)` for a pattern that matches no empty text: the first
`n` successive non-overlapping matches. -/
def findAllString (re : List Item) : Nat → GoString → List GoString
  | 0, _ => []
  | n + 1, s =>
    match firstMatch re s with
    | none => []
    | some (m, rest) => m :: findAllString re n rest

/-- The class `[0-9]`. -/
def reDigit (c : Char) : Bool := decide ('0' ≤ c ∧ c ≤ '9')

/-- The class `\s` of Go `regexp`: tab, line feed, form feed, carriage return, space. -/
def reSpace (c : Char) : Bool :=
  c = '\t' || c = '\n' || c.toNat = 0x0C || c = '\r' || c = ' '

/-- The class `.` of Go `regexp`: any character but the line feed. -/
def reAny (c : Char) : Bool := decide (c ≠ '\n')

/-- A literal character. -/
def reChar (a : Char) : Item := Item.one (fun c => decide (c = a))

/-- The pattern `[0-9]+\.?[0-9]*`. -/
def reNumber : List Item :=
  [Item.plus reDigit, Item.opt (fun c => decide (c = '.')), Item.star reDigit]

/-- The pattern `\s+x\s+`. -/
def reTimes : List Item := [Item.plus reSpace, reChar 'x', Item.plus reSpace]

/-- The pattern of `findDimensions`:
`[0-9]+\.?[0-9]*\s+x\s+[0-9]+\.?[0-9]*\s+x\s+[0-9]+\.?[0-9]*\s+inches`. -/
def reDimensions : List Item :=
  reNumber ++ reTimes ++ reNumber ++ reTimes ++ reNumber ++
    [Item.plus reSpace, Item.alt ["inches".toList]]

/-- The pattern of `findWeight`: `[0-9]+\.?[0-9]*\s+(ounces|pounds)`. -/
def reWeight : List Item :=
  reNumber ++ [Item.plus reSpace, Item.alt ["ounces".toList, "pounds".toList]]

/-- The pattern of `findBSR`: `#[0-9]+\.?[0-9]*\s+in\s+.+\s+`. -/
def reBSR : List Item :=
  [reChar '#'] ++ reNumber ++
    [Item.plus reSpace, Item.alt ["in".toList], Item.plus reSpace, Item.plus reAny,
     Item.plus reSpace]

/-- Go `findDimensions`, on the detail text. -/
def findDimensions (container : GoString) : F64 × F64 × F64 :=
  let strDim := findString reDimensions container
  if strDim = [] then (F64.zero, F64.zero, F64.zero)
  else
    match splitOn 'x' strDim with
    | [d0, d1, d2] =>
      let strLength := removeAll [','] (trimSpace d0)
      let strWidth := removeAll [','] (trimSpace d1)
      let strHeight := removeAll [','] (trimSpace (removeAll "inches".toList d2))
      match parseFloat strLength with
      | .error _ => (F64.zero, F64.zero, F64.zero)
      | .ok numLength =>
        match parseFloat strWidth with
        | .error _ => (F64.zero, F64.zero, F64.zero)
        | .ok numWidth =>
          match parseFloat strHeight with
          | .error _ => (F64.zero, F64.zero, F64.zero)
          | .ok numHeight => (numLength, numWidth, numHeight)
    | _ => (F64.zero, F64.zero, F64.zero)

/-- Go `findWeight`, on the detail text. -/
def findWeight (container : GoString) : Run F64 :=
  let sliceWeight := findAllString reWeight 2 container
  let strWeight := match sliceWeight.getLast? with
    | some w => w
    | none => []
  if strWeight = [] then Run.ok F64.zero
  else
    match splitOn ' ' strWeight with
    | [] => Run.fault
    | w0 :: _ =>
      match parseFloat (removeAll [','] (trimSpace w0)) with
      | .error _ => Run.ok F64.zero
      | .ok numWeight => Run.ok numWeight

/-- Go `findBSR`, on the detail text. -/
def findBSR (container : GoString) : Run Nat :=
  let strBSR := findString reBSR container
  if strBSR = [] then Run.ok 0
  else
    match splitOn ' ' strBSR with
    | [] => Run.fault
    | b0 :: _ =>
      let strBSR := trimSpace b0
      if !hasPrefix strBSR ['#'] then Run.ok 0
      else
        match sliceFrom1 strBSR with
        | Run.fault => Run.fault
        | Run.ok rest =>
          match parseUint (removeAll [','] rest) with
          | .error _ => Run.ok 0
          | .ok numBSR => Run.ok numBSR

/-! ## The acceptance filter -/

/-- Go `Product`. -/
structure Product where
  Name : GoString
  Link : GoString
  Price : F64
  BSR : Nat
  Reviews : Nat
  Length : F64
  Width : F64
  Height : F64
  Weight : F64

/-- Modelled from the spec: the `options` struct, declared outside `product.go`. Its
fields are the ones `isValid` reads: the decimal ones are `float64`, the ones `isValid`
converts with `float64(...)` are integers. -/
structure options where
  tolerance : F64
  minPrice : F64
  maxPrice : F64
  minBSR : ℤ
  maxBSR : ℤ
  minReviews : ℤ
  maxReviews : ℤ
  maxLength : F64
  maxWidth : F64
  maxHeight : F64
  maxWeight : F64

/-- The expression `(1 - opts.tolerance/100) * x` of `isValid`. -/
def lowered (opts : options) (x : F64) : F64 :=
  F64.mul (F64.sub (F64.fin 1) (F64.divConst opts.tolerance 100)) x

/-- The expression `(1 + opts.tolerance/100) * x` of `isValid`. -/
def raised (opts : options) (x : F64) : F64 :=
  F64.mul (F64.add (F64.fin 1) (F64.divConst opts.tolerance 100)) x

/-- Go `(*Product).isValid`. -/
def isValid (prod : Product) (opts : options) : Bool :=
  let minPrice := lowered opts opts.minPrice
  let maxPrice := raised opts opts.maxPrice
  let minBSR := lowered opts (F64.ofInt opts.minBSR)
  let maxBSR := raised opts (F64.ofInt opts.maxBSR)
  let minReviews := lowered opts (F64.ofInt opts.minReviews)
  let maxReviews := raised opts (F64.ofInt opts.maxReviews)
  let maxLength := raised opts opts.maxLength
  let maxWidth := raised opts opts.maxWidth
  let maxHeight := raised opts opts.maxHeight
  let maxWeight := raised opts opts.maxWeight
  if F64.lt prod.Price minPrice || F64.gt prod.Price maxPrice then false
  else if F64.lt (F64.ofInt prod.BSR) minBSR || F64.gt (F64.ofInt prod.BSR) maxBSR then false
  else if F64.lt (F64.ofInt prod.Reviews) minReviews ||
      F64.gt (F64.ofInt prod.Reviews) maxReviews then false
  else if F64.gt prod.Length maxLength then false
  else if F64.gt prod.Width maxWidth then false
  else if F64.gt prod.Height maxHeight then false
  else if F64.gt prod.Weight maxWeight then false
  else true

/-- A `float64` that is not below zero: NaN, or a value `v` with `0 <= v`. -/
def F64.NotNeg (v : F64) : Prop := v = F64.nan ∨ F64.le F64.zero v = true

/-! ## Decimal numerals, for the statements about the extractors -/

/-- The number written by a text of decimal digits, continuing from `acc`. -/
def digitsFrom (acc : Nat) (ds : GoString) : Nat :=
  ds.foldl (fun a c => a * 10 + (c.toNat - 48)) acc

/-- The number written by a text of decimal digits. -/
def digitsNat (ds : GoString) : Nat := digitsFrom 0 ds

/-- The text of an optional fractional part: nothing, or a point followed by digits. -/
def fracText : Option GoString → GoString
  | none => []
  | some fp => '.' :: fp

/-- The digits of an optional fractional part. -/
def fracDigits : Option GoString → GoString
  | none => []
  | some fp => fp

/-- The value of the decimal numeral with integer digits `ip` and optional fractional
part `fr`. -/
def decimalValue (ip : GoString) (fr : Option GoString) : ℚ :=
  (digitsNat (ip ++ fracDigits fr) : ℚ) / 10 ^ (fracDigits fr).length

/-- A text of decimal digits only. -/
def AllDigits (ds : GoString) : Prop := ∀ c ∈ ds, reDigit c = true

/-- A text of decimal digits and thousands separators, with at least one digit. -/
def GroupedDigits (ip : GoString) : Prop :=
  (∀ c ∈ ip, reDigit c = true ∨ c = ',') ∧ ∃ c ∈ ip, reDigit c = true

/-! ## The acceptance filter as the specification words it -/

/-- Go `math.IsNaN`. -/
def F64.isNaN : F64 → Bool
  | F64.nan => true
  | _ => false

/-- The seven inclusive checks of the specification, with `t = tolerance/100`:
`(1-t)*min <= value <= (1+t)*max` for price, rank and reviews, and `value <= (1+t)*max` for
length, width, height and weight. The bounds are the `float64` values of the code, each
operation rounded; `realChecks` reads the same checks over the real numbers. -/
def sevenChecks (prod : Product) (opts : options) : Prop :=
  (F64.le (lowered opts opts.minPrice) prod.Price = true ∧
    F64.le prod.Price (raised opts opts.maxPrice) = true) ∧
  (F64.le (lowered opts (F64.ofInt opts.minBSR)) (F64.ofInt prod.BSR) = true ∧
    F64.le (F64.ofInt prod.BSR) (raised opts (F64.ofInt opts.maxBSR)) = true) ∧
  (F64.le (lowered opts (F64.ofInt opts.minReviews)) (F64.ofInt prod.Reviews) = true ∧
    F64.le (F64.ofInt prod.Reviews) (raised opts (F64.ofInt opts.maxReviews)) = true) ∧
  F64.le prod.Length (raised opts opts.maxLength) = true ∧
  F64.le prod.Width (raised opts opts.maxWidth) = true ∧
  F64.le prod.Height (raised opts opts.maxHeight) = true ∧
  F64.le prod.Weight (raised opts opts.maxWeight) = true

/-- None of the values that `isValid` compares is NaN: the five decimal fields of the
product and the ten expanded bounds. -/
def NoNaN (prod : Product) (opts : options) : Prop :=
  (F64.isNaN prod.Price = false ∧ F64.isNaN prod.Length = false ∧
    F64.isNaN prod.Width = false ∧ F64.isNaN prod.Height = false ∧
    F64.isNaN prod.Weight = false) ∧
  (F64.isNaN (lowered opts opts.minPrice) = false ∧
    F64.isNaN (raised opts opts.maxPrice) = false ∧
    F64.isNaN (lowered opts (F64.ofInt opts.minBSR)) = false ∧
    F64.isNaN (raised opts (F64.ofInt opts.maxBSR)) = false ∧
    F64.isNaN (lowered opts (F64.ofInt opts.minReviews)) = false ∧
    F64.isNaN (raised opts (F64.ofInt opts.maxReviews)) = false) ∧
  (F64.isNaN (raised opts opts.maxLength) = false ∧
    F64.isNaN (raised opts opts.maxWidth) = false ∧
    F64.isNaN (raised opts opts.maxHeight) = false ∧
    F64.isNaN (raised opts opts.maxWeight) = false)

/-- The criteria of the specification's example: prices from 10 to 20 with a tolerance of
10 percent; ranks and reviews from 0 to 1000, sizes and weight up to 100. -/
def sampleOptions : options :=
  { tolerance := F64.fin 10, minPrice := F64.fin 10, maxPrice := F64.fin 20,
    minBSR := 0, maxBSR := 1000, minReviews := 0, maxReviews := 1000,
    maxLength := F64.fin 100, maxWidth := F64.fin 100, maxHeight := F64.fin 100,
    maxWeight := F64.fin 100 }

/-- A product with the given price, rank 45, 150 reviews, 12.3 x 14 x 23 inches and a
weight of 2.5. -/
def sampleProduct (price : F64) : Product :=
  { Name := "kettle".toList, Link := "link".toList, Price := price, BSR := 45,
    Reviews := 150, Length := F64.fin 12.3, Width := F64.fin 14, Height := F64.fin 23,
    Weight := F64.fin 2.5 }

/-- Criteria whose bounds are all zero. -/
def zeroOptions : options :=
  { tolerance := F64.fin 0, minPrice := F64.fin 0, maxPrice := F64.fin 0,
    minBSR := 0, maxBSR := 0, minReviews := 0, maxReviews := 0,
    maxLength := F64.fin 0, maxWidth := F64.fin 0, maxHeight := F64.fin 0,
    maxWeight := F64.fin 0 }

/-- The product read from a page whose price text is "$NaN" and that shows nothing else. -/
def nanProduct : Product :=
  { Name := [], Link := [], Price := F64.nan, BSR := 0, Reviews := 0,
    Length := F64.zero, Width := F64.zero, Height := F64.zero, Weight := F64.zero }

/-- A text of white space that holds no space character (tabs, line breaks and the like). -/
def OtherSpace (s : GoString) : Prop := ∀ c ∈ s, isSpace c = true ∧ c ≠ ' '

/-! ## What a pattern matches -/

/-- The texts matched by a pattern, element by element. -/
def Lang : List Item → GoString → Prop
  | [], m => m = []
  | Item.one p :: r, m => ∃ c b, m = c :: b ∧ p c = true ∧ Lang r b
  | Item.opt p :: r, m => Lang r m ∨ ∃ c b, m = c :: b ∧ p c = true ∧ Lang r b
  | Item.star p :: r, m => ∃ a b, m = a ++ b ∧ (∀ x ∈ a, p x = true) ∧ Lang r b
  | Item.plus p :: r, m =>
    ∃ c a b, m = c :: (a ++ b) ∧ p c = true ∧ (∀ x ∈ a, p x = true) ∧ Lang r b
  | Item.alt ws :: r, m => ∃ w ∈ ws, ∃ b, m = w ++ b ∧ Lang r b

/-- The text `s` holds a match of the pattern that starts after `n` characters. -/
def MatchAt (re : List Item) (s : GoString) (n : Nat) : Prop :=
  ∃ pre m post, s = pre ++ m ++ post ∧ pre.length = n ∧ Lang re m

/-- A continuation that returns only prefixes of its input that lie in `L`. -/
def KSound (k : GoString → Option GoString) (L : GoString → Prop) : Prop :=
  ∀ s m, k s = some m → (∃ rest, s = m ++ rest) ∧ L m

/-- A continuation that finds a match whenever its input starts with a text of `L`. -/
def KComplete (k : GoString → Option GoString) (L : GoString → Prop) : Prop :=
  ∀ m rest, L m → (k (m ++ rest)).isSome = true

/-! ## The numbers inside a match -/

/-- A number as the patterns write it, `[0-9]+\.?[0-9]*`: its integer digits and its
optional fractional part. -/
structure DecNum where
  ip : GoString
  fr : Option GoString

/-- The text of a number. -/
def DecNum.text (n : DecNum) : GoString := n.ip ++ fracText n.fr

/-- The value of a number. -/
def DecNum.value (n : DecNum) : ℚ := decimalValue n.ip n.fr

/-- The parts of a number are digits, and there is at least one integer digit. -/
def DecNum.WellFormed (n : DecNum) : Prop :=
  n.ip ≠ [] ∧ AllDigits n.ip ∧ AllDigits (fracDigits n.fr)

/-- A number whose value is below the overflow bound of `float64`. -/
def DecNum.InRange (n : DecNum) : Prop := n.value < overflowBound

instance DecNum.decInRange (n : DecNum) : Decidable n.InRange :=
  inferInstanceAs (Decidable (n.value < overflowBound))

/-- A non-empty run of white space of the class `\s`. -/
def ReSpaces (w : GoString) : Prop := w ≠ [] ∧ ∀ c ∈ w, reSpace c = true

/-- The text `a w1 x w2 b w3 x w4 c w5 inches` of a match of the dimension pattern. -/
def dimText (a b c : DecNum) (w1 w2 w3 w4 w5 : GoString) : GoString :=
  (a.text ++ w1) ++ 'x' :: ((w2 ++ b.text ++ w3) ++ 'x' :: (w4 ++ c.text ++ w5 ++
    "inches".toList))

/-- The text `s` is `pre ++ m ++ rest`, where `m` matches the pattern and no match of the
pattern starts before `m`. -/
def LeftmostMatch (re : List Item) (s pre m rest : GoString) : Prop :=
  s = pre ++ m ++ rest ∧ Lang re m ∧ ∀ k, k < pre.length → ¬ MatchAt re s k

/-! ## The filter at particular tolerances -/

/-- The filter with the declared bounds taken exactly, as the specification words it for a
tolerance of 0: `min <= value <= max` for price, rank and reviews, and `value <= max` for
length, width, height and weight. Rank and reviews are compared as the integers they
are. -/
def exactChecks (prod : Product) (opts : options) : Prop :=
  (F64.le opts.minPrice prod.Price = true ∧ F64.le prod.Price opts.maxPrice = true) ∧
  (opts.minBSR ≤ (prod.BSR : ℤ) ∧ (prod.BSR : ℤ) ≤ opts.maxBSR) ∧
  (opts.minReviews ≤ (prod.Reviews : ℤ) ∧ (prod.Reviews : ℤ) ≤ opts.maxReviews) ∧
  F64.le prod.Length opts.maxLength = true ∧
  F64.le prod.Width opts.maxWidth = true ∧
  F64.le prod.Height opts.maxHeight = true ∧
  F64.le prod.Weight opts.maxWeight = true

/-- None of the decimal fields of the product and none of the declared decimal bounds is
NaN. -/
def NoNaNDeclared (prod : Product) (opts : options) : Prop :=
  (F64.isNaN prod.Price = false ∧ F64.isNaN prod.Length = false ∧
    F64.isNaN prod.Width = false ∧ F64.isNaN prod.Height = false ∧
    F64.isNaN prod.Weight = false) ∧
  (F64.isNaN opts.minPrice = false ∧ F64.isNaN opts.maxPrice = false) ∧
  (F64.isNaN opts.maxLength = false ∧ F64.isNaN opts.maxWidth = false ∧
    F64.isNaN opts.maxHeight = false ∧ F64.isNaN opts.maxWeight = false)

/-- All declared bounds are non-negative. -/
def NonNegBounds (opts : options) : Prop :=
  (F64.le F64.zero opts.minPrice = true ∧ F64.le F64.zero opts.maxPrice = true) ∧
  (0 ≤ opts.minBSR ∧ 0 ≤ opts.maxBSR ∧ 0 ≤ opts.minReviews ∧ 0 ≤ opts.maxReviews) ∧
  (F64.le F64.zero opts.maxLength = true ∧ F64.le F64.zero opts.maxWidth = true ∧
    F64.le F64.zero opts.maxHeight = true ∧ F64.le F64.zero opts.maxWeight = true)

/-- The criteria `opts` with the tolerance replaced by `t`. -/
def withTolerance (opts : options) (t : F64) : options :=
  { opts with tolerance := t }

/-- Criteria with exact bounds: prices from 10 to 20 and a tolerance of 0. -/
def exactOptions : options := withTolerance sampleOptions (F64.fin 0)

/-- Criteria with a tolerance of 100. -/
def fullOptions : options := withTolerance sampleOptions (F64.fin 100)

/-- The product of a page on which no field could be read: every field is its zero
value. -/
def unreadProduct : Product :=
  { Name := [], Link := [], Price := F64.zero, BSR := 0, Reviews := 0,
    Length := F64.zero, Width := F64.zero, Height := F64.zero, Weight := F64.zero }

/-- A value of the model that is a `float64`: NaN, an infinity, or a finite number that
`float64` represents. -/
def F64.IsFloat : F64 → Prop
  | F64.fin q => IsFloatQ q
  | _ => True

/-- Whether a `float64` is a finite number. -/
def F64.isFinite : F64 → Bool
  | F64.fin _ => true
  | _ => false

/-- The number of a finite `float64` (0 for NaN and the infinities). -/
def F64.toRat : F64 → ℚ
  | F64.fin q => q
  | _ => 0

/-- The seven inclusive checks of the specification read over the real numbers: every
compared value is a finite number and, with `t = tolerance/100` and sums and products
taken exactly, `(1-t)*min <= value <= (1+t)*max` for price, rank and reviews, and
`value <= (1+t)*max` for length, width, height and weight. -/
def realChecks (prod : Product) (opts : options) : Prop :=
  (F64.isFinite opts.tolerance = true ∧ F64.isFinite prod.Price = true ∧
    F64.isFinite prod.Length = true ∧ F64.isFinite prod.Width = true ∧
    F64.isFinite prod.Height = true ∧ F64.isFinite prod.Weight = true ∧
    F64.isFinite opts.minPrice = true ∧ F64.isFinite opts.maxPrice = true ∧
    F64.isFinite opts.maxLength = true ∧ F64.isFinite opts.maxWidth = true ∧
    F64.isFinite opts.maxHeight = true ∧ F64.isFinite opts.maxWeight = true) ∧
  ((1 - F64.toRat opts.tolerance / 100) * F64.toRat opts.minPrice ≤ F64.toRat prod.Price ∧
    F64.toRat prod.Price ≤ (1 + F64.toRat opts.tolerance / 100) * F64.toRat opts.maxPrice) ∧
  ((1 - F64.toRat opts.tolerance / 100) * (opts.minBSR : ℚ) ≤ (prod.BSR : ℚ) ∧
    (prod.BSR : ℚ) ≤ (1 + F64.toRat opts.tolerance / 100) * (opts.maxBSR : ℚ)) ∧
  ((1 - F64.toRat opts.tolerance / 100) * (opts.minReviews : ℚ) ≤ (prod.Reviews : ℚ) ∧
    (prod.Reviews : ℚ) ≤ (1 + F64.toRat opts.tolerance / 100) * (opts.maxReviews : ℚ)) ∧
  F64.toRat prod.Length ≤ (1 + F64.toRat opts.tolerance / 100) * F64.toRat opts.maxLength ∧
  F64.toRat prod.Width ≤ (1 + F64.toRat opts.tolerance / 100) * F64.toRat opts.maxWidth ∧
  F64.toRat prod.Height ≤ (1 + F64.toRat opts.tolerance / 100) * F64.toRat opts.maxHeight ∧
  F64.toRat prod.Weight ≤ (1 + F64.toRat opts.tolerance / 100) * F64.toRat opts.maxWeight

/-- The declared decimal bounds are `float64` values. -/
def FloatBounds (opts : options) : Prop :=
  (F64.IsFloat opts.minPrice ∧ F64.IsFloat opts.maxPrice) ∧
  (F64.IsFloat opts.maxLength ∧ F64.IsFloat opts.maxWidth ∧
    F64.IsFloat opts.maxHeight ∧ F64.IsFloat opts.maxWeight)

/-- Rank, review count and their declared bounds are at most `2^53` in magnitude, the range
in which `float64(n)` is `n` itself. -/
def ExactInts (prod : Product) (opts : options) : Prop :=
  ((prod.BSR : ℤ) ≤ 2 ^ 53 ∧ (prod.Reviews : ℤ) ≤ 2 ^ 53) ∧
  (|opts.minBSR| ≤ 2 ^ 53 ∧ |opts.maxBSR| ≤ 2 ^ 53) ∧
  (|opts.minReviews| ≤ 2 ^ 53 ∧ |opts.maxReviews| ≤ 2 ^ 53)

/-- Criteria with the given tolerance and price range; ranks and reviews from 0 to 1000,
sizes and weight up to 100. -/
def priceOptions (t lo hi : F64) : options :=
  { tolerance := t, minPrice := lo, maxPrice := hi,
    minBSR := 0, maxBSR := 1000, minReviews := 0, maxReviews := 1000,
    maxLength := F64.fin 100, maxWidth := F64.fin 100, maxHeight := F64.fin 100,
    maxWeight := F64.fin 100 }

/-- A product with the given price and rank; nothing else could be read from its page. -/
def pricedProduct (price : F64) (rank : Nat) : Product :=
  { Name := [], Link := [], Price := price, BSR := rank, Reviews := 0,
    Length := F64.zero, Width := F64.zero, Height := F64.zero, Weight := F64.zero }

/-- Criteria with a tolerance of 0 whose only bound above zero is the maximum rank. -/
def rankOptions (maxRank : ℤ) : options :=
  { tolerance := F64.fin 0, minPrice := F64.fin 0, maxPrice := F64.fin 0,
    minBSR := 0, maxBSR := maxRank, minReviews := 0, maxReviews := 0,
    maxLength := F64.fin 0, maxWidth := F64.fin 0, maxHeight := F64.fin 0,
    maxWeight := F64.fin 0 }

/-! ## `getProduct` -/

/-- The texts that `getProduct` reads from a parsed page, one for each selector:
`#productTitle`, `#priceblock_saleprice`, `#priceblock_ourprice`, `#acrCustomerReviewText`
and `#dp-container`. -/
structure Document where
  productTitle : GoString
  salePrice : GoString
  ourPrice : GoString
  reviewText : GoString
  dpContainer : GoString

/-- An HTTP response: its status code and its body. -/
structure Response where
  StatusCode : Nat
  Body : GoString

/-- What the request of `getProduct` comes to: `http.NewRequest` fails, `client.Do` returns
an error, or a response is available. -/
inductive Fetch where
  | badRequest
  | failed
  | response (res : Response)

/-- The errors that `getProduct` returns. -/
inductive GetError where
  | requestError
  | notFound
  | connectionClosed
  | parseError
  deriving DecidableEq, Repr

/-- How a call of `getProduct` ends: `log.Fatal` stops the process, an extractor panics, or
the call returns a product or an error. -/
inductive Outcome where
  | fatal
  | panicked
  | returned (r : Except GetError Product)

/-- Go `findName`, on the text of the title region. -/
def findName (title : GoString) : GoString := trimSpace title

/-- The default branch of the `select` of `getProduct`: the body is parsed (`parse` stands
for `goquery.NewDocumentFromReader`) and the extractors are run on it. -/
def extractProduct (parse : GoString → Option Document) (link body : GoString) : Outcome :=
  match parse body with
  | none => Outcome.returned (.error GetError.parseError)
  | some doc =>
    let name := findName doc.productTitle
    match findPrice doc.salePrice doc.ourPrice with
    | Run.fault => Outcome.panicked
    | Run.ok price =>
      match findReviews doc.reviewText with
      | Run.fault => Outcome.panicked
      | Run.ok reviews =>
        let container := removeAll [','] doc.dpContainer
        let dims := findDimensions container
        match findWeight container with
        | Run.fault => Outcome.panicked
        | Run.ok weight =>
          match findBSR container with
          | Run.fault => Outcome.panicked
          | Run.ok bsr =>
            Outcome.returned (.ok
              { Name := name, Link := link, Price := price, BSR := bsr, Reviews := reviews,
                Length := dims.1, Width := dims.2.1, Height := dims.2.2, Weight := weight })

/-- Go `getProduct`. The outcome of the request is `fetch`, and `done` tells whether the
`done` channel is ready when the `select` is reached. -/
def getProduct (parse : GoString → Option Document) (link : GoString) (fetch : Fetch)
    (done : Bool) : Outcome :=
  match fetch with
  | Fetch.badRequest => Outcome.fatal
  | Fetch.failed => Outcome.returned (.error GetError.requestError)
  | Fetch.response res =>
    if res.StatusCode ≠ 200 then Outcome.returned (.error GetError.notFound)
    else if done then Outcome.returned (.error GetError.connectionClosed)
    else extractProduct parse link res.Body

/-- A page reader that finds the same five texts whatever the body is. -/
def fixedPage (doc : Document) : GoString → Option Document := fun _ => some doc

/-- A page with the product of the specification's examples. -/
def samplePage : Document :=
  { productTitle := "  Kettle ".toList, salePrice := [], ourPrice := "$12.34".toList,
    reviewText := "150 customer reviews".toList,
    dpContainer :=
      "12.3 x 14 x 23 inches 1.2 pounds 2.5 pounds #1,045 in Kitchen (See Top 100) ".toList }

/-- The product that a call returned, when it returned one. -/
def Outcome.product : Outcome → Option Product
  | Outcome.returned (.ok prod) => some prod
  | _ => none

/-! ## Facts about rounding -/

theorem log2Nat_spec (f n : Nat) (hn : 0 < n) (hf : n ≤ f) :
    2 ^ log2Nat f n ≤ n ∧ n < 2 ^ (log2Nat f n + 1) := by
  induction f generalizing n with
  | zero => omega
  | succ f ih =>
    rw [log2Nat]
    split_ifs with h
    · constructor
      · simpa using hn
      · simpa using h
    · have h2 : 0 < n / 2 := Nat.div_pos (by omega) (by norm_num)
      have h3 : n / 2 ≤ f := by omega
      obtain ⟨ih1, ih2⟩ := ih (n / 2) h2 h3
      constructor
      · rw [pow_succ]
        omega
      · rw [pow_succ]
        omega

theorem log2Floor_spec {x : ℚ} (hx : 0 < x) :
    (2 : ℚ) ^ log2Floor x ≤ x ∧ x < (2 : ℚ) ^ (log2Floor x + 1) := by
  have hnum : 0 < x.num := Rat.num_pos.2 hx
  have hden : 0 < x.den := x.den_pos
  have ha : 0 < x.num.natAbs := Int.natAbs_pos.2 (ne_of_gt hnum)
  obtain ⟨a1, a2⟩ := log2Nat_spec _ _ ha (le_refl _)
  obtain ⟨b1, b2⟩ := log2Nat_spec _ _ hden (le_refl _)
  set la := log2Nat x.num.natAbs x.num.natAbs with hla
  set lb := log2Nat x.den x.den with hlb
  have hxeq : x = (x.num.natAbs : ℚ) / (x.den : ℚ) := by
    have h1 : (x.num.natAbs : ℚ) = (x.num : ℚ) := by
      rw [Nat.cast_natAbs, abs_of_pos hnum]
    rw [h1]
    exact (Rat.num_div_den x).symm
  have hbq : (0 : ℚ) < (x.den : ℚ) := by exact_mod_cast hden
  have a1q : (2 : ℚ) ^ la ≤ (x.num.natAbs : ℚ) := by exact_mod_cast a1
  have a2q : (x.num.natAbs : ℚ) < (2 : ℚ) ^ (la + 1) := by exact_mod_cast a2
  have b1q : (2 : ℚ) ^ lb ≤ (x.den : ℚ) := by exact_mod_cast b1
  have b2q : (x.den : ℚ) < (2 : ℚ) ^ (lb + 1) := by exact_mod_cast b2
  have hpos : ∀ k : ℤ, (0 : ℚ) < (2 : ℚ) ^ k := fun k => zpow_pos (by norm_num) k
  -- x lies strictly between 2^(la-lb-1) and 2^(la-lb+1)
  have hlow : (2 : ℚ) ^ ((la : ℤ) - (lb : ℤ) - 1) < x := by
    rw [hxeq, lt_div_iff₀ hbq]
    have e : (2 : ℚ) ^ ((la : ℤ) - (lb : ℤ) - 1) * (2 : ℚ) ^ ((lb : ℤ) + 1) = (2 : ℚ) ^ (la : ℤ) := by
      rw [← zpow_add₀ (by norm_num : (2 : ℚ) ≠ 0)]
      congr 1
      ring
    have b2z : (x.den : ℚ) < (2 : ℚ) ^ ((lb : ℤ) + 1) := by
      have : (2 : ℚ) ^ ((lb : ℤ) + 1) = (2 : ℚ) ^ (lb + 1) := by norm_cast
      rw [this]; exact b2q
    calc (2 : ℚ) ^ ((la : ℤ) - (lb : ℤ) - 1) * (x.den : ℚ)
        < (2 : ℚ) ^ ((la : ℤ) - (lb : ℤ) - 1) * (2 : ℚ) ^ ((lb : ℤ) + 1) :=
          mul_lt_mul_of_pos_left b2z (hpos _)
      _ = (2 : ℚ) ^ (la : ℤ) := e
      _ = (2 : ℚ) ^ la := by norm_cast
      _ ≤ (x.num.natAbs : ℚ) := a1q
  have hhigh : x < (2 : ℚ) ^ ((la : ℤ) - (lb : ℤ) + 1) := by
    rw [hxeq, div_lt_iff₀ hbq]
    have e : (2 : ℚ) ^ ((la : ℤ) - (lb : ℤ) + 1) * (2 : ℚ) ^ (lb : ℤ) = (2 : ℚ) ^ ((la : ℤ) + 1) := by
      rw [← zpow_add₀ (by norm_num : (2 : ℚ) ≠ 0)]
      congr 1
      ring
    have b1z : (2 : ℚ) ^ (lb : ℤ) ≤ (x.den : ℚ) := by
      have : (2 : ℚ) ^ (lb : ℤ) = (2 : ℚ) ^ lb := by norm_cast
      rw [this]; exact b1q
    calc (x.num.natAbs : ℚ) < (2 : ℚ) ^ (la + 1) := a2q
      _ = (2 : ℚ) ^ ((la : ℤ) + 1) := by norm_cast
      _ = (2 : ℚ) ^ ((la : ℤ) - (lb : ℤ) + 1) * (2 : ℚ) ^ (lb : ℤ) := e.symm
      _ ≤ (2 : ℚ) ^ ((la : ℤ) - (lb : ℤ) + 1) * (x.den : ℚ) :=
          mul_le_mul_of_nonneg_left b1z (hpos _).le
  unfold log2Floor
  simp only [← hla, ← hlb]
  split_ifs with h
  · exact ⟨h, hhigh⟩
  · refine ⟨hlow.le, ?_⟩
    have : (la : ℤ) - (lb : ℤ) - 1 + 1 = (la : ℤ) - (lb : ℤ) := by ring
    rw [this]
    exact not_le.1 h

theorem two_zpow_pos (k : ℤ) : (0 : ℚ) < (2 : ℚ) ^ k := zpow_pos (by norm_num) k

theorem two_zpow_le {a b : ℤ} (h : a ≤ b) : (2 : ℚ) ^ a ≤ (2 : ℚ) ^ b :=
  zpow_le_zpow_right₀ (by norm_num) h

theorem two_zpow_lt {a b : ℤ} (h : a < b) : (2 : ℚ) ^ a < (2 : ℚ) ^ b :=
  zpow_lt_zpow_right₀ (by norm_num) h

theorem two_zpow_add (a b : ℤ) : (2 : ℚ) ^ (a + b) = (2 : ℚ) ^ a * (2 : ℚ) ^ b :=
  zpow_add₀ (by norm_num) a b

/-- The last place of a positive `x`: `x` has at most 53 bits above it, and exactly 53
unless the last place is the smallest one. -/
theorem ulpExp_spec {x : ℚ} (hx : 0 < x) :
    -1074 ≤ ulpExp x ∧ x < (2 : ℚ) ^ (ulpExp x + 53) ∧
      (ulpExp x = -1074 ∨ (2 : ℚ) ^ (ulpExp x + 52) ≤ x) := by
  obtain ⟨h1, h2⟩ := log2Floor_spec hx
  unfold ulpExp
  refine ⟨le_max_right _ _, ?_, ?_⟩
  · have : log2Floor x + 1 ≤ max (log2Floor x - 52) (-1074) + 53 := by
      have := le_max_left (log2Floor x - 52) (-1074)
      omega
    exact lt_of_lt_of_le h2 (two_zpow_le this)
  · rcases le_total (log2Floor x - 52) (-1074) with h | h
    · left
      exact max_eq_right h
    · right
      rw [max_eq_left h]
      have : log2Floor x - 52 + 52 = log2Floor x := by ring
      rw [this]
      exact h1

theorem roundEven_spec (y : ℚ) : |y - (roundEven y : ℚ)| ≤ 1 / 2 := by
  have h1 : (⌊y⌋ : ℚ) ≤ y := Int.floor_le y
  have h2 : y < (⌊y⌋ : ℚ) + 1 := Int.lt_floor_add_one y
  unfold roundEven
  split_ifs with a b c
  · rw [abs_le]; constructor <;> linarith
  · push_cast
    rw [abs_le]; constructor <;> linarith
  · have : y - (⌊y⌋ : ℚ) = 1 / 2 := le_antisymm (not_lt.1 b) (not_lt.1 a)
    rw [abs_le]; constructor <;> linarith
  · have : y - (⌊y⌋ : ℚ) = 1 / 2 := le_antisymm (not_lt.1 b) (not_lt.1 a)
    push_cast
    rw [abs_le]; constructor <;> linarith

/-- No integer is nearer to `y` than `roundEven y`. -/
theorem roundEven_nearest (y : ℚ) (k : ℤ) : |y - (roundEven y : ℚ)| ≤ |y - (k : ℚ)| := by
  have h := roundEven_spec y
  by_cases hk : k = roundEven y
  · rw [hk]
  · have h1 : (1 : ℚ) ≤ |(k : ℚ) - (roundEven y : ℚ)| := by
      have : (1 : ℤ) ≤ |k - roundEven y| := Int.one_le_abs (sub_ne_zero.2 hk)
      exact_mod_cast this
    have h2 : |(k : ℚ) - (roundEven y : ℚ)| ≤ |y - (k : ℚ)| + |y - (roundEven y : ℚ)| := by
      have e : (k : ℚ) - (roundEven y : ℚ) = (y - (roundEven y : ℚ)) - (y - (k : ℚ)) := by ring
      rw [e]
      calc |(y - (roundEven y : ℚ)) - (y - (k : ℚ))|
          ≤ |y - (roundEven y : ℚ)| + |y - (k : ℚ)| := abs_sub _ _
        _ = |y - (k : ℚ)| + |y - (roundEven y : ℚ)| := add_comm _ _
    linarith

theorem roundEven_nonneg {y : ℚ} (hy : 0 ≤ y) : 0 ≤ roundEven y := by
  have h0 : 0 ≤ ⌊y⌋ := Int.floor_nonneg.2 hy
  unfold roundEven
  split_ifs <;> omega

theorem roundEven_le {y : ℚ} {k : ℤ} (hy : y ≤ (k : ℚ)) : roundEven y ≤ k := by
  have h := roundEven_nearest y k
  have hs := roundEven_spec y
  by_contra hc
  have h1 : (k : ℚ) + 1 ≤ (roundEven y : ℚ) := by
    have : k + 1 ≤ roundEven y := by omega
    exact_mod_cast this
  have h2 : |y - (roundEven y : ℚ)| = (roundEven y : ℚ) - y := by
    rw [abs_sub_comm]
    exact abs_of_nonneg (by linarith)
  rw [h2] at hs
  linarith

theorem roundEven_intCast (k : ℤ) : roundEven (k : ℚ) = k := by
  have h := roundEven_nearest (k : ℚ) k
  simp only [sub_self, abs_zero, abs_nonpos_iff] at h
  have : ((roundEven (k : ℚ) : ℤ) : ℚ) = (k : ℚ) := by linarith [sub_eq_zero.1 h]
  exact_mod_cast this

theorem IsFloatQ.neg {q : ℚ} (h : IsFloatQ q) : IsFloatQ (-q) := by
  obtain ⟨m, e, hm, he1, he2, rfl⟩ := h
  exact ⟨-m, e, by simpa using hm, he1, he2, by push_cast; ring⟩

theorem isFloatQ_zero : IsFloatQ 0 := ⟨0, 0, by norm_num, by norm_num, by norm_num, by simp⟩

/-- A `float64` value is a multiple of every last place that is not above its own. -/
theorem IsFloatQ.abs_lt {q : ℚ} (h : IsFloatQ q) : |q| < (2 : ℚ) ^ (1024 : ℤ) := by
  obtain ⟨m, e, hm, he1, he2, rfl⟩ := h
  have hm' : |(m : ℚ)| < (2 : ℚ) ^ (53 : ℤ) := by
    have h1 : ((|m| : ℤ) : ℚ) < (((2 : ℤ) ^ 53 : ℤ) : ℚ) := Int.cast_lt.2 hm
    rw [Int.cast_abs] at h1
    norm_num at h1 ⊢
    exact h1
  rw [abs_mul, abs_of_pos (two_zpow_pos e)]
  calc |(m : ℚ)| * (2 : ℚ) ^ e < (2 : ℚ) ^ (53 : ℤ) * (2 : ℚ) ^ e :=
        mul_lt_mul_of_pos_right hm' (two_zpow_pos e)
    _ = (2 : ℚ) ^ (53 + e) := (two_zpow_add 53 e).symm
    _ ≤ (2 : ℚ) ^ (1024 : ℤ) := two_zpow_le (by omega)

theorem roundPos_zero : roundPos 0 = 0 := by decide!

theorem roundPos_nonneg {x : ℚ} (hx : 0 ≤ x) : 0 ≤ roundPos x := by
  unfold roundPos
  have h1 : 0 ≤ x / 2 ^ ulpExp x := div_nonneg hx (two_zpow_pos _).le
  have h2 : (0 : ℚ) ≤ (roundEven (x / 2 ^ ulpExp x) : ℚ) := by
    exact_mod_cast roundEven_nonneg h1
  exact mul_nonneg h2 (two_zpow_pos _).le

/-- No multiple of the last place is nearer to `x` than `roundPos x`. -/
theorem roundPos_nearest_multiple (x : ℚ) (k : ℤ) :
    |x - roundPos x| ≤ |x - (k : ℚ) * 2 ^ ulpExp x| := by
  have hp := two_zpow_pos (ulpExp x)
  have e1 : x - roundPos x =
      (x / 2 ^ ulpExp x - (roundEven (x / 2 ^ ulpExp x) : ℚ)) * 2 ^ ulpExp x := by
    unfold roundPos
    field_simp
    ring
  have e2 : x - (k : ℚ) * 2 ^ ulpExp x = (x / 2 ^ ulpExp x - (k : ℚ)) * 2 ^ ulpExp x := by
    field_simp
    ring
  rw [e1, e2, abs_mul, abs_mul, abs_of_pos hp]
  exact mul_le_mul_of_nonneg_right (roundEven_nearest _ k) hp.le

theorem overflowBound_lt : overflowBound < (2 : ℚ) ^ (1024 : ℤ) := by
  unfold overflowBound
  norm_num

theorem overflowBound_eq : overflowBound = ((2 : ℚ) ^ (53 : ℤ) - 1 / 2) * (2 : ℚ) ^ (971 : ℤ) := by
  unfold overflowBound
  norm_num

theorem ulpExp_le {x : ℚ} (hx : 0 < x) (hb : x < overflowBound) : ulpExp x ≤ 971 := by
  obtain ⟨_, _, h3⟩ := ulpExp_spec hx
  rcases h3 with h3 | h3
  · omega
  · by_contra hc
    have h4 : (2 : ℚ) ^ (1024 : ℤ) ≤ (2 : ℚ) ^ (ulpExp x + 52) := two_zpow_le (by omega)
    have := overflowBound_lt
    linarith

/-- The mantissa of the rounded value: at most `2^53`, and less when the last place is the
largest one. -/
theorem mantissa_bound {x : ℚ} (hx : 0 < x) (hb : x < overflowBound) :
    0 ≤ roundEven (x / 2 ^ ulpExp x) ∧ roundEven (x / 2 ^ ulpExp x) ≤ 2 ^ 53 ∧
      (ulpExp x = 971 → roundEven (x / 2 ^ ulpExp x) < 2 ^ 53) := by
  obtain ⟨h1, h2, h3⟩ := ulpExp_spec hx
  have hp := two_zpow_pos (ulpExp x)
  have hy : x / 2 ^ ulpExp x < (2 : ℚ) ^ (53 : ℤ) := by
    rw [div_lt_iff₀ hp, ← two_zpow_add]
    have : (53 : ℤ) + ulpExp x = ulpExp x + 53 := by ring
    rw [this]
    exact h2
  refine ⟨roundEven_nonneg (div_nonneg hx.le hp.le), ?_, ?_⟩
  · apply roundEven_le
    have : (((2 : ℤ) ^ 53 : ℤ) : ℚ) = (2 : ℚ) ^ (53 : ℤ) := by norm_num
    rw [this]
    exact hy.le
  · intro hE
    have hs := roundEven_spec (x / 2 ^ ulpExp x)
    have hy2 : x / 2 ^ ulpExp x < (2 : ℚ) ^ (53 : ℤ) - 1 / 2 := by
      rw [div_lt_iff₀ hp, hE, ← overflowBound_eq]
      exact hb
    have h5 := (abs_le.1 hs).1
    have h6 : (roundEven (x / 2 ^ ulpExp x) : ℚ) < (2 : ℚ) ^ (53 : ℤ) := by linarith
    have : (roundEven (x / 2 ^ ulpExp x) : ℚ) < (((2 : ℤ) ^ 53 : ℤ) : ℚ) := by
      have e : (((2 : ℤ) ^ 53 : ℤ) : ℚ) = (2 : ℚ) ^ (53 : ℤ) := by norm_num
      rw [e]; exact h6
    exact_mod_cast this

/-- The rounded value is a `float64` value. -/
theorem roundPos_isFloat {x : ℚ} (hx : 0 ≤ x) (hb : x < overflowBound) :
    IsFloatQ (roundPos x) := by
  rcases eq_or_lt_of_le hx with h0 | hpos
  · rw [← h0, roundPos_zero]
    exact isFloatQ_zero
  · obtain ⟨m0, m1, m2⟩ := mantissa_bound hpos hb
    obtain ⟨e1, _, _⟩ := ulpExp_spec hpos
    have e2 := ulpExp_le hpos hb
    by_cases hm : roundEven (x / 2 ^ ulpExp x) < 2 ^ 53
    · exact ⟨roundEven (x / 2 ^ ulpExp x), ulpExp x, by rw [abs_of_nonneg m0]; exact hm, e1, e2,
        rfl⟩
    · have heq : roundEven (x / 2 ^ ulpExp x) = 2 ^ 53 := le_antisymm m1 (not_lt.1 hm)
      have hE : ulpExp x ≠ 971 := fun h => hm (m2 h)
      refine ⟨2 ^ 52, ulpExp x + 1, by norm_num, by omega, by omega, ?_⟩
      unfold roundPos
      rw [heq, two_zpow_add]
      norm_num
      ring

/-- No `float64` value is nearer to `x` than `roundPos x`. -/
theorem roundPos_nearest {x : ℚ} (hx : 0 ≤ x) (z : ℚ) (hz : IsFloatQ z) :
    |x - roundPos x| ≤ |x - z| := by
  rcases eq_or_lt_of_le hx with h0 | hpos
  · rw [← h0, roundPos_zero]
    simp
  · obtain ⟨m, e, hm, he1, he2, rfl⟩ := hz
    obtain ⟨h1, h2, h3⟩ := ulpExp_spec hpos
    by_cases hle : ulpExp x ≤ e
    · -- the value is a multiple of the last place
      obtain ⟨d, hd⟩ : ∃ d : ℕ, e = ulpExp x + d := ⟨(e - ulpExp x).toNat, by omega⟩
      have : (m : ℚ) * 2 ^ e = ((m * 2 ^ d : ℤ) : ℚ) * 2 ^ ulpExp x := by
        rw [hd, two_zpow_add]
        push_cast
        rw [zpow_natCast]
        ring
      rw [this]
      exact roundPos_nearest_multiple x _
    · -- the value lies below the binade of `x`
      have hE : ulpExp x ≠ -1074 := by omega
      have hg : (2 : ℚ) ^ (ulpExp x + 52) ≤ x := by
        rcases h3 with h3 | h3
        · exact absurd h3 hE
        · exact h3
      have hm' : |(m : ℚ)| < (2 : ℚ) ^ (53 : ℤ) := by
        have h1 : ((|m| : ℤ) : ℚ) < (((2 : ℤ) ^ 53 : ℤ) : ℚ) := Int.cast_lt.2 hm
        rw [Int.cast_abs] at h1
        norm_num at h1 ⊢
        exact h1
      have hz : (m : ℚ) * 2 ^ e < (2 : ℚ) ^ (ulpExp x + 52) := by
        calc (m : ℚ) * 2 ^ e ≤ |(m : ℚ)| * 2 ^ e :=
              mul_le_mul_of_nonneg_right (le_abs_self _) (two_zpow_pos e).le
          _ < (2 : ℚ) ^ (53 : ℤ) * 2 ^ e := mul_lt_mul_of_pos_right hm' (two_zpow_pos e)
          _ = (2 : ℚ) ^ (53 + e) := (two_zpow_add 53 e).symm
          _ ≤ (2 : ℚ) ^ (ulpExp x + 52) := two_zpow_le (by omega)
      have hk := roundPos_nearest_multiple x (2 ^ 52)
      have e3 : (((2 : ℤ) ^ 52 : ℤ) : ℚ) * 2 ^ ulpExp x = (2 : ℚ) ^ (ulpExp x + 52) := by
        rw [two_zpow_add]
        norm_num
        ring
      rw [e3, abs_of_nonneg (sub_nonneg.2 hg)] at hk
      calc |x - roundPos x| ≤ x - (2 : ℚ) ^ (ulpExp x + 52) := hk
        _ ≤ x - (m : ℚ) * 2 ^ e := by linarith
        _ ≤ |x - (m : ℚ) * 2 ^ e| := le_abs_self _

theorem IsFloatQ.abs_lt_overflow {q : ℚ} (h : IsFloatQ q) : |q| < overflowBound := by
  obtain ⟨m, e, hm, he1, he2, rfl⟩ := h
  have hm1 : |m| ≤ 2 ^ 53 - 1 := by omega
  have hm' : |(m : ℚ)| ≤ (2 : ℚ) ^ (53 : ℤ) - 1 := by
    have h1 : ((|m| : ℤ) : ℚ) ≤ (((2 : ℤ) ^ 53 - 1 : ℤ) : ℚ) := Int.cast_le.2 hm1
    rw [Int.cast_abs] at h1
    norm_num at h1 ⊢
    exact h1
  rw [abs_mul, abs_of_pos (two_zpow_pos e)]
  have h2 : (2 : ℚ) ^ e ≤ (2 : ℚ) ^ (971 : ℤ) := two_zpow_le he2
  have h3 : (0 : ℚ) ≤ (2 : ℚ) ^ (53 : ℤ) - 1 := by norm_num
  calc |(m : ℚ)| * (2 : ℚ) ^ e ≤ ((2 : ℚ) ^ (53 : ℤ) - 1) * (2 : ℚ) ^ (971 : ℤ) :=
        mul_le_mul hm' h2 (two_zpow_pos e).le h3
    _ < overflowBound := by
        rw [overflowBound_eq]
        apply mul_lt_mul_of_pos_right _ (two_zpow_pos _)
        norm_num

theorem roundQ_zero : roundQ 0 = 0 := by
  simp [roundQ, roundPos_zero]

theorem roundQ_isFloat {q : ℚ} (hb : |q| < overflowBound) : IsFloatQ (roundQ q) := by
  unfold roundQ
  split_ifs with h
  · apply IsFloatQ.neg
    apply roundPos_isFloat (by linarith)
    rw [abs_of_neg h] at hb
    exact hb
  · push_neg at h
    apply roundPos_isFloat h
    rw [abs_of_nonneg h] at hb
    exact hb

/-- No `float64` value is nearer to `q` than `roundQ q`. -/
theorem roundQ_nearest (q z : ℚ) (hz : IsFloatQ z) : |q - roundQ q| ≤ |q - z| := by
  unfold roundQ
  split_ifs with h
  · have := roundPos_nearest (x := -q) (by linarith) (-z) hz.neg
    have e1 : q - -roundPos (-q) = -(-q - roundPos (-q)) := by ring
    have e2 : q - z = -(-q - -z) := by ring
    rw [e1, e2, abs_neg, abs_neg]
    exact this
  · push_neg at h
    exact roundPos_nearest h z hz

theorem roundQ_of_isFloat {q : ℚ} (h : IsFloatQ q) : roundQ q = q := by
  have := roundQ_nearest q q h
  simp only [sub_self, abs_zero, abs_nonpos_iff] at this
  linarith

theorem roundQ_nonneg {q : ℚ} (h : 0 ≤ q) : 0 ≤ roundQ q := by
  unfold roundQ
  rw [if_neg (not_lt.2 h)]
  exact roundPos_nonneg h

theorem roundQ_nonpos {q : ℚ} (h : q ≤ 0) : roundQ q ≤ 0 := by
  unfold roundQ
  split_ifs with h1
  · have := roundPos_nonneg (x := -q) (by linarith)
    linarith
  · have : q = 0 := le_antisymm h (not_lt.1 h1)
    rw [this, roundPos_zero]

/-- Rounding keeps the order. -/
theorem roundQ_mono {a b : ℚ} (hab : a ≤ b) (ha : |a| < overflowBound)
    (hb : |b| < overflowBound) : roundQ a ≤ roundQ b := by
  by_contra hc
  push_neg at hc
  have h1 := roundQ_nearest a (roundQ b) (roundQ_isFloat hb)
  have h2 := roundQ_nearest b (roundQ a) (roundQ_isFloat ha)
  have s1 := sq_le_sq.2 h1
  have s2 := sq_le_sq.2 h2
  have k1 : 0 ≤ 2 * a - roundQ a - roundQ b := by
    by_contra hk
    push_neg at hk
    nlinarith
  have k2 : 2 * b - roundQ a - roundQ b ≤ 0 := by
    by_contra hk
    push_neg at hk
    nlinarith
  have hab2 : a = b := by linarith
  rw [hab2] at hc
  exact lt_irrefl _ hc

/-! ## Rounding on `float64` -/

theorem overflowBound_pos : 0 < overflowBound := by
  unfold overflowBound
  norm_num

theorem F64.round_cases (q : ℚ) :
    (overflowBound ≤ |q| ∧ F64.round q = F64.inf (decide (q < 0))) ∨
    (|q| < overflowBound ∧ F64.round q = F64.fin (roundQ q)) := by
  unfold F64.round
  by_cases h : overflowBound ≤ |q|
  · left
    exact ⟨h, if_pos h⟩
  · right
    exact ⟨not_le.1 h, if_neg h⟩

theorem F64.isNaN_round (q : ℚ) : F64.isNaN (F64.round q) = false := by
  rcases F64.round_cases q with ⟨_, h⟩ | ⟨_, h⟩ <;> rw [h] <;> rfl

theorem F64.round_ne_nan (q : ℚ) : F64.round q ≠ F64.nan := by
  rcases F64.round_cases q with ⟨_, h⟩ | ⟨_, h⟩ <;> rw [h] <;> simp

theorem F64.round_of_isFloat {q : ℚ} (h : IsFloatQ q) : F64.round q = F64.fin q := by
  unfold F64.round
  rw [if_neg (not_le.2 h.abs_lt_overflow), roundQ_of_isFloat h]

theorem F64.round_zero : F64.round 0 = F64.fin 0 := F64.round_of_isFloat isFloatQ_zero

/-- The rounded value is a `float64`, and no `float64` is nearer to the exact one. -/
theorem F64.round_nearest (q : ℚ) (h : |q| < overflowBound) :
    ∃ r, F64.round q = F64.fin r ∧ IsFloatQ r ∧ ∀ z, IsFloatQ z → |q - r| ≤ |q - z| := by
  refine ⟨roundQ q, ?_, roundQ_isFloat h, fun z hz => roundQ_nearest q z hz⟩
  unfold F64.round
  rw [if_neg (not_le.2 h)]

/-- Rounding keeps the order. -/
theorem F64.round_mono {a b : ℚ} (hab : a ≤ b) :
    F64.le (F64.round a) (F64.round b) = true := by
  have hpos := overflowBound_pos
  rcases F64.round_cases a with ⟨ha, ea⟩ | ⟨ha, ea⟩ <;>
    rcases F64.round_cases b with ⟨hb, eb⟩ | ⟨hb, eb⟩ <;> rw [ea, eb] <;>
    simp only [F64.le, decide_eq_true_eq, Bool.or_eq_true, Bool.not_eq_true',
      decide_eq_false_iff_not, not_lt]
  · by_cases h0 : a < 0
    · exact Or.inl h0
    · right
      rw [abs_of_nonneg (not_lt.1 h0)] at ha
      linarith
  · by_contra h0
    rw [abs_of_nonneg (not_lt.1 h0)] at ha
    have := (abs_lt.1 hb).2
    linarith
  · by_contra h0
    rw [abs_of_neg (not_le.1 h0)] at hb
    have := (abs_lt.1 ha).1
    linarith
  · exact roundQ_mono hab ha hb

theorem F64.round_nonneg {q : ℚ} (h : 0 ≤ q) : F64.le F64.zero (F64.round q) = true := by
  have := F64.round_mono h
  rwa [F64.round_zero] at this

theorem F64.round_nonpos {q : ℚ} (h : q ≤ 0) : F64.le (F64.round q) F64.zero = true := by
  have := F64.round_mono h
  rwa [F64.round_zero] at this

/-! ## Facts about the string functions -/

theorem isPrefixOf_single (c x : Char) (xs : GoString) :
    List.isPrefixOf [c] (x :: xs) = decide (c = x) := by
  simp [List.isPrefixOf, beq_eq_decide]

theorem removeAll_single (c : Char) (s : GoString) :
    removeAll [c] s = s.filter (fun x => decide (x ≠ c)) := by
  unfold removeAll
  induction s with
  | nil => simp [removeAllAux]
  | cons x xs ih =>
    by_cases h : c = x
    · subst h
      simp [removeAllAux, List.isPrefixOf, ih]
    · have h2 : ¬ x = c := fun e => h e.symm
      simp [removeAllAux, List.isPrefixOf, ih, h, h2]

theorem contains_single (c : Char) (s : GoString) : contains s [c] = true ↔ c ∈ s := by
  induction s with
  | nil => simp [contains]
  | cons x xs ih =>
    simp only [contains, isPrefixOf_single, Bool.or_eq_true, decide_eq_true_eq, ih,
      List.mem_cons]

theorem splitOn_ne_nil (sep : Char) (s : GoString) : splitOn sep s ≠ [] := by
  induction s with
  | nil => simp [splitOn]
  | cons x xs ih =>
    unfold splitOn
    split_ifs
    · simp
    · split <;> simp

theorem splitOn_no_sep (sep : Char) (s : GoString) : ∀ p ∈ splitOn sep s, sep ∉ p := by
  induction s with
  | nil => simp [splitOn]
  | cons x xs ih =>
    intro p hp
    unfold splitOn at hp
    split_ifs at hp with h
    · rcases List.mem_cons.1 hp with rfl | hp
      · simp
      · exact ih p hp
    · split at hp
      · simp at hp
        subst hp
        simpa using fun e => h e.symm
      · rename_i hd tl heq
        rcases List.mem_cons.1 hp with rfl | hp
        · have := ih hd (by rw [heq]; simp)
          simp only [List.mem_cons, not_or]
          exact ⟨fun e => h e.symm, this⟩
        · exact ih p (by rw [heq]; simp [hp])

theorem mem_of_mem_trimSpace {c : Char} {s : GoString} (h : c ∈ trimSpace s) : c ∈ s := by
  unfold trimSpace at h
  rw [List.mem_reverse] at h
  have h1 := (List.dropWhile_sublist isSpace).subset h
  rw [List.mem_reverse] at h1
  exact (List.dropWhile_sublist isSpace).subset h1

/-! ## `findPrice` -/

/-- C2: on the documented range text "$10.00 - $15.99" the second side keeps its currency
marker, because only the blank before it is dropped, and `findPrice` returns 0 rather than
the mean 12.995. -/
theorem findPrice_spaced_range :
    findPrice "$10.00 - $15.99".toList [] = Run.ok F64.zero ∧
    findPrice "$10.00 - $15.99".toList [] ≠ Run.ok (F64.fin 12.995) := by
  decide!

/-- C4: on the text "$10-" the second side of the split is empty and dropping its first
character is a run-time panic, so `findPrice` returns no value. -/
theorem findPrice_fault_on_trailing_dash :
    findPrice "$10-".toList [] = Run.fault := by
  decide

/-- C10: when the effective price text (the sale-price text, or the regular-price text when
the sale-price text is empty) does not start with "$", `findPrice` returns 0. -/
theorem findPrice_no_dollar (sale regular : GoString)
    (h : hasPrefix (if sale = [] then regular else sale) ['$'] = false) :
    findPrice sale regular = Run.ok F64.zero := by
  unfold findPrice parsePrice
  simp only [h]
  simp

/-- C10 at the texts "Free", the empty text and " $5" (a blank before the marker). -/
theorem findPrice_no_dollar_witness :
    (hasPrefix (if "Free".toList = [] then [] else "Free".toList) ['$'] = false ∧
      findPrice "Free".toList [] = Run.ok F64.zero) ∧
    findPrice [] [] = Run.ok F64.zero ∧
    findPrice [] " $5".toList = Run.ok F64.zero :=
  ⟨⟨by decide, findPrice_no_dollar "Free".toList [] (by decide)⟩,
   findPrice_no_dollar [] [] (by decide),
   findPrice_no_dollar [] " $5".toList (by decide)⟩
theorem sliceFrom1_mem {p l : GoString} (h : sliceFrom1 p = Run.ok l) :
    ∀ c ∈ l, c ∈ p ∨ c = Char.ofNat 0xFFFD := by
  cases p with
  | nil => simp [sliceFrom1] at h
  | cons x xs =>
    simp only [sliceFrom1] at h
    split_ifs at h
    · injection h with h
      subst h
      intro c hc
      exact Or.inl (List.mem_cons_of_mem _ hc)
    · injection h with h
      subst h
      intro c hc
      rcases List.mem_append.1 hc with hc | hc
      · exact Or.inr (List.eq_of_mem_replicate hc)
      · exact Or.inl (List.mem_cons_of_mem _ hc)

theorem sliceFrom1_no_dash {p l : GoString} (h : sliceFrom1 p = Run.ok l) (hp : '-' ∉ p) :
    '-' ∉ l := by
  intro hc
  rcases sliceFrom1_mem h _ hc with h1 | h1
  · exact hp h1
  · exact absurd h1 (by decide)

theorem Numeral.magnitude_nonneg (n : Numeral) : 0 ≤ n.magnitude := by
  unfold Numeral.magnitude
  split_ifs <;> positivity

theorem special_notNeg {s : GoString} {v : F64} {n : Nat} (hs : '-' ∉ s)
    (h : special s = some (v, n)) : F64.NotNeg v := by
  cases s with
  | nil => simp [special] at h
  | cons c cs =>
    have hc : c ≠ '-' := fun e => hs (by simp [e])
    simp only [special] at h
    split_ifs at h with h1 h2 h3
    · simp only [Option.map_eq_some', Prod.mk.injEq] at h
      obtain ⟨_, _, h, _⟩ := h
      subst h
      simp [hc, F64.NotNeg, F64.le, F64.zero]
    · simp only [Option.map_eq_some', Prod.mk.injEq] at h
      obtain ⟨_, _, h, _⟩ := h
      subst h
      simp [F64.NotNeg, F64.le, F64.zero]
    · simp only [Option.some.injEq, Prod.mk.injEq] at h
      exact Or.inl h.1.symm

theorem readFloat_neg {s : GoString} {n : Numeral} (hs : '-' ∉ s)
    (h : readFloat s = some n) : n.neg = false := by
  cases s with
  | nil => simp [readFloat] at h
  | cons c cs =>
    have hc : c ≠ '-' := fun e => hs (by simp [e])
    simp only [readFloat] at h
    split at h
    · split_ifs at h
      injection h with h
      subst h
      simp [hc]
    · simp at h

theorem parseFloat_notNeg {s : GoString} {v : F64} (hs : '-' ∉ s)
    (h : parseFloat s = .ok v) : F64.NotNeg v := by
  unfold parseFloat at h
  split at h
  · rename_i w n hsp
    split_ifs at h
    injection h with h
    subst h
    exact special_notNeg hs hsp
  · split at h
    · simp at h
    · rename_i n hn
      have h0 := Numeral.magnitude_nonneg n
      simp only [readFloat_neg hs hn, Bool.false_eq_true, if_false] at h
      split_ifs at h
      injection h with h
      subst h
      simp [F64.NotNeg, F64.le, F64.zero, h0]

theorem F64.notNeg_zero : F64.NotNeg F64.zero := by
  simp [F64.NotNeg, F64.le, F64.zero]

theorem F64.notNeg_mean {a b : F64} (ha : F64.NotNeg a) (hb : F64.NotNeg b) :
    F64.NotNeg (F64.divConst (F64.add a b) 2) := by
  unfold F64.NotNeg at *
  cases a with
  | nan => simp [F64.add, F64.divConst]
  | inf n =>
    cases b with
    | nan => simp [F64.add, F64.divConst]
    | inf m =>
      simp [F64.le, F64.zero] at ha hb
      subst ha; subst hb
      simp [F64.add, F64.divConst, F64.le, F64.zero]
    | fin q =>
      simp [F64.le, F64.zero] at ha
      subst ha
      simp [F64.add, F64.divConst, F64.le, F64.zero]
  | fin p =>
    cases b with
    | nan => simp [F64.add, F64.divConst]
    | inf m =>
      simp [F64.le, F64.zero] at hb
      subst hb
      simp [F64.add, F64.divConst, F64.le, F64.zero]
    | fin q =>
      simp [F64.le, F64.zero] at ha hb
      right
      have hs : F64.le F64.zero (F64.round (p + q)) = true := F64.round_nonneg (by linarith)
      simp only [F64.add]
      rcases F64.round_cases (p + q) with ⟨_, e⟩ | ⟨_, e⟩
      · rw [e] at hs ⊢
        exact hs
      · rw [e] at hs ⊢
        simp only [F64.le, F64.zero, decide_eq_true_eq] at hs
        exact F64.round_nonneg (by positivity)

theorem not_mem_removeAll_single {c d : Char} {s : GoString} (h : c ∉ s) :
    c ∉ removeAll [d] s := by
  rw [removeAll_single]
  intro hc
  exact h (List.mem_filter.1 hc).1

theorem not_mem_trimSpace {c : Char} {s : GoString} (h : c ∉ s) : c ∉ trimSpace s :=
  fun hc => h (mem_of_mem_trimSpace hc)

/-- C9, as the code has it: `findPrice` either stops with a panic or returns a value that is
not negative, that is NaN or a value `v` with `0 <= v` (which includes `+Inf`). -/
theorem findPrice_not_negative (sale regular : GoString) :
    findPrice sale regular = Run.fault ∨
    ∃ v, findPrice sale regular = Run.ok v ∧ F64.NotNeg v := by
  unfold findPrice
  generalize (if sale = [] then regular else sale) = text
  unfold parsePrice
  simp only
  split_ifs with h1 h2 h3
  · exact Or.inr ⟨_, rfl, F64.notNeg_zero⟩
  · exact Or.inr ⟨_, rfl, F64.notNeg_zero⟩
  · split
    · rename_i p0 p1 hsp
      have hp0 : '-' ∉ p0 := splitOn_no_sep _ _ p0 (by rw [hsp]; simp)
      have hp1 : '-' ∉ p1 := splitOn_no_sep _ _ p1 (by rw [hsp]; simp)
      split
      · rename_i l h hl hh
        split
        · exact Or.inr ⟨_, rfl, F64.notNeg_zero⟩
        · rename_i lowPrice hlow
          split
          · exact Or.inr ⟨_, rfl, F64.notNeg_zero⟩
          · rename_i highPrice hhigh
            refine Or.inr ⟨_, rfl, F64.notNeg_mean ?_ ?_⟩
            · exact parseFloat_notNeg (not_mem_trimSpace (sliceFrom1_no_dash hl hp0)) hlow
            · exact parseFloat_notNeg (not_mem_trimSpace (sliceFrom1_no_dash hh hp1)) hhigh
      · exact Or.inl rfl
    · exact Or.inr ⟨_, rfl, F64.notNeg_zero⟩
  · have hnd : '-' ∉ removeAll [','] text := by
      intro hc
      exact h3 ((contains_single _ _).2 hc)
    split
    · exact Or.inl rfl
    · rename_i rest hrest
      split
      · exact Or.inr ⟨_, rfl, F64.notNeg_zero⟩
      · rename_i numPrice hnum
        refine Or.inr ⟨_, rfl, parseFloat_notNeg ?_ hnum⟩
        exact not_mem_removeAll_single (not_mem_trimSpace (sliceFrom1_no_dash hrest hnd))

/-- C9 fails as stated: the text "$NaN" parses, and the price returned is NaN, which is not
`>= 0`. -/
theorem findPrice_nan :
    findPrice "$NaN".toList [] = Run.ok F64.nan ∧ F64.le F64.zero F64.nan = false := by
  decide

/-! ## Decimal numerals are read by `parseFloat` -/

theorem reDigit_iff (c : Char) : reDigit c = true ↔ 48 ≤ c.toNat ∧ c.toNat ≤ 57 := by
  unfold reDigit
  rw [decide_eq_true_eq]
  constructor
  · rintro ⟨h1, h2⟩
    exact ⟨h1, h2⟩
  · rintro ⟨h1, h2⟩
    exact ⟨h1, h2⟩

theorem reDigit_ne {c d : Char} (h : reDigit c = true) (hd : reDigit d = false) : c ≠ d := by
  intro e
  subst e
  rw [h] at hd
  exact absurd hd (by decide)

theorem digitVal_of_reDigit {c : Char} (hex : Bool) (h : reDigit c = true) :
    digitVal hex c = some (c.toNat - 48) := by
  unfold reDigit at h
  rw [decide_eq_true_eq] at h
  simp [digitVal, h]

theorem not_isSpace_of_reDigit {c : Char} (h : reDigit c = true) : isSpace c = false := by
  have := (reDigit_iff c).1 h
  have h1 : c ≠ '\t' := reDigit_ne h (by decide)
  have h2 : c ≠ '\n' := reDigit_ne h (by decide)
  have h3 : c ≠ '\r' := reDigit_ne h (by decide)
  have h4 : c ≠ ' ' := reDigit_ne h (by decide)
  simp only [isSpace, h1, h2, h3, h4, decide_False, Bool.false_or, Bool.or_eq_false_iff,
    decide_eq_false_iff_not, Bool.and_eq_false_imp, decide_eq_true_eq]
  obtain ⟨ha, hb⟩ := this
  and_intros <;> first | trivial | omega

theorem scanMant_digits (ds : GoString) (hds : AllDigits ds) (st : Scan) (rest : GoString) :
    scanMant false st (ds ++ rest) =
      scanMant false
        ⟨digitsFrom st.mant ds, if st.sawdot then st.frac + ds.length else st.frac,
          st.sawdot, st.sawdigits || !ds.isEmpty⟩ rest := by
  induction ds generalizing st with
  | nil => simp [digitsFrom]
  | cons c cs ih =>
    have hc : reDigit c = true := hds c (by simp)
    have hcs : AllDigits cs := fun x hx => hds x (by simp [hx])
    have h1 : c ≠ '_' := reDigit_ne hc (by decide)
    have h2 : c ≠ '.' := reDigit_ne hc (by decide)
    rw [List.cons_append, scanMant]
    simp only [h1, h2, if_false, digitVal_of_reDigit false hc]
    rw [ih hcs]
    congr 1
    cases hsd : st.sawdot <;> simp [digitsFrom, hsd]
    omega

/-- A character of a decimal numeral: a digit or the point. -/
theorem numeral_char_cases {ip : GoString} {fr : Option GoString} (hip : AllDigits ip)
    (hfr : AllDigits (fracDigits fr)) :
    ∀ c ∈ ip ++ fracText fr, reDigit c = true ∨ c = '.' := by
  intro c hc
  rcases List.mem_append.1 hc with h | h
  · exact Or.inl (hip c h)
  · cases fr with
    | none => simp [fracText] at h
    | some fp =>
      rcases List.mem_cons.1 h with h | h
      · exact Or.inr h
      · exact Or.inl (hfr c h)

theorem underscoreScan_plain (hex : Bool) (s : GoString) (hs : '_' ∉ s) (saw : Nat)
    (hsaw : saw ≠ 1) : underscoreScan hex saw s = true := by
  induction s generalizing saw with
  | nil => simp [underscoreScan, hsaw]
  | cons c cs ih =>
    have hc : c ≠ '_' := fun e => hs (by simp [e])
    have hcs : '_' ∉ cs := fun h => hs (by simp [h])
    unfold underscoreScan
    split_ifs
    · exact ih hcs 0 (by decide)
    · exact ih hcs 2 (by decide)

theorem underscoreOK_numeral (s : GoString) (hs : ∀ c ∈ s, reDigit c = true ∨ c = '.') :
    underscoreOK s = true := by
  have hu : ∀ t : GoString, (∀ c ∈ t, reDigit c = true ∨ c = '.') → '_' ∉ t := by
    intro t ht hm
    rcases ht _ hm with h | h
    · exact absurd h (by decide)
    · exact absurd h (by decide)
  cases s with
  | nil => simp [underscoreOK, underscoreScan]
  | cons c cs =>
    have hc1 : c ≠ '-' := by
      intro e
      rcases hs c (by simp) with h | h
      · rw [e] at h; exact absurd h (by decide)
      · rw [e] at h; exact absurd h (by decide)
    have hc2 : c ≠ '+' := by
      intro e
      rcases hs c (by simp) with h | h
      · rw [e] at h; exact absurd h (by decide)
      · rw [e] at h; exact absurd h (by decide)
    simp only [underscoreOK, hc1, hc2, or_self, if_false]
    split
    · rename_i x rest heq
      have hx : reDigit x = true ∨ x = '.' := hs x (by rw [heq]; simp)
      split_ifs with hb
      · exfalso
        rcases hx with h | h
        · rcases hb with e | e | e | e | e | e <;>
            (rw [e] at h; exact absurd h (by decide))
        · rcases hb with e | e | e | e | e | e <;>
            (rw [e] at h; exact absurd h (by decide))
      · exact underscoreScan_plain _ _ (hu _ hs) 2 (by decide)
    · exact underscoreScan_plain _ _ (hu _ hs) 2 (by decide)

theorem isHexStart_numeral (s : GoString) (hs : ∀ c ∈ s, reDigit c = true ∨ c = '.') :
    isHexStart s = false := by
  unfold isHexStart
  split
  · rename_i x _ _
    have hx : reDigit x = true ∨ x = '.' := hs x (by simp)
    rw [decide_eq_false_iff_not]
    rintro (e | e)
    · rcases hx with h | h <;> (rw [e] at h; exact absurd h (by decide))
    · rcases hx with h | h <;> (rw [e] at h; exact absurd h (by decide))
  · rfl

theorem digitsFrom_append (a : Nat) (xs ys : GoString) :
    digitsFrom (digitsFrom a xs) ys = digitsFrom a (xs ++ ys) := by
  simp [digitsFrom, List.foldl_append]

theorem scanMant_numeral {ip : GoString} {fr : Option GoString} (hne : ip ≠ [])
    (hip : AllDigits ip) (hfr : AllDigits (fracDigits fr)) :
    scanMant false ⟨0, 0, false, false⟩ (ip ++ fracText fr) =
      (⟨digitsNat (ip ++ fracDigits fr), (fracDigits fr).length, fr.isSome, true⟩, []) := by
  rw [scanMant_digits ip hip]
  have hemp : ip.isEmpty = false := by
    cases ip with
    | nil => exact absurd rfl hne
    | cons _ _ => rfl
  cases fr with
  | none => simp [fracText, fracDigits, scanMant, digitsNat, hemp]
  | some fp =>
    simp only [fracText, fracDigits, hemp, Bool.false_eq_true, if_false]
    rw [scanMant]
    simp only [show ('.' : Char) ≠ '_' by decide, if_false, if_true, Bool.false_eq_true]
    have := scanMant_digits fp hfr ⟨digitsFrom 0 ip, 0, true, false || !false⟩ []
    rw [List.append_nil] at this
    rw [this]
    simp [scanMant, digitsFrom_append, digitsNat]

theorem readFloat_numeral {ip : GoString} {fr : Option GoString} (hne : ip ≠ [])
    (hip : AllDigits ip) (hfr : AllDigits (fracDigits fr)) :
    readFloat (ip ++ fracText fr) =
      some ⟨false, false,
        ⟨digitsNat (ip ++ fracDigits fr), (fracDigits fr).length, fr.isSome, true⟩, 0⟩ := by
  have hall := numeral_char_cases hip hfr
  have hbody : readBody (ip ++ fracText fr) =
      some (false, ⟨digitsNat (ip ++ fracDigits fr), (fracDigits fr).length, fr.isSome, true⟩,
        0) := by
    unfold readBody
    simp only [isHexStart_numeral _ hall, Bool.false_eq_true, if_false,
      scanMant_numeral hne hip hfr, if_true, readExp, Option.map_some']
  cases ip with
  | nil => exact absurd rfl hne
  | cons c cs =>
    have hc : reDigit c = true := hip c (by simp)
    have hc1 : c ≠ '-' := reDigit_ne hc (by decide)
    have hc2 : c ≠ '+' := reDigit_ne hc (by decide)
    have hu := underscoreOK_numeral _ hall
    rw [List.cons_append] at hbody hu ⊢
    simp only [readFloat, hc1, hc2, or_self, if_false, hbody, hu, if_true, decide_False]

theorem special_numeral {c : Char} (cs : GoString) (hc : reDigit c = true) :
    special (c :: cs) = none := by
  have h1 : c ≠ '-' := reDigit_ne hc (by decide)
  have h2 : c ≠ '+' := reDigit_ne hc (by decide)
  have h3 : c ≠ 'i' := reDigit_ne hc (by decide)
  have h4 : c ≠ 'I' := reDigit_ne hc (by decide)
  have h5 : c ≠ 'n' := reDigit_ne hc (by decide)
  have h6 : c ≠ 'N' := reDigit_ne hc (by decide)
  simp [special, h1, h2, h3, h4, h5, h6]

/-- What `parseFloat` returns on a decimal numeral: its value, or the range error when the
value reaches the overflow bound. -/
theorem parseFloat_numeral {ip : GoString} {fr : Option GoString} (hne : ip ≠ [])
    (hip : AllDigits ip) (hfr : AllDigits (fracDigits fr)) :
    parseFloat (ip ++ fracText fr) =
      if overflowBound ≤ decimalValue ip fr then .error .outOfRange
      else .ok (F64.fin (decimalValue ip fr)) := by
  have hsp : special (ip ++ fracText fr) = none := by
    cases ip with
    | nil => exact absurd rfl hne
    | cons c cs => exact special_numeral _ (hip c (by simp))
  unfold parseFloat
  rw [hsp, readFloat_numeral hne hip hfr]
  simp [Numeral.magnitude, decimalValue]

theorem dropWhile_of_all_false {p : Char → Bool} {l : GoString} (h : ∀ c ∈ l, p c = false) :
    l.dropWhile p = l := by
  cases l with
  | nil => rfl
  | cons x xs =>
    have hx : p x = false := h x (by simp)
    simp [List.dropWhile, hx]

theorem trimSpace_of_no_space {s : GoString} (h : ∀ c ∈ s, isSpace c = false) :
    trimSpace s = s := by
  unfold trimSpace
  rw [dropWhile_of_all_false h, dropWhile_of_all_false (fun c hc => h c (List.mem_reverse.1 hc)),
    List.reverse_reverse]

theorem removeAll_comma_of_none {s : GoString} (h : ',' ∉ s) : removeAll [','] s = s := by
  rw [removeAll_single, List.filter_eq_self]
  intro c hc
  simpa using fun e : c = ',' => h (e ▸ hc)

theorem removeAll_comma_grouped {ip : GoString} (h : GroupedDigits ip) :
    AllDigits (removeAll [','] ip) ∧ removeAll [','] ip ≠ [] := by
  have e : removeAll [','] ip = ip.filter (fun x => decide (x ≠ ',')) :=
    removeAll_single ',' ip
  rw [e]
  constructor
  · intro c hc
    obtain ⟨hm, hn⟩ := List.mem_filter.1 hc
    rcases h.1 c hm with hd | hd
    · exact hd
    · simp [hd] at hn
  · obtain ⟨c, hm, hd⟩ := h.2
    have : c ∈ ip.filter (fun x => decide (x ≠ ',')) :=
      List.mem_filter.2 ⟨hm, by simpa using reDigit_ne hd (by decide)⟩
    exact List.ne_nil_of_mem this

theorem fracText_no_comma {fr : Option GoString} (hfr : AllDigits (fracDigits fr)) :
    ',' ∉ fracText fr := by
  cases fr with
  | none => simp [fracText]
  | some fp =>
    intro h
    rcases List.mem_cons.1 h with h | h
    · exact absurd h (by decide)
    · exact absurd (hfr _ h) (by decide)

theorem sliceFrom1_ascii {c : Char} (cs : GoString) (h : c.toNat < 128) :
    sliceFrom1 (c :: cs) = Run.ok cs := by
  simp [sliceFrom1, h]

/-- The body of `findPrice` on a text "$" followed by a decimal numeral. -/
theorem parsePrice_numeral {ip : GoString} {fr : Option GoString} (hip : GroupedDigits ip)
    (hfr : AllDigits (fracDigits fr)) :
    parsePrice ('$' :: (ip ++ fracText fr)) =
      if overflowBound ≤ decimalValue (removeAll [','] ip) fr then Run.ok F64.zero
      else Run.ok (F64.fin (decimalValue (removeAll [','] ip) fr)) := by
  obtain ⟨hd, hne⟩ := removeAll_comma_grouped hip
  have hall := numeral_char_cases hd hfr
  have hrm : removeAll [','] ('$' :: (ip ++ fracText fr)) =
      '$' :: (removeAll [','] ip ++ fracText fr) := by
    have e1 : ∀ s : GoString, removeAll [','] s = s.filter (fun x => decide (x ≠ ',')) :=
      fun s => removeAll_single ',' s
    have e2 := removeAll_comma_of_none (fracText_no_comma hfr)
    rw [e1] at e2
    rw [e1, e1, List.filter_cons, List.filter_append, e2]
    simp
  have hnocomma : ',' ∉ removeAll [','] ip ++ fracText fr := by
    intro h
    rcases hall _ h with h1 | h1
    · exact absurd h1 (by decide)
    · exact absurd h1 (by decide)
  have hnodash : contains ('$' :: (removeAll [','] ip ++ fracText fr)) ['-']
      = false := by
    rw [Bool.eq_false_iff]
    intro h
    have h2 : '-' ∈ '$' :: (removeAll [','] ip ++ fracText fr) :=
      (contains_single '-' _).1 h
    rcases List.mem_cons.1 h2 with h3 | h3
    · exact absurd h3 (by decide)
    · rcases hall _ h3 with h1 | h1
      · exact absurd h1 (by decide)
      · exact absurd h1 (by decide)
  have hnospace : ∀ c ∈ removeAll [','] ip ++ fracText fr, isSpace c = false := by
    intro c hc
    rcases hall c hc with h1 | h1
    · exact not_isSpace_of_reDigit h1
    · rw [h1]; decide
  unfold parsePrice
  simp only [hrm, hnodash]
  have hsl := sliceFrom1_ascii (removeAll [','] ip ++ fracText fr)
    (show ('$' : Char).toNat < 128 by decide)
  have hpre : hasPrefix ('$' :: (ip ++ fracText fr)) ['$'] = true := by
    simp [hasPrefix, List.isPrefixOf]
  simp only [hpre, hsl, removeAll_comma_of_none hnocomma,
    trimSpace_of_no_space hnospace, parseFloat_numeral hne hd hfr, Bool.not_true,
    Bool.false_eq_true, if_false, if_true, reduceCtorEq]
  split_ifs <;> rfl

/-- C3, as the code has it: when the effective price text is "$" followed by a decimal
numeral (digits with optional thousands separators, then an optional point and digits),
`findPrice` returns the value of the numeral with the separators removed, provided that
value is below the `float64` overflow bound; from the bound on it returns 0. -/
theorem findPrice_single (sale regular ip : GoString) (fr : Option GoString)
    (htext : (if sale = [] then regular else sale) = '$' :: (ip ++ fracText fr))
    (hip : GroupedDigits ip) (hfr : AllDigits (fracDigits fr)) :
    findPrice sale regular =
      if overflowBound ≤ decimalValue (removeAll [','] ip) fr then Run.ok F64.zero
      else Run.ok (F64.fin (decimalValue (removeAll [','] ip) fr)) := by
  unfold findPrice
  rw [htext]
  exact parsePrice_numeral hip hfr

/-- C3 at the texts "$12.34" and "$1,234.56". -/
theorem findPrice_single_witness :
    (GroupedDigits "12".toList ∧ AllDigits (fracDigits (some "34".toList)) ∧
      findPrice "$12.34".toList [] = Run.ok (F64.fin 12.34)) ∧
    (GroupedDigits "1,234".toList ∧ AllDigits (fracDigits (some "56".toList)) ∧
      findPrice [] "$1,234.56".toList = Run.ok (F64.fin 1234.56)) :=
  ⟨⟨by unfold GroupedDigits; decide, by unfold AllDigits; decide,
    (findPrice_single "$12.34".toList [] "12".toList (some "34".toList) (by decide)
      (by unfold GroupedDigits; decide) (by unfold AllDigits; decide)).trans (by decide!)⟩,
   ⟨by unfold GroupedDigits; decide, by unfold AllDigits; decide,
    (findPrice_single [] "$1,234.56".toList "1,234".toList (some "56".toList) (by decide)
      (by unfold GroupedDigits; decide) (by unfold AllDigits; decide)).trans (by decide!)⟩⟩

/-- C3 fails as stated: for "$" followed by 309 nines the parser reports a range error and
`findPrice` returns 0, which is not the value of the numeral. -/
theorem findPrice_single_overflow :
    findPrice ('$' :: List.replicate 309 '9') [] = Run.ok F64.zero ∧
    decimalValue (List.replicate 309 '9') none ≠ 0 := by
  decide!

/-! ## `isValid` -/

theorem F64.lt_eq_not_le {x y : F64} (hx : F64.isNaN x = false) (hy : F64.isNaN y = false) :
    F64.lt x y = !F64.le y x := by
  cases x with
  | nan => simp [F64.isNaN] at hx
  | inf n =>
    cases y with
    | nan => simp [F64.isNaN] at hy
    | inf m => cases n <;> cases m <;> rfl
    | fin b => cases n <;> rfl
  | fin a =>
    cases y with
    | nan => simp [F64.isNaN] at hy
    | inf m => cases m <;> rfl
    | fin b =>
      simp only [F64.lt, F64.le]
      by_cases h : a < b
      · simp [h]
      · simp [h, not_lt.1 h]

theorem F64.isNaN_ofInt (n : ℤ) : F64.isNaN (F64.ofInt n) = false := F64.isNaN_round n

/-- C1, as the code has it: when none of the compared values (the product's price, length,
width, height and weight, and the ten expanded bounds) is NaN, `isValid` returns true if
and only if all seven inclusive checks hold, the bounds being the ones the code computes in
`float64`. -/
theorem isValid_iff_sevenChecks (prod : Product) (opts : options) (h : NoNaN prod opts) :
    isValid prod opts = true ↔ sevenChecks prod opts := by
  obtain ⟨⟨hp, hl, hw, hh, hwt⟩, ⟨b1, b2, b3, b4, b5, b6⟩, ⟨b7, b8, b9, b10⟩⟩ := h
  have hb := F64.isNaN_ofInt prod.BSR
  have hr := F64.isNaN_ofInt prod.Reviews
  unfold isValid sevenChecks
  simp only [F64.gt, F64.lt_eq_not_le hp b1, F64.lt_eq_not_le b2 hp,
    F64.lt_eq_not_le hb b3, F64.lt_eq_not_le b4 hb, F64.lt_eq_not_le hr b5,
    F64.lt_eq_not_le b6 hr, F64.lt_eq_not_le b7 hl, F64.lt_eq_not_le b8 hw,
    F64.lt_eq_not_le b9 hh, F64.lt_eq_not_le b10 hwt]
  cases F64.le (lowered opts opts.minPrice) prod.Price <;>
  cases F64.le prod.Price (raised opts opts.maxPrice) <;>
  cases F64.le (lowered opts (F64.ofInt opts.minBSR)) (F64.ofInt prod.BSR) <;>
  cases F64.le (F64.ofInt prod.BSR) (raised opts (F64.ofInt opts.maxBSR)) <;>
  cases F64.le (lowered opts (F64.ofInt opts.minReviews)) (F64.ofInt prod.Reviews) <;>
  cases F64.le (F64.ofInt prod.Reviews) (raised opts (F64.ofInt opts.maxReviews)) <;>
  cases F64.le prod.Length (raised opts opts.maxLength) <;>
  cases F64.le prod.Width (raised opts opts.maxWidth) <;>
  cases F64.le prod.Height (raised opts opts.maxHeight) <;>
  cases F64.le prod.Weight (raised opts opts.maxWeight) <;>
  simp

/-- C1 at the specification's example (minimum price 10, maximum 20, tolerance 10): a price
of 9.5 is accepted and a price of 8.0 is rejected. -/
theorem isValid_iff_sevenChecks_witness :
    (NoNaN (sampleProduct (F64.fin 9.5)) sampleOptions ∧
      (isValid (sampleProduct (F64.fin 9.5)) sampleOptions = true ↔
        sevenChecks (sampleProduct (F64.fin 9.5)) sampleOptions) ∧
      isValid (sampleProduct (F64.fin 9.5)) sampleOptions = true) ∧
    (NoNaN (sampleProduct (F64.fin 8)) sampleOptions ∧
      (isValid (sampleProduct (F64.fin 8)) sampleOptions = true ↔
        sevenChecks (sampleProduct (F64.fin 8)) sampleOptions) ∧
      isValid (sampleProduct (F64.fin 8)) sampleOptions = false) :=
  ⟨⟨by unfold NoNaN; decide!,
    isValid_iff_sevenChecks _ _ (by unfold NoNaN; decide!), by decide!⟩,
   ⟨by unfold NoNaN; decide!,
    isValid_iff_sevenChecks _ _ (by unfold NoNaN; decide!), by decide!⟩⟩

/-- C1 fails as stated, for two reasons. A product whose price is NaN (the price text
"$NaN") is accepted, although the inclusive price check does not hold for it. And the
bounds are computed in `float64`: with a tolerance of 44 and a minimum price of 25 the
lowered minimum is `14 + 2^-49`, not 14, so a price of 14 is rejected; with a tolerance of
15 and a maximum price of 100 the raised maximum is `115 - 2^-46`, not 115, so a price of
115 is rejected; both pass the seven checks read over the real numbers. -/
theorem isValid_differs_from_checks :
    (findPrice "$NaN".toList [] = Run.ok nanProduct.Price ∧
      isValid nanProduct zeroOptions = true ∧ ¬ sevenChecks nanProduct zeroOptions ∧
      ¬ realChecks nanProduct zeroOptions) ∧
    (lowered (priceOptions (F64.fin 44) (F64.fin 25) (F64.fin 100)) (F64.fin 25)
        = F64.fin (14 + 2 ^ (-49 : ℤ)) ∧
      isValid (pricedProduct (F64.fin 14) 0)
        (priceOptions (F64.fin 44) (F64.fin 25) (F64.fin 100)) = false ∧
      realChecks (pricedProduct (F64.fin 14) 0)
        (priceOptions (F64.fin 44) (F64.fin 25) (F64.fin 100))) ∧
    (raised (priceOptions (F64.fin 15) (F64.fin 0) (F64.fin 100)) (F64.fin 100)
        = F64.fin (115 - 2 ^ (-46 : ℤ)) ∧
      isValid (pricedProduct (F64.fin 115) 0)
        (priceOptions (F64.fin 15) (F64.fin 0) (F64.fin 100)) = false ∧
      realChecks (pricedProduct (F64.fin 115) 0)
        (priceOptions (F64.fin 15) (F64.fin 0) (F64.fin 100))) := by
  refine ⟨⟨by decide!, by decide!, ?_, ?_⟩, ⟨by decide!, by decide!, ?_⟩,
    ⟨by decide!, by decide!, ?_⟩⟩
  · unfold sevenChecks
    decide!
  · unfold realChecks
    decide!
  · unfold realChecks
    decide!
  · unfold realChecks
    decide!

/-! ## `findReviews` -/

theorem splitOn_append_sep (sep : Char) (a r : GoString) (h : sep ∉ a) :
    splitOn sep (a ++ sep :: r) = a :: splitOn sep r := by
  induction a with
  | nil => simp [splitOn]
  | cons x xs ih =>
    have hx : x ≠ sep := fun e => h (by simp [e])
    have hxs : sep ∉ xs := fun hm => h (by simp [hm])
    rw [List.cons_append, splitOn]
    simp only [hx, if_false, ih hxs]

theorem splitOn_of_no_sep (sep : Char) (a : GoString) (h : sep ∉ a) :
    splitOn sep a = [a] := by
  induction a with
  | nil => simp [splitOn]
  | cons x xs ih =>
    have hx : x ≠ sep := fun e => h (by simp [e])
    have hxs : sep ∉ xs := fun hm => h (by simp [hm])
    rw [splitOn]
    simp only [hx, if_false, ih hxs]

theorem dropWhile_append_of_all {p : Char → Bool} (l m : GoString) (h : ∀ c ∈ l, p c = true) :
    (l ++ m).dropWhile p = m.dropWhile p := by
  induction l with
  | nil => rfl
  | cons x xs ih =>
    have hx : p x = true := h x (by simp)
    rw [List.cons_append, List.dropWhile_cons_of_pos hx]
    exact ih (fun c hc => h c (by simp [hc]))

theorem dropWhile_append_of_head {p : Char → Bool} (l m : GoString) (hne : l ≠ [])
    (h : ∀ c ∈ l, p c = false) : (l ++ m).dropWhile p = l ++ m := by
  cases l with
  | nil => exact absurd rfl hne
  | cons x xs =>
    have hx : p x = false := h x (by simp)
    simp [List.dropWhile, hx]

/-- Trimming removes the white space around a non-empty text without white space. -/
theorem trimSpace_sandwich (lead mid trail : GoString) (hl : ∀ c ∈ lead, isSpace c = true)
    (ht : ∀ c ∈ trail, isSpace c = true) (hne : mid ≠ [])
    (hm : ∀ c ∈ mid, isSpace c = false) : trimSpace (lead ++ mid ++ trail) = mid := by
  unfold trimSpace
  rw [List.append_assoc, dropWhile_append_of_all lead _ hl,
    dropWhile_append_of_head mid trail hne hm, List.reverse_append,
    dropWhile_append_of_all trail.reverse _ (fun c hc => ht c (List.mem_reverse.1 hc)),
    dropWhile_of_all_false (fun c hc => hm c (List.mem_reverse.1 hc)), List.reverse_reverse]

theorem digitsValue_of_allDigits (ds : GoString) (h : AllDigits ds) (acc : Nat) :
    digitsValue acc ds = some (digitsFrom acc ds) := by
  induction ds generalizing acc with
  | nil => rfl
  | cons c cs ih =>
    have hc : reDigit c = true := h c (by simp)
    have hc2 : '0' ≤ c ∧ c ≤ '9' := by simpa [reDigit] using hc
    rw [digitsValue]
    simp only [hc2, and_self, if_true]
    rw [ih (fun x hx => h x (by simp [hx]))]
    rfl

/-- What `parseUint` returns on a non-empty text of digits. -/
theorem parseUint_digits (ds : GoString) (hne : ds ≠ []) (h : AllDigits ds) :
    parseUint ds = if digitsNat ds < 2 ^ 64 then .ok (digitsNat ds) else .error .outOfRange := by
  cases ds with
  | nil => exact absurd rfl hne
  | cons c cs =>
    simp only [parseUint, digitsValue_of_allDigits _ h 0, digitsNat]

theorem removeAll_single_append (c : Char) (a b : GoString) :
    removeAll [c] (a ++ b) = removeAll [c] a ++ removeAll [c] b := by
  simp [removeAll_single]

theorem otherSpace_filter {s : GoString} (h : OtherSpace s) :
    s.filter (fun x => decide (x ≠ ',')) = s := by
  rw [List.filter_eq_self]
  intro c hc
  have h1 := (h c hc).1
  have : c ≠ ',' := by
    intro e
    rw [e] at h1
    exact absurd h1 (by decide)
  simpa using this

/-- The first piece of the split on the space character, trimmed, is the numeral. -/
theorem first_piece_numeral (lead num trail rest : GoString) (hl : OtherSpace lead)
    (ht : OtherSpace trail) (hn : GroupedDigits num) :
    ∃ t, splitOn ' ' (removeAll [','] (lead ++ num ++ trail ++ ' ' :: rest)) =
        (lead ++ removeAll [','] num ++ trail) :: t ∧
      trimSpace (lead ++ removeAll [','] num ++ trail) = removeAll [','] num := by
  obtain ⟨hd, hne⟩ := removeAll_comma_grouped hn
  have hrm : removeAll [','] (lead ++ num ++ trail ++ ' ' :: rest) =
      (lead ++ removeAll [','] num ++ trail) ++ ' ' :: removeAll [','] rest := by
    simp only [removeAll_single, List.filter_append, List.filter_cons, otherSpace_filter hl,
      otherSpace_filter ht]
    simp
  have hnosp : ' ' ∉ lead ++ removeAll [','] num ++ trail := by
    intro h
    rcases List.mem_append.1 h with h | h
    · rcases List.mem_append.1 h with h | h
      · exact (hl _ h).2 rfl
      · exact absurd (hd _ h) (by decide)
    · exact (ht _ h).2 rfl
  refine ⟨splitOn ' ' (removeAll [','] rest), ?_, ?_⟩
  · rw [hrm, splitOn_append_sep _ _ _ hnosp]
  · exact trimSpace_sandwich _ _ _ (fun c hc => (hl c hc).1) (fun c hc => (ht c hc).1) hne
      (fun c hc => not_isSpace_of_reDigit (hd c hc))

/-- C8, as the code has it: when the text contains "customer review" and its part before
the first space character is a numeral of `n < 2^64` (digits with optional thousands
separators), possibly surrounded by other white space, `findReviews` returns `n`; and for
every text without "customer review" it returns 0. -/
theorem findReviews_spec :
    (∀ lead num trail rest : GoString, OtherSpace lead → OtherSpace trail →
      GroupedDigits num → digitsNat (removeAll [','] num) < 2 ^ 64 →
      contains (lead ++ num ++ trail ++ ' ' :: rest) "customer review".toList = true →
      findReviews (lead ++ num ++ trail ++ ' ' :: rest) =
        Run.ok (digitsNat (removeAll [','] num))) ∧
    (∀ s : GoString, contains s "customer review".toList = false →
      findReviews s = Run.ok 0) := by
  constructor
  · intro lead num trail rest hl ht hn hlt hc
    obtain ⟨hd, hne⟩ := removeAll_comma_grouped hn
    obtain ⟨t, hsplit, htrim⟩ := first_piece_numeral lead num trail rest hl ht hn
    unfold findReviews
    simp only [hc, Bool.not_true, Bool.false_eq_true, if_false, hsplit, htrim,
      parseUint_digits _ hne hd, hlt, if_true]
  · intro s hs
    unfold findReviews
    rw [hs]
    rfl

/-- C8 at the texts "150 customer reviews", "1,234 customer reviews" and "No reviews yet". -/
theorem findReviews_spec_witness :
    findReviews "150 customer reviews".toList = Run.ok 150 ∧
    findReviews "\n1,234\t customer reviews".toList = Run.ok 1234 ∧
    findReviews "No reviews yet".toList = Run.ok 0 :=
  ⟨(findReviews_spec.1 [] "150".toList [] "customer reviews".toList
      (by unfold OtherSpace; decide) (by unfold OtherSpace; decide)
      (by unfold GroupedDigits; decide) (by decide) (by decide)).trans (by decide),
   (findReviews_spec.1 "\n".toList "1,234".toList "\t".toList "customer reviews".toList
      (by unfold OtherSpace; decide) (by unfold OtherSpace; decide)
      (by unfold GroupedDigits; decide) (by decide) (by decide)).trans (by decide),
   findReviews_spec.2 "No reviews yet".toList (by decide)⟩

/-- C8 fails as stated: the tokens of the review text are cut at the space character only,
so a tab after the number, or a blank before it, makes `findReviews` return 0 although the
first token delimited by white space is 150. -/
theorem findReviews_tab :
    findReviews "150\tcustomer reviews".toList = Run.ok 0 ∧
    findReviews " 150 customer reviews".toList = Run.ok 0 := by
  decide

/-! ## The matcher finds the leftmost match of a pattern -/

theorem starK_sound {p : Char → Bool} {k : GoString → Option GoString}
    {L : GoString → Prop} (hk : KSound k L) :
    KSound (starK p k) (fun m => ∃ a b, m = a ++ b ∧ (∀ x ∈ a, p x = true) ∧ L b) := by
  intro s
  induction s with
  | nil =>
    intro m h
    rw [starK] at h
    obtain ⟨hr, hl⟩ := hk _ _ h
    exact ⟨hr, [], m, rfl, by simp, hl⟩
  | cons c cs ih =>
    intro m h
    rw [starK] at h
    split_ifs at h with hp
    · split at h
      · rename_i m1 h1
        injection h with h
        subst h
        obtain ⟨⟨rest, hr⟩, a, b, hab, ha, hb⟩ := ih _ h1
        refine ⟨⟨rest, by rw [hr]; rfl⟩, c :: a, b, by rw [hab]; rfl, ?_, hb⟩
        intro x hx
        rcases List.mem_cons.1 hx with e | e
        · rw [e]; exact hp
        · exact ha x e
      · obtain ⟨hr, hl⟩ := hk _ _ h
        exact ⟨hr, [], m, rfl, by simp, hl⟩
    · obtain ⟨hr, hl⟩ := hk _ _ h
      exact ⟨hr, [], m, rfl, by simp, hl⟩

theorem starK_complete {p : Char → Bool} {k : GoString → Option GoString}
    {L : GoString → Prop} (hk : KComplete k L) :
    KComplete (starK p k) (fun m => ∃ a b, m = a ++ b ∧ (∀ x ∈ a, p x = true) ∧ L b) := by
  rintro m rest ⟨a, b, rfl, ha, hb⟩
  induction a with
  | nil =>
    have hkb := hk b rest hb
    rw [List.nil_append]
    cases hbr : b ++ rest with
    | nil => rw [starK]; rw [hbr] at hkb; exact hkb
    | cons c cs =>
      rw [hbr] at hkb
      rw [starK]
      split_ifs
      · split
        · rfl
        · exact hkb
      · exact hkb
  | cons c cs ih =>
    have hc : p c = true := ha c (by simp)
    have ih2 := ih (fun x hx => ha x (by simp [hx]))
    simp only [List.cons_append, List.append_assoc] at ih2 ⊢
    rw [starK]
    simp only [hc, if_true]
    split
    · rfl
    · rename_i hnone
      rw [hnone] at ih2
      exact absurd ih2 (by simp)

theorem altK_sound {k : GoString → Option GoString} {L : GoString → Prop} (hk : KSound k L)
    (s : GoString) (ws : List GoString) :
    ∀ m, altK k s ws = some m →
      (∃ rest, s = m ++ rest) ∧ ∃ w ∈ ws, ∃ b, m = w ++ b ∧ L b := by
  induction ws with
  | nil => intro m h; simp [altK] at h
  | cons w ws ih =>
    intro m h
    have hrec : altK k s ws = some m →
        (∃ rest, s = m ++ rest) ∧ ∃ w' ∈ w :: ws, ∃ b, m = w' ++ b ∧ L b := by
      intro h2
      obtain ⟨hr, w', hw', hb⟩ := ih m h2
      exact ⟨hr, w', List.mem_cons_of_mem _ hw', hb⟩
    rw [altK] at h
    split_ifs at h with hp
    · split at h
      · rename_i m1 h1
        injection h with h
        subst h
        obtain ⟨⟨rest, hr⟩, hl⟩ := hk _ _ h1
        obtain ⟨t, ht⟩ := List.isPrefixOf_iff_prefix.1 hp
        have hd : s.drop w.length = t := by rw [← ht]; simp
        refine ⟨⟨rest, ?_⟩, w, by simp, m1, rfl, hl⟩
        rw [← ht, List.append_assoc, ← hr, hd]
      · exact hrec h
    · exact hrec h

theorem altK_complete {k : GoString → Option GoString} {L : GoString → Prop}
    (hk : KComplete k L) (ws : List GoString) (w b rest : GoString) (hw : w ∈ ws)
    (hb : L b) : (altK k (w ++ b ++ rest) ws).isSome = true := by
  induction ws with
  | nil => simp at hw
  | cons v vs ih =>
    rw [altK]
    by_cases hv : v = w
    · subst hv
      have hp : List.isPrefixOf v (v ++ b ++ rest) = true :=
        List.isPrefixOf_iff_prefix.2 ⟨b ++ rest, by simp⟩
      have hd : (v ++ b ++ rest).drop v.length = b ++ rest := by simp
      simp only [hp, if_true, hd]
      have := hk b rest hb
      split
      · rfl
      · rename_i hnone
        rw [hnone] at this
        exact absurd this (by simp)
    · have hmem : w ∈ vs := by
        rcases List.mem_cons.1 hw with e | e
        · exact absurd e.symm hv
        · exact e
      split_ifs
      · split
        · rfl
        · exact ih hmem
      · exact ih hmem

theorem matchSeq_sound (re : List Item) : KSound (matchSeq re) (Lang re) := by
  induction re with
  | nil =>
    intro s m h
    simp only [matchSeq, Option.some.injEq] at h
    subst h
    exact ⟨⟨s, rfl⟩, rfl⟩
  | cons it r ih =>
    intro s m h
    rw [matchSeq] at h
    cases it with
    | one p =>
      cases s with
      | nil => simp [matchItem] at h
      | cons c cs =>
        simp only [matchItem] at h
        split_ifs at h with hp
        · simp only [Option.map_eq_some'] at h
          obtain ⟨m1, h1, rfl⟩ := h
          obtain ⟨⟨rest, hr⟩, hl⟩ := ih _ _ h1
          exact ⟨⟨rest, by rw [hr]; rfl⟩, c, m1, rfl, hp, hl⟩
    | opt p =>
      cases s with
      | nil =>
        simp only [matchItem] at h
        obtain ⟨hr, hl⟩ := ih _ _ h
        exact ⟨hr, Or.inl hl⟩
      | cons c cs =>
        simp only [matchItem] at h
        split_ifs at h with hp
        · split at h
          · rename_i m1 h1
            injection h with h
            subst h
            obtain ⟨⟨rest, hr⟩, hl⟩ := ih _ _ h1
            exact ⟨⟨rest, by rw [hr]; rfl⟩, Or.inr ⟨c, m1, rfl, hp, hl⟩⟩
          · obtain ⟨hr, hl⟩ := ih _ _ h
            exact ⟨hr, Or.inl hl⟩
        · obtain ⟨hr, hl⟩ := ih _ _ h
          exact ⟨hr, Or.inl hl⟩
    | star p =>
      simp only [matchItem] at h
      exact starK_sound ih _ _ h
    | plus p =>
      cases s with
      | nil => simp [matchItem] at h
      | cons c cs =>
        simp only [matchItem] at h
        split_ifs at h with hp
        · simp only [Option.map_eq_some'] at h
          obtain ⟨m1, h1, rfl⟩ := h
          obtain ⟨⟨rest, hr⟩, a, b, hab, ha, hb⟩ := starK_sound ih _ _ h1
          exact ⟨⟨rest, by rw [hr]; rfl⟩, c, a, b, by rw [hab], hp, ha, hb⟩
    | alt ws =>
      simp only [matchItem] at h
      exact altK_sound ih s ws m h

theorem matchSeq_complete (re : List Item) : KComplete (matchSeq re) (Lang re) := by
  induction re with
  | nil => intro m rest _; simp [matchSeq]
  | cons it r ih =>
    intro m rest hm
    rw [matchSeq]
    cases it with
    | one p =>
      obtain ⟨c, b, rfl, hp, hb⟩ := hm
      simp only [List.cons_append, matchItem, hp, if_true, Option.isSome_map']
      exact ih b rest hb
    | opt p =>
      rcases hm with hm | ⟨c, b, rfl, hp, hb⟩
      · have := ih m rest hm
        cases hmr : m ++ rest with
        | nil => rw [hmr] at this; simpa [matchItem] using this
        | cons c cs =>
          rw [hmr] at this
          simp only [matchItem]
          split_ifs
          · split
            · rfl
            · exact this
          · exact this
      · have := ih b rest hb
        simp only [List.cons_append, matchItem, hp, if_true]
        split
        · rfl
        · rename_i hnone
          rw [hnone] at this
          exact absurd this (by simp)
    | star p =>
      simp only [matchItem]
      exact starK_complete ih m rest hm
    | plus p =>
      obtain ⟨c, a, b, rfl, hp, ha, hb⟩ := hm
      simp only [List.cons_append, matchItem, hp, if_true, Option.isSome_map']
      exact starK_complete ih (a ++ b) rest ⟨a, b, rfl, ha, hb⟩
    | alt ws =>
      obtain ⟨w, hw, b, rfl, hb⟩ := hm
      simp only [matchItem]
      exact altK_complete ih ws w b rest hw hb

theorem matchAt_zero_iff (re : List Item) (s : GoString) :
    MatchAt re s 0 ↔ (matchSeq re s).isSome = true := by
  constructor
  · rintro ⟨pre, m, post, hs, hlen, hm⟩
    have hpre : pre = [] := List.length_eq_zero.1 hlen
    subst hpre
    rw [hs, List.nil_append]
    exact matchSeq_complete re m post hm
  · intro h
    obtain ⟨m, hm⟩ := Option.isSome_iff_exists.1 h
    obtain ⟨⟨rest, hr⟩, hl⟩ := matchSeq_sound re s m hm
    exact ⟨[], m, rest, by rw [hr]; rfl, rfl, hl⟩

theorem matchAt_succ_iff (re : List Item) (c : Char) (cs : GoString) (n : Nat) :
    MatchAt re (c :: cs) (n + 1) ↔ MatchAt re cs n := by
  constructor
  · rintro ⟨pre, m, post, hs, hlen, hm⟩
    cases pre with
    | nil => simp at hlen
    | cons x xs =>
      simp only [List.cons_append, List.cons.injEq] at hs
      exact ⟨xs, m, post, hs.2, by simpa using hlen, hm⟩
  · rintro ⟨pre, m, post, hs, hlen, hm⟩
    exact ⟨c :: pre, m, post, by rw [hs]; rfl, by simp [hlen], hm⟩

/-- When `firstMatch` finds nothing, no part of the text matches the pattern. -/
theorem firstMatch_none (re : List Item) (s : GoString) (h : firstMatch re s = none) :
    ∀ n, ¬ MatchAt re s n := by
  induction s with
  | nil =>
    intro n hn
    obtain ⟨pre, m, post, hs, hlen, hm⟩ := hn
    have h0 : MatchAt re [] 0 := by
      have : pre = [] := by
        cases pre with
        | nil => rfl
        | cons _ _ => simp at hs
      subst this
      exact ⟨[], m, post, hs, rfl, hm⟩
    have := (matchAt_zero_iff re []).1 h0
    simp only [firstMatch, Option.map_eq_none'] at h
    rw [h] at this
    exact absurd this (by simp)
  | cons c cs ih =>
    rw [firstMatch] at h
    split at h
    · simp at h
    · rename_i hnone
      intro n hn
      cases n with
      | zero =>
        have := (matchAt_zero_iff re _).1 hn
        rw [hnone] at this
        exact absurd this (by simp)
      | succ k => exact ih h k ((matchAt_succ_iff re c cs k).1 hn)

/-- What `firstMatch` finds is a match of the pattern, and no match starts before it. -/
theorem firstMatch_some (re : List Item) (s m rest : GoString)
    (h : firstMatch re s = some (m, rest)) :
    ∃ pre, s = pre ++ m ++ rest ∧ Lang re m ∧ ∀ n, n < pre.length → ¬ MatchAt re s n := by
  induction s with
  | nil =>
    simp only [firstMatch, Option.map_eq_some', Prod.mk.injEq] at h
    obtain ⟨m1, h1, rfl, rfl⟩ := h
    obtain ⟨⟨r, hr⟩, hl⟩ := matchSeq_sound re _ _ h1
    have hm : m1 = [] := by
      cases m1 with
      | nil => rfl
      | cons _ _ => simp at hr
    subst hm
    exact ⟨[], rfl, hl, fun n hn => absurd hn (by simp)⟩
  | cons c cs ih =>
    rw [firstMatch] at h
    split at h
    · rename_i m1 h1
      simp only [Option.some.injEq, Prod.mk.injEq] at h
      obtain ⟨rfl, hrest⟩ := h
      obtain ⟨⟨r, hr⟩, hl⟩ := matchSeq_sound re _ _ h1
      have hd : (c :: cs).drop m1.length = r := by rw [hr]; simp
      rw [hd] at hrest
      subst hrest
      exact ⟨[], by rw [hr]; rfl, hl, fun n hn => absurd hn (by simp)⟩
    · rename_i hnone
      obtain ⟨pre, hs, hl, hleft⟩ := ih h
      refine ⟨c :: pre, by rw [hs]; rfl, hl, ?_⟩
      intro n hn hmatch
      cases n with
      | zero =>
        have := (matchAt_zero_iff re _).1 hmatch
        rw [hnone] at this
        exact absurd this (by simp)
      | succ k =>
        exact hleft k (by simpa using hn) ((matchAt_succ_iff re c cs k).1 hmatch)

/-! ## The shape of the matches -/

theorem lang_number {r : List Item} {m : GoString}
    (h : Lang (Item.plus reDigit :: Item.opt (fun c => decide (c = '.')) ::
      Item.star reDigit :: r) m) :
    ∃ (n : DecNum) (b : GoString), m = n.text ++ b ∧ n.WellFormed ∧ Lang r b := by
  obtain ⟨c, a, b1, rfl, hc, ha, h1⟩ := h
  have hca : AllDigits (c :: a) := by
    intro x hx
    rcases List.mem_cons.1 hx with e | e
    · rw [e]; exact hc
    · exact ha x e
  rcases h1 with h2 | ⟨d, b2, rfl, hd, h2⟩
  · obtain ⟨a2, b3, rfl, ha2, h3⟩ := h2
    refine ⟨⟨c :: a ++ a2, none⟩, b3, by simp [DecNum.text, fracText], ⟨by simp, ?_, ?_⟩, h3⟩
    · intro x hx
      rcases List.mem_append.1 hx with e | e
      · exact hca x e
      · exact ha2 x e
    · intro x hx
      simp [fracDigits] at hx
  · obtain ⟨a2, b3, rfl, ha2, h3⟩ := h2
    have hd2 : d = '.' := by simpa using hd
    subst hd2
    exact ⟨⟨c :: a, some a2⟩, b3, by simp [DecNum.text, fracText], ⟨by simp, hca, ha2⟩, h3⟩

theorem lang_spaces {r : List Item} {m : GoString} (h : Lang (Item.plus reSpace :: r) m) :
    ∃ w b, m = w ++ b ∧ ReSpaces w ∧ Lang r b := by
  obtain ⟨c, a, b, rfl, hc, ha, hb⟩ := h
  refine ⟨c :: a, b, rfl, ⟨by simp, ?_⟩, hb⟩
  intro x hx
  rcases List.mem_cons.1 hx with e | e
  · rw [e]; exact hc
  · exact ha x e

theorem lang_char {a : Char} {r : List Item} {m : GoString} (h : Lang (reChar a :: r) m) :
    ∃ b, m = a :: b ∧ Lang r b := by
  obtain ⟨c, b, rfl, hc, hb⟩ := h
  have : c = a := by simpa using hc
  subst this
  exact ⟨b, rfl, hb⟩

theorem lang_times {r : List Item} {m : GoString}
    (h : Lang (Item.plus reSpace :: reChar 'x' :: Item.plus reSpace :: r) m) :
    ∃ w1 w2 b, m = w1 ++ 'x' :: (w2 ++ b) ∧ ReSpaces w1 ∧ ReSpaces w2 ∧ Lang r b := by
  obtain ⟨w1, b1, rfl, hw1, h1⟩ := lang_spaces h
  obtain ⟨b2, rfl, h2⟩ := lang_char h1
  obtain ⟨w2, b3, rfl, hw2, h3⟩ := lang_spaces h2
  exact ⟨w1, w2, b3, rfl, hw1, hw2, h3⟩

/-- Every match of the dimension pattern is three numbers separated by `x` and followed by
the unit word, with white space in between. -/
theorem lang_dimensions {m : GoString} (h : Lang reDimensions m) :
    ∃ (a b c : DecNum) (w1 w2 w3 w4 w5 : GoString), m = dimText a b c w1 w2 w3 w4 w5 ∧
      a.WellFormed ∧ b.WellFormed ∧ c.WellFormed ∧
      ReSpaces w1 ∧ ReSpaces w2 ∧ ReSpaces w3 ∧ ReSpaces w4 ∧ ReSpaces w5 := by
  obtain ⟨a, m1, rfl, ha, h1⟩ := lang_number h
  obtain ⟨w1, w2, m2, rfl, hw1, hw2, h2⟩ := lang_times h1
  obtain ⟨b, m3, rfl, hb, h3⟩ := lang_number h2
  obtain ⟨w3, w4, m4, rfl, hw3, hw4, h4⟩ := lang_times h3
  obtain ⟨c, m5, rfl, hc, h5⟩ := lang_number h4
  obtain ⟨w5, m6, rfl, hw5, h6⟩ := lang_spaces h5
  obtain ⟨w, hw, m7, rfl, h7⟩ := h6
  have hw2 : w = "inches".toList := by simpa using hw
  have h8 : m7 = [] := h7
  subst hw2 h8
  exact ⟨a, b, c, w1, w2, w3, w4, w5, by simp [dimText], ha, hb, hc, hw1, hw2, hw3, hw4, hw5⟩

/-! ## `findDimensions` -/

theorem isSpace_of_reSpace {c : Char} (h : reSpace c = true) : isSpace c = true := by
  simp only [reSpace, Bool.or_eq_true, decide_eq_true_eq] at h
  simp only [isSpace, Bool.or_eq_true, decide_eq_true_eq]
  tauto

theorem reSpace_ne {c d : Char} (h : reSpace c = true) (hd : reSpace d = false) : c ≠ d := by
  intro e
  subst e
  rw [h] at hd
  exact absurd hd (by decide)

theorem DecNum.text_chars {n : DecNum} (h : n.WellFormed) :
    ∀ c ∈ n.text, reDigit c = true ∨ c = '.' :=
  numeral_char_cases h.2.1 h.2.2

theorem DecNum.text_ne_nil {n : DecNum} (h : n.WellFormed) : n.text ≠ [] := by
  unfold DecNum.text
  intro e
  exact h.1 (List.append_eq_nil.1 e).1

theorem DecNum.not_mem_text {n : DecNum} (h : n.WellFormed) {d : Char}
    (hd : reDigit d = false) (hdot : d ≠ '.') : d ∉ n.text := by
  intro hm
  rcases DecNum.text_chars h d hm with e | e
  · rw [e] at hd; exact absurd hd (by decide)
  · exact hdot e

theorem not_mem_of_reSpaces {w : GoString} (hw : ∀ c ∈ w, reSpace c = true) {d : Char}
    (hd : reSpace d = false) : d ∉ w := by
  intro hm
  have := hw d hm
  rw [this] at hd
  exact absurd hd (by decide)

/-- What `parseFloat` returns on the text of a number. -/
theorem parseFloat_text {n : DecNum} (h : n.WellFormed) :
    parseFloat n.text =
      if overflowBound ≤ n.value then .error .outOfRange else .ok (F64.fin n.value) :=
  parseFloat_numeral h.1 h.2.1 h.2.2

/-- A number with white space around it, trimmed and freed of separators, parses as the
number. -/
theorem parseFloat_padded {n : DecNum} (h : n.WellFormed) (lead trail : GoString)
    (hl : ∀ c ∈ lead, reSpace c = true) (ht : ∀ c ∈ trail, reSpace c = true) :
    parseFloat (removeAll [','] (trimSpace (lead ++ n.text ++ trail))) =
      if overflowBound ≤ n.value then .error .outOfRange else .ok (F64.fin n.value) := by
  have hns : ∀ c ∈ n.text, isSpace c = false := by
    intro c hc
    rcases DecNum.text_chars h c hc with e | e
    · exact not_isSpace_of_reDigit e
    · rw [e]; decide
  rw [trimSpace_sandwich lead n.text trail (fun c hc => isSpace_of_reSpace (hl c hc))
    (fun c hc => isSpace_of_reSpace (ht c hc)) (DecNum.text_ne_nil h) hns,
    removeAll_comma_of_none (DecNum.not_mem_text h (by decide) (by decide)),
    parseFloat_text h]

theorem removeAll_inches (a : GoString) (h : 'i' ∉ a) :
    removeAll "inches".toList (a ++ "inches".toList) = a := by
  unfold removeAll
  induction a with
  | nil => decide
  | cons x xs ih =>
    have hx : ('i' == x) = false := by
      rw [beq_eq_false_iff_ne]
      exact fun e => h (by rw [← e]; exact List.mem_cons_self _ _)
    have hp : List.isPrefixOf "inches".toList (x :: (xs ++ "inches".toList)) = false := by
      show List.isPrefixOf ('i' :: "nches".toList) (x :: (xs ++ "inches".toList)) = false
      rw [List.isPrefixOf, hx]
      rfl
    rw [List.cons_append, removeAllAux]
    simp only [hp, Bool.false_eq_true, if_false]
    rw [ih (fun hm => h (by simp [hm]))]

theorem splitOn_dimText (a b c : DecNum) (w1 w2 w3 w4 w5 : GoString)
    (ha : a.WellFormed) (hb : b.WellFormed) (hc : c.WellFormed)
    (h1 : ∀ x ∈ w1, reSpace x = true) (h2 : ∀ x ∈ w2, reSpace x = true)
    (h3 : ∀ x ∈ w3, reSpace x = true) (h4 : ∀ x ∈ w4, reSpace x = true)
    (h5 : ∀ x ∈ w5, reSpace x = true) :
    splitOn 'x' (dimText a b c w1 w2 w3 w4 w5) =
      [a.text ++ w1, w2 ++ b.text ++ w3, w4 ++ c.text ++ w5 ++ "inches".toList] := by
  have na : 'x' ∉ a.text := DecNum.not_mem_text ha (by decide) (by decide)
  have nb : 'x' ∉ b.text := DecNum.not_mem_text hb (by decide) (by decide)
  have nc : 'x' ∉ c.text := DecNum.not_mem_text hc (by decide) (by decide)
  have n1 : 'x' ∉ w1 := not_mem_of_reSpaces h1 (by decide)
  have n2 : 'x' ∉ w2 := not_mem_of_reSpaces h2 (by decide)
  have n3 : 'x' ∉ w3 := not_mem_of_reSpaces h3 (by decide)
  have n4 : 'x' ∉ w4 := not_mem_of_reSpaces h4 (by decide)
  have n5 : 'x' ∉ w5 := not_mem_of_reSpaces h5 (by decide)
  have ni : 'x' ∉ "inches".toList := by decide
  unfold dimText
  rw [splitOn_append_sep _ _ _ (by simp [na, n1]),
    splitOn_append_sep _ _ _ (by simp [nb, n2, n3]),
    splitOn_of_no_sep _ _ (by
      intro hm
      rcases List.mem_append.1 hm with hm | hm
      · rcases List.mem_append.1 hm with hm | hm
        · rcases List.mem_append.1 hm with hm | hm
          · exact n4 hm
          · exact nc hm
        · exact n5 hm
      · exact ni hm)]

/-- The result of `findDimensions` when the leftmost match is `dimText a b c ...`. -/
theorem findDimensions_of_match (container : GoString) (a b c : DecNum)
    (w1 w2 w3 w4 w5 : GoString) (ha : a.WellFormed) (hb : b.WellFormed) (hc : c.WellFormed)
    (h1 : ∀ x ∈ w1, reSpace x = true) (h2 : ∀ x ∈ w2, reSpace x = true)
    (h3 : ∀ x ∈ w3, reSpace x = true) (h4 : ∀ x ∈ w4, reSpace x = true)
    (h5 : ∀ x ∈ w5, reSpace x = true)
    (hm : findString reDimensions container = dimText a b c w1 w2 w3 w4 w5) :
    findDimensions container =
      if a.InRange ∧ b.InRange ∧ c.InRange then
        (F64.fin a.value, F64.fin b.value, F64.fin c.value)
      else (F64.zero, F64.zero, F64.zero) := by
  have hne : dimText a b c w1 w2 w3 w4 w5 ≠ [] := by
    unfold dimText
    intro e
    have := (List.append_eq_nil.1 e).1
    exact DecNum.text_ne_nil ha (List.append_eq_nil.1 this).1
  have hpa := parseFloat_padded ha [] w1 (by simp) h1
  have hpb := parseFloat_padded hb w2 w3 h2 h3
  have hpc := parseFloat_padded hc w4 w5 h4 h5
  have hin : removeAll "inches".toList (w4 ++ c.text ++ w5 ++ "inches".toList) =
      w4 ++ c.text ++ w5 := by
    apply removeAll_inches
    intro hmem
    rcases List.mem_append.1 hmem with hmem | hmem
    · rcases List.mem_append.1 hmem with hmem | hmem
      · exact not_mem_of_reSpaces h4 (by decide) hmem
      · exact DecNum.not_mem_text hc (by decide) (by decide) hmem
    · exact not_mem_of_reSpaces h5 (by decide) hmem
  rw [List.nil_append] at hpa
  unfold findDimensions
  simp only [hm, hne, if_false, splitOn_dimText a b c w1 w2 w3 w4 w5 ha hb hc h1 h2 h3 h4 h5,
    hin, hpa, hpb, hpc]
  unfold DecNum.InRange
  by_cases ra : a.value < overflowBound <;> by_cases rb : b.value < overflowBound <;>
    by_cases rc : c.value < overflowBound <;>
    simp [ra, rb, rc, not_le.2, not_lt.1]

/-- C7, as the code has it: when the detail text holds a match of the dimension pattern,
the leftmost match is three numbers separated by `x` and followed by "inches", and
`findDimensions` returns the values of these three numbers, in that order, provided each is
below the `float64` overflow bound; otherwise it returns three zeros. -/
theorem findDimensions_leftmost (container : GoString)
    (h : ∃ k, MatchAt reDimensions container k) :
    ∃ (pre post : GoString) (a b c : DecNum) (w1 w2 w3 w4 w5 : GoString),
      container = pre ++ dimText a b c w1 w2 w3 w4 w5 ++ post ∧
      Lang reDimensions (dimText a b c w1 w2 w3 w4 w5) ∧
      (∀ k, k < pre.length → ¬ MatchAt reDimensions container k) ∧
      (a.WellFormed ∧ b.WellFormed ∧ c.WellFormed) ∧
      (ReSpaces w1 ∧ ReSpaces w2 ∧ ReSpaces w3 ∧ ReSpaces w4 ∧ ReSpaces w5) ∧
      findDimensions container =
        if a.InRange ∧ b.InRange ∧ c.InRange then
          (F64.fin a.value, F64.fin b.value, F64.fin c.value)
        else (F64.zero, F64.zero, F64.zero) := by
  cases hf : firstMatch reDimensions container with
  | none =>
    obtain ⟨k, hk⟩ := h
    exact absurd hk (firstMatch_none _ _ hf k)
  | some mr =>
    obtain ⟨m, rest⟩ := mr
    obtain ⟨pre, hs, hl, hleft⟩ := firstMatch_some _ _ _ _ hf
    obtain ⟨a, b, c, w1, w2, w3, w4, w5, rfl, ha, hb, hc, h1, h2, h3, h4, h5⟩ :=
      lang_dimensions hl
    have hfs : findString reDimensions container = dimText a b c w1 w2 w3 w4 w5 := by
      simp only [findString, hf]
    exact ⟨pre, rest, a, b, c, w1, w2, w3, w4, w5, hs, hl, hleft, ⟨ha, hb, hc⟩,
      ⟨h1, h2, h3, h4, h5⟩,
      findDimensions_of_match container a b c w1 w2 w3 w4 w5 ha hb hc h1.2 h2.2 h3.2 h4.2
        h5.2 hfs⟩

/-- C7 at the text "12.3 x 14 x 23 inches". -/
theorem findDimensions_leftmost_witness :
    (∃ k, MatchAt reDimensions "12.3 x 14 x 23 inches".toList k) ∧
    (∃ (pre post : GoString) (a b c : DecNum) (w1 w2 w3 w4 w5 : GoString),
      "12.3 x 14 x 23 inches".toList = pre ++ dimText a b c w1 w2 w3 w4 w5 ++ post ∧
      Lang reDimensions (dimText a b c w1 w2 w3 w4 w5) ∧
      (∀ k, k < pre.length → ¬ MatchAt reDimensions "12.3 x 14 x 23 inches".toList k) ∧
      (a.WellFormed ∧ b.WellFormed ∧ c.WellFormed) ∧
      (ReSpaces w1 ∧ ReSpaces w2 ∧ ReSpaces w3 ∧ ReSpaces w4 ∧ ReSpaces w5) ∧
      findDimensions "12.3 x 14 x 23 inches".toList =
        if a.InRange ∧ b.InRange ∧ c.InRange then
          (F64.fin a.value, F64.fin b.value, F64.fin c.value)
        else (F64.zero, F64.zero, F64.zero)) ∧
    findDimensions "12.3 x 14 x 23 inches".toList = (F64.fin 12.3, F64.fin 14, F64.fin 23) ∧
    findDimensions "Size: 1 x 2. x 3.50  inches; black".toList =
      (F64.fin 1, F64.fin 2, F64.fin 3.5) :=
  ⟨⟨0, (matchAt_zero_iff _ _).2 (by decide)⟩,
   findDimensions_leftmost _ ⟨0, (matchAt_zero_iff _ _).2 (by decide)⟩,
   by decide!, by decide!⟩

/-- C7 fails as stated: when the first number of the match has 309 digits the parser reports
a range error and `findDimensions` returns three zeros, not the numbers of the match. -/
theorem findDimensions_overflow :
    (matchSeq reDimensions (List.replicate 309 '9' ++ " x 14 x 23 inches".toList)).isSome
      = true ∧
    findDimensions (List.replicate 309 '9' ++ " x 14 x 23 inches".toList) =
      (F64.zero, F64.zero, F64.zero) := by
  decide!

/-! ## `findWeight` -/

/-- Every match of the weight pattern is a number, white space and a unit word. -/
theorem lang_weight {m : GoString} (h : Lang reWeight m) :
    ∃ (n : DecNum) (w u : GoString), m = n.text ++ w ++ u ∧ n.WellFormed ∧ ReSpaces w ∧
      (u = "ounces".toList ∨ u = "pounds".toList) := by
  obtain ⟨n, m1, rfl, hn, h1⟩ := lang_number h
  obtain ⟨w, m2, rfl, hw, h2⟩ := lang_spaces h1
  obtain ⟨u, hu, m3, rfl, h3⟩ := h2
  have h4 : m3 = [] := h3
  subst h4
  refine ⟨n, w, u, by simp, hn, hw, ?_⟩
  simpa using hu

/-- The first piece of the split of `a ++ w ++ r` on the space character, when `a` has no
space character and `w` has one: `a` followed by the part of `w` before its first space. -/
theorem splitOn_space_in_run (a w r : GoString) (ha : ' ' ∉ a) (hw : ' ' ∈ w) :
    ∃ w1 t, (∀ c ∈ w1, c ∈ w) ∧ splitOn ' ' (a ++ w ++ r) = (a ++ w1) :: t := by
  obtain ⟨w1, w2, rfl, hw1⟩ := List.eq_append_cons_of_mem hw
  refine ⟨w1, splitOn ' ' (w2 ++ r), fun c hc => by simp [hc], ?_⟩
  have : a ++ (w1 ++ ' ' :: w2) ++ r = (a ++ w1) ++ ' ' :: (w2 ++ r) := by simp
  rw [this, splitOn_append_sep _ _ _ (by simp [ha, hw1])]

/-- The result of `findWeight` when the chosen match is a number followed by white space
that holds a space character. -/
theorem findWeight_of_last (container : GoString) (n : DecNum) (w u : GoString)
    (hn : n.WellFormed) (hw : ReSpaces w)
    (hlast : (findAllString reWeight 2 container).getLast? = some (n.text ++ w ++ u))
    (hsp : ' ' ∈ w) (hr : n.InRange) :
    findWeight container = Run.ok (F64.fin n.value) := by
  have hne : n.text ++ w ++ u ≠ [] := by
    intro e
    exact DecNum.text_ne_nil hn (List.append_eq_nil.1 (List.append_eq_nil.1 e).1).1
  obtain ⟨w1, t, hw1, hsplit⟩ := splitOn_space_in_run n.text w u
    (DecNum.not_mem_text hn (by decide) (by decide)) hsp
  have hp := parseFloat_padded hn [] w1 (by simp) (fun c hc => hw.2 c (hw1 c hc))
  rw [List.nil_append] at hp
  have hnr : ¬ overflowBound ≤ n.value := not_le.2 hr
  unfold findWeight
  simp only [hlast, hne, if_false, hsplit]
  rw [hp]
  simp only [hnr, if_false]

theorem firstMatch_leftmost (re : List Item) (s m rest : GoString)
    (h : firstMatch re s = some (m, rest)) : ∃ pre, LeftmostMatch re s pre m rest := by
  obtain ⟨pre, hs, hl, hleft⟩ := firstMatch_some re s m rest h
  exact ⟨pre, hs, hl, hleft⟩

theorem firstMatch_eq_none_of_no_match (re : List Item) (s : GoString)
    (h : ∀ k, ¬ MatchAt re s k) : firstMatch re s = none := by
  cases hf : firstMatch re s with
  | none => rfl
  | some mr =>
    obtain ⟨m, rest⟩ := mr
    obtain ⟨pre, hs, hl, _⟩ := firstMatch_some re s m rest hf
    exact absurd ⟨pre, m, rest, hs, rfl, hl⟩ (h pre.length)

/-- C5, as the code has it: with no match of the weight pattern `findWeight` returns 0;
otherwise it takes the second of the leftmost non-overlapping matches when there is one
and the only match when there is not, and when in that match the number is followed by
white space that holds a space character and its value is below the `float64` overflow
bound, it returns the value of the number, whichever unit word follows. -/
theorem findWeight_spec (container : GoString) :
    ((∀ k, ¬ MatchAt reWeight container k) → findWeight container = Run.ok F64.zero) ∧
    ((∃ k, MatchAt reWeight container k) →
      ∃ pre1 m1 rest1 m, LeftmostMatch reWeight container pre1 m1 rest1 ∧
        (((∀ k, ¬ MatchAt reWeight rest1 k) ∧ m = m1) ∨
          ∃ pre2 rest2, LeftmostMatch reWeight rest1 pre2 m rest2) ∧
        ∃ (n : DecNum) (w u : GoString), m = n.text ++ w ++ u ∧ n.WellFormed ∧
          ReSpaces w ∧ (u = "ounces".toList ∨ u = "pounds".toList) ∧
          (' ' ∈ w → n.InRange → findWeight container = Run.ok (F64.fin n.value))) := by
  constructor
  · intro h
    have hf := firstMatch_eq_none_of_no_match _ _ h
    simp [findWeight, findAllString, hf]
  · intro h
    cases hf : firstMatch reWeight container with
    | none =>
      obtain ⟨k, hk⟩ := h
      exact absurd hk (firstMatch_none _ _ hf k)
    | some mr =>
      obtain ⟨m1, rest1⟩ := mr
      obtain ⟨pre1, hlm1⟩ := firstMatch_leftmost _ _ _ _ hf
      cases hf2 : firstMatch reWeight rest1 with
      | none =>
        have hall : findAllString reWeight 2 container = [m1] := by
          simp [findAllString, hf, hf2]
        obtain ⟨n, w, u, hm, hn, hw, hu⟩ := lang_weight hlm1.2.1
        refine ⟨pre1, m1, rest1, m1, hlm1, Or.inl ⟨firstMatch_none _ _ hf2, rfl⟩,
          n, w, u, hm, hn, hw, hu, ?_⟩
        intro hsp hr
        exact findWeight_of_last container n w u hn hw (by rw [hall, ← hm]; rfl) hsp hr
      | some mr2 =>
        obtain ⟨m2, rest2⟩ := mr2
        obtain ⟨pre2, hlm2⟩ := firstMatch_leftmost _ _ _ _ hf2
        have hall : findAllString reWeight 2 container = [m1, m2] := by
          simp [findAllString, hf, hf2]
        obtain ⟨n, w, u, hm, hn, hw, hu⟩ := lang_weight hlm2.2.1
        refine ⟨pre1, m1, rest1, m2, hlm1, Or.inr ⟨pre2, rest2, hlm2⟩,
          n, w, u, hm, hn, hw, hu, ?_⟩
        intro hsp hr
        exact findWeight_of_last container n w u hn hw (by rw [hall, ← hm]; rfl) hsp hr

/-- C5 at the texts "no weight given", "1.2 pounds; 2.5 pounds" and "3 ounces". -/
theorem findWeight_spec_witness :
    ((∀ k, ¬ MatchAt reWeight "no weight given".toList k) ∧
      findWeight "no weight given".toList = Run.ok F64.zero) ∧
    ((∃ k, MatchAt reWeight "1.2 pounds; 2.5 pounds".toList k) ∧
      ∃ pre1 m1 rest1 m, LeftmostMatch reWeight "1.2 pounds; 2.5 pounds".toList pre1 m1 rest1 ∧
        (((∀ k, ¬ MatchAt reWeight rest1 k) ∧ m = m1) ∨
          ∃ pre2 rest2, LeftmostMatch reWeight rest1 pre2 m rest2) ∧
        ∃ (n : DecNum) (w u : GoString), m = n.text ++ w ++ u ∧ n.WellFormed ∧
          ReSpaces w ∧ (u = "ounces".toList ∨ u = "pounds".toList) ∧
          (' ' ∈ w → n.InRange →
            findWeight "1.2 pounds; 2.5 pounds".toList = Run.ok (F64.fin n.value))) ∧
    findWeight "1.2 pounds; 2.5 pounds".toList = Run.ok (F64.fin 2.5) ∧
    findWeight "3 ounces".toList = Run.ok (F64.fin 3) :=
  ⟨⟨firstMatch_none _ _ (by decide),
    (findWeight_spec _).1 (firstMatch_none _ _ (by decide))⟩,
   ⟨⟨0, (matchAt_zero_iff _ _).2 (by decide)⟩,
    (findWeight_spec _).2 ⟨0, (matchAt_zero_iff _ _).2 (by decide)⟩⟩,
   by decide!, by decide!⟩

/-- C5 fails as stated: the match "3", tab, "ounces" is cut at the space character only, so
the text handed to the parser is the whole match and `findWeight` returns 0, not 3. -/
theorem findWeight_tab :
    findAllString reWeight 2 "3\tounces".toList = ["3\tounces".toList] ∧
    findWeight "3\tounces".toList = Run.ok F64.zero := by
  decide!

/-! ## `findBSR` -/

/-- Every match of the rank pattern is "#", a number, white space and the word "in",
followed by more text. -/
theorem lang_bsr {m : GoString} (h : Lang reBSR m) :
    ∃ (n : DecNum) (w tail : GoString), m = ('#' :: n.text) ++ w ++ 'i' :: 'n' :: tail ∧
      n.WellFormed ∧ ReSpaces w := by
  obtain ⟨m0, rfl, h0⟩ := lang_char h
  obtain ⟨n, m1, rfl, hn, h1⟩ := lang_number h0
  obtain ⟨w, m2, rfl, hw, h2⟩ := lang_spaces h1
  obtain ⟨u, hu, m3, rfl, _⟩ := h2
  have hu2 : u = "in".toList := by simpa using hu
  subst hu2
  exact ⟨n, w, m3, by simp, hn, hw⟩

/-- The result of `findBSR` when the leftmost match starts with "#", a whole number below
`2^64` and white space that holds a space character. -/
theorem findBSR_of_match (container : GoString) (n : DecNum) (w r : GoString)
    (hn : n.WellFormed) (hw : ReSpaces w)
    (hm : findString reBSR container = ('#' :: n.text) ++ w ++ r)
    (hsp : ' ' ∈ w) (hfr : n.fr = none) (hlt : digitsNat n.ip < 2 ^ 64) :
    findBSR container = Run.ok (digitsNat n.ip) := by
  have htext : n.text = n.ip := by simp [DecNum.text, hfr, fracText]
  have hnosp : ' ' ∉ '#' :: n.text := by
    intro hc
    rcases List.mem_cons.1 hc with e | e
    · exact absurd e (by decide)
    · exact DecNum.not_mem_text hn (by decide) (by decide) e
  obtain ⟨w1, t, hw1, hsplit⟩ := splitOn_space_in_run ('#' :: n.text) w r hnosp hsp
  have htrim : trimSpace ('#' :: n.text ++ w1) = '#' :: n.text := by
    have := trimSpace_sandwich [] ('#' :: n.text) w1 (by simp)
      (fun c hc => isSpace_of_reSpace (hw.2 c (hw1 c hc))) (by simp) (by
        intro c hc
        rcases List.mem_cons.1 hc with e | e
        · rw [e]; decide
        · rcases DecNum.text_chars hn c e with e2 | e2
          · exact not_isSpace_of_reDigit e2
          · rw [e2]; decide)
    simpa using this
  have hne : ('#' :: n.text) ++ w ++ r ≠ [] := by simp
  have hpre : hasPrefix ('#' :: n.text) ['#'] = true := by
    simp [hasPrefix, List.isPrefixOf]
  have hsl := sliceFrom1_ascii n.text (show ('#' : Char).toNat < 128 by decide)
  have hrm : removeAll [','] n.text = n.text :=
    removeAll_comma_of_none (DecNum.not_mem_text hn (by decide) (by decide))
  have hpu : parseUint n.text = .ok (digitsNat n.ip) := by
    rw [htext, parseUint_digits _ hn.1 hn.2.1, if_pos hlt]
  unfold findBSR
  simp only [hm, hne, if_false, hsplit, htrim, hpre, Bool.not_true, Bool.false_eq_true, hsl,
    hrm, hpu]

/-- C6, as the code has it: with no match of the rank pattern `findBSR` returns 0; otherwise
the leftmost match starts with "#", a number and white space before "in", and when that
number is a whole number `n` below `2^64` and the white space after it holds a space
character, `findBSR` returns `n`. -/
theorem findBSR_spec (container : GoString) :
    ((∀ k, ¬ MatchAt reBSR container k) → findBSR container = Run.ok 0) ∧
    ((∃ k, MatchAt reBSR container k) →
      ∃ pre m rest, LeftmostMatch reBSR container pre m rest ∧
        ∃ (n : DecNum) (w tail : GoString),
          m = ('#' :: n.text) ++ w ++ 'i' :: 'n' :: tail ∧ n.WellFormed ∧ ReSpaces w ∧
          (' ' ∈ w → n.fr = none → digitsNat n.ip < 2 ^ 64 →
            findBSR container = Run.ok (digitsNat n.ip))) := by
  constructor
  · intro h
    have hf := firstMatch_eq_none_of_no_match _ _ h
    simp [findBSR, findString, hf]
  · intro h
    cases hf : firstMatch reBSR container with
    | none =>
      obtain ⟨k, hk⟩ := h
      exact absurd hk (firstMatch_none _ _ hf k)
    | some mr =>
      obtain ⟨m, rest⟩ := mr
      obtain ⟨pre, hlm⟩ := firstMatch_leftmost _ _ _ _ hf
      obtain ⟨n, w, tail, hm, hn, hw⟩ := lang_bsr hlm.2.1
      refine ⟨pre, m, rest, hlm, n, w, tail, hm, hn, hw, ?_⟩
      intro hsp hfr hlt
      have hfs : findString reBSR container = ('#' :: n.text) ++ w ++ 'i' :: 'n' :: tail := by
        simp only [findString, hf, hm]
      exact findBSR_of_match container n w _ hn hw hfs hsp hfr hlt

/-- C6 at the texts "unranked" and "#45 in Kitchen (See Top 100 Kitchen) ". -/
theorem findBSR_spec_witness :
    ((∀ k, ¬ MatchAt reBSR "unranked".toList k) ∧
      findBSR "unranked".toList = Run.ok 0) ∧
    ((∃ k, MatchAt reBSR "#45 in Kitchen (See Top 100 Kitchen) ".toList k) ∧
      ∃ pre m rest,
        LeftmostMatch reBSR "#45 in Kitchen (See Top 100 Kitchen) ".toList pre m rest ∧
        ∃ (n : DecNum) (w tail : GoString),
          m = ('#' :: n.text) ++ w ++ 'i' :: 'n' :: tail ∧ n.WellFormed ∧ ReSpaces w ∧
          (' ' ∈ w → n.fr = none → digitsNat n.ip < 2 ^ 64 →
            findBSR "#45 in Kitchen (See Top 100 Kitchen) ".toList =
              Run.ok (digitsNat n.ip))) ∧
    findBSR "#45 in Kitchen (See Top 100 Kitchen) ".toList = Run.ok 45 :=
  ⟨⟨firstMatch_none _ _ (by decide),
    (findBSR_spec _).1 (firstMatch_none _ _ (by decide))⟩,
   ⟨⟨0, (matchAt_zero_iff _ _).2 (by decide)⟩,
    (findBSR_spec _).2 ⟨0, (matchAt_zero_iff _ _).2 (by decide)⟩⟩,
   by decide⟩

/-- C6 fails as stated: when a tab follows the number, the first piece of the split on the
space character runs on past the number, and `findBSR` returns 0, not 45. -/
theorem findBSR_tab :
    findString reBSR "#45\tin Kitchen ".toList = "#45\tin Kitchen ".toList ∧
    findBSR "#45\tin Kitchen ".toList = Run.ok 0 := by
  decide

/-! ## When `findPrice` stops with a panic -/

theorem splitOn_cons_of_ne (sep c : Char) (cs : GoString) (h : c ≠ sep) :
    ∃ p t, splitOn sep (c :: cs) = (c :: p) :: t := by
  rw [splitOn]
  simp only [h, if_false]
  split
  · exact ⟨[], [], rfl⟩
  · rename_i p t _
    exact ⟨p, t, rfl⟩

theorem sliceFrom1_cons (c : Char) (cs : GoString) : ∃ l, sliceFrom1 (c :: cs) = Run.ok l := by
  simp only [sliceFrom1]
  split_ifs
  · exact ⟨_, rfl⟩
  · exact ⟨_, rfl⟩

theorem sliceFrom1_fault_iff (s : GoString) : sliceFrom1 s = Run.fault ↔ s = [] := by
  cases s with
  | nil => simp [sliceFrom1]
  | cons c cs =>
    obtain ⟨l, hl⟩ := sliceFrom1_cons c cs
    simp [hl]

/-- The body of `findPrice` panics exactly when the text starts with "$" and, once its
thousands separators are removed, holds a single dash, at its very end. -/
theorem parsePrice_fault_iff (text : GoString) :
    parsePrice text = Run.fault ↔
      hasPrefix text ['$'] = true ∧ ∃ p0, splitOn '-' (removeAll [','] text) = [p0, []] := by
  cases text with
  | nil => simp [parsePrice, hasPrefix, List.isPrefixOf]
  | cons c t =>
    by_cases hc : c = '$'
    · subst hc
      have hpre : hasPrefix ('$' :: t) ['$'] = true := by simp [hasPrefix, List.isPrefixOf]
      have hrm : removeAll [','] ('$' :: t) = '$' :: removeAll [','] t := by
        simp [removeAll_single]
      obtain ⟨p, tl, hsp⟩ := splitOn_cons_of_ne '-' '$' (removeAll [','] t) (by decide)
      obtain ⟨l0, hl0⟩ := sliceFrom1_cons '$' p
      obtain ⟨l1, hl1⟩ := sliceFrom1_cons '$' (removeAll [','] t)
      unfold parsePrice
      simp only [hpre, hrm, hsp, hl1, reduceCtorEq, if_false, Bool.not_true,
        Bool.false_eq_true, true_and]
      by_cases hd : contains ('$' :: removeAll [','] t) ['-'] = true
      · simp only [hd, if_true]
        cases tl with
        | nil => simp
        | cons p1 tl2 =>
          cases tl2 with
          | nil =>
            cases p1 with
            | nil => simp [hl0, sliceFrom1]
            | cons x xs =>
              obtain ⟨l2, hl2⟩ := sliceFrom1_cons x xs
              simp only [hl0, hl2]
              constructor
              · intro h
                repeat' split at h
                all_goals exact absurd h (by simp)
              · intro h
                simp at h
          | cons p2 tl3 => simp
      · have hnd : '-' ∉ '$' :: removeAll [','] t :=
          fun hm => hd ((contains_single _ _).2 hm)
        have h1 := splitOn_of_no_sep '-' _ hnd
        rw [hsp] at h1
        simp only [hd, Bool.false_eq_true, if_false, h1]
        constructor
        · intro h
          split at h <;> exact absurd h (by simp)
        · rintro ⟨p0, h⟩
          simp at h
    · have hpre : hasPrefix (c :: t) ['$'] = false := by
        simp [hasPrefix, List.isPrefixOf, Ne.symm hc]
      simp [parsePrice, hpre]

/-! ## The sale price comes first -/

/-- C11: a non-empty sale-price text alone decides the result, whatever the regular-price
text is (`findPrice s r` is the result for `s` with an empty regular-price text, that is the
parse of `s`); and with an empty sale-price text the result is the parse of the
regular-price text alone. -/
theorem findPrice_sale_first :
    (∀ s r : GoString, s ≠ [] →
      findPrice s r = findPrice s [] ∧ findPrice s r = parsePrice s) ∧
    (∀ r : GoString, findPrice [] r = parsePrice r ∧ findPrice [] r = findPrice r []) := by
  constructor
  · intro s r hs
    simp [findPrice, hs]
  · intro r
    by_cases hr : r = []
    · simp [findPrice, hr]
    · simp [findPrice, hr]

/-- C11 at an unparseable sale-price text ("Free") next to a good regular-price text, at a
good sale-price text, and at an empty sale-price text. -/
theorem findPrice_sale_first_witness :
    ("Free".toList ≠ [] ∧
      findPrice "Free".toList "$5".toList = findPrice "Free".toList [] ∧
      findPrice "Free".toList "$5".toList = Run.ok F64.zero) ∧
    findPrice "$7".toList "$5".toList = Run.ok (F64.fin 7) ∧
    findPrice [] "$5".toList = Run.ok (F64.fin 5) :=
  ⟨⟨by decide, (findPrice_sale_first.1 "Free".toList "$5".toList (by decide)).1,
    ((findPrice_sale_first.1 "Free".toList "$5".toList (by decide)).2).trans (by decide)⟩,
   ((findPrice_sale_first.1 "$7".toList "$5".toList (by decide)).2).trans (by decide!),
   ((findPrice_sale_first.2 "$5".toList).1).trans (by decide!)⟩

/-! ## The filter stops at the price -/

/-- C14: when the price lies outside the expanded price range, below the lowered minimum or
above the raised maximum, `isValid` returns false for every product with that price,
whatever its rank, review count, length, width, height and weight are. -/
theorem isValid_price_short_circuit (opts : options) (price : F64)
    (h : F64.lt price (lowered opts opts.minPrice) = true ∨
      F64.gt price (raised opts opts.maxPrice) = true) :
    ∀ prod : Product, prod.Price = price → isValid prod opts = false := by
  intro prod hp
  subst hp
  unfold isValid
  rcases h with h | h <;> simp [h]

/-- C14 at the specification's example: with minimum 10, maximum 20 and tolerance 10, the
price 8 is below the lowered minimum 9 and the price 23 is above the raised maximum 22. -/
theorem isValid_price_short_circuit_witness :
    (F64.lt (F64.fin 8) (lowered sampleOptions sampleOptions.minPrice) = true ∧
      ∀ prod : Product, prod.Price = F64.fin 8 → isValid prod sampleOptions = false) ∧
    (F64.gt (F64.fin 23) (raised sampleOptions sampleOptions.maxPrice) = true ∧
      ∀ prod : Product, prod.Price = F64.fin 23 → isValid prod sampleOptions = false) :=
  ⟨⟨by decide!, isValid_price_short_circuit sampleOptions (F64.fin 8) (Or.inl (by decide!))⟩,
   ⟨by decide!, isValid_price_short_circuit sampleOptions (F64.fin 23) (Or.inr (by decide!))⟩⟩

/-! ## The extractors never panic -/

theorem sliceFrom1_of_hasPrefix {t : GoString} {c : Char} (h : hasPrefix t [c] = true) :
    ∃ l, sliceFrom1 t = Run.ok l := by
  cases t with
  | nil => simp [hasPrefix, List.isPrefixOf] at h
  | cons x xs => exact sliceFrom1_cons x xs

/-- C17: `findReviews`, `findWeight` and `findBSR` return a value on every input: a split
on the space character is never empty, so its first element exists, and a text that
starts with "#" is not empty, so its first character can be removed. -/
theorem extractors_total (s : GoString) :
    (splitOn ' ' s ≠ [] ∧
      ∀ t : GoString, hasPrefix t ['#'] = true → ∃ l, sliceFrom1 t = Run.ok l) ∧
    (∃ n, findReviews s = Run.ok n) ∧ (∃ v, findWeight s = Run.ok v) ∧
    (∃ n, findBSR s = Run.ok n) := by
  refine ⟨⟨splitOn_ne_nil _ _, fun t ht => sliceFrom1_of_hasPrefix ht⟩, ?_, ?_, ?_⟩
  · unfold findReviews
    split_ifs
    · exact ⟨_, rfl⟩
    · split
      · rename_i heq
        exact absurd heq (splitOn_ne_nil _ _)
      · split
        · exact ⟨_, rfl⟩
        · exact ⟨_, rfl⟩
  · unfold findWeight
    simp only
    split_ifs
    · exact ⟨_, rfl⟩
    · split
      · rename_i heq
        exact absurd heq (splitOn_ne_nil _ _)
      · split
        · exact ⟨_, rfl⟩
        · exact ⟨_, rfl⟩
  · unfold findBSR
    simp only
    split_ifs with h1
    · exact ⟨_, rfl⟩
    · split
      · rename_i heq
        exact absurd heq (splitOn_ne_nil _ _)
      · rename_i b0 tl heq
        by_cases hp : hasPrefix (trimSpace b0) ['#'] = true
        · obtain ⟨l, hl⟩ := sliceFrom1_of_hasPrefix hp
          simp only [hp, Bool.not_true, Bool.false_eq_true, if_false, hl]
          split
          · exact ⟨_, rfl⟩
          · exact ⟨_, rfl⟩
        · simp only [hp, Bool.not_false, if_true]
          exact ⟨_, rfl⟩

/-- C17 at the empty text, at a text of blanks only and at texts with a match. -/
theorem extractors_total_witness :
    findReviews [] = Run.ok 0 ∧ findWeight "   ".toList = Run.ok F64.zero ∧
    findBSR "# 1 in a ".toList = Run.ok 0 ∧
    ((∃ n, findReviews " customer review".toList = Run.ok n) ∧
      (∃ v, findWeight "1 ounces".toList = Run.ok v) ∧
      (∃ n, findBSR "#1\tin a ".toList = Run.ok n)) :=
  ⟨by decide, by decide, by decide,
   (extractors_total " customer review".toList).2.1,
   (extractors_total "1 ounces".toList).2.2.1,
   (extractors_total "#1\tin a ".toList).2.2.2⟩

/-! ## The filter and its tolerance -/

theorem F64.nonneg_cases {x : F64} (h : F64.le F64.zero x = true) :
    (∃ b : ℚ, x = F64.fin b ∧ 0 ≤ b) ∨ x = F64.inf false := by
  cases x with
  | nan => simp [F64.le, F64.zero] at h
  | inf n =>
    simp [F64.le, F64.zero] at h
    exact Or.inr (by rw [h])
  | fin b =>
    simp [F64.le, F64.zero] at h
    exact Or.inl ⟨b, rfl, h⟩

theorem F64.lt_nan_right (p : F64) : F64.lt p F64.nan = false := by
  cases p <;> rfl

theorem F64.lt_neg_inf (p : F64) : F64.lt p (F64.inf true) = false := by
  cases p with
  | nan => rfl
  | inf n => cases n <;> rfl
  | fin q => rfl

theorem F64.lt_pos_inf_left (p : F64) : F64.lt (F64.inf false) p = false := by
  cases p with
  | nan => rfl
  | inf n => cases n <;> rfl
  | fin q => rfl

theorem F64.lt_fin_mono_right {p : F64} {a b : ℚ} (hab : b ≤ a)
    (h : F64.lt p (F64.fin a) = false) : F64.lt p (F64.fin b) = false := by
  cases p with
  | nan => rfl
  | inf n => exact h
  | fin q =>
    simp only [F64.lt, decide_eq_false_iff_not, not_lt] at h ⊢
    exact le_trans hab h

theorem F64.lt_fin_mono_left {p : F64} {a b : ℚ} (hab : a ≤ b)
    (h : F64.lt (F64.fin a) p = false) : F64.lt (F64.fin b) p = false := by
  cases p with
  | nan => rfl
  | inf n => exact h
  | fin q =>
    simp only [F64.lt, decide_eq_false_iff_not, not_lt] at h ⊢
    exact le_trans h hab

theorem F64.le_pos_inf {x : F64} (h : F64.isNaN x = false) :
    F64.le x (F64.inf false) = true := by
  cases x with
  | nan => simp [F64.isNaN] at h
  | inf n => cases n <;> rfl
  | fin q => rfl

theorem F64.neg_inf_le {x : F64} (h : F64.isNaN x = false) :
    F64.le (F64.inf true) x = true := by
  cases x with
  | nan => simp [F64.isNaN] at h
  | inf n => cases n <;> rfl
  | fin q => rfl

/-- A value that passes the test against a lower bound passes it against every smaller
one. -/
theorem F64.lt_false_mono_right {p x y : F64} (hxy : F64.le y x = true)
    (h : F64.lt p x = false) : F64.lt p y = false := by
  cases p with
  | nan => cases y <;> rfl
  | inf a =>
    cases x with
    | nan => cases y <;> simp [F64.le] at hxy
    | inf b =>
      cases y with
      | nan => rfl
      | inf c => cases a <;> cases b <;> cases c <;> simp_all [F64.lt, F64.le]
      | fin c => cases a <;> cases b <;> simp_all [F64.lt, F64.le]
    | fin b =>
      cases y with
      | nan => rfl
      | inf c => cases a <;> cases c <;> simp_all [F64.lt, F64.le]
      | fin c => cases a <;> simp_all [F64.lt, F64.le]
  | fin a =>
    cases x with
    | nan => cases y <;> simp [F64.le] at hxy
    | inf b =>
      cases y with
      | nan => rfl
      | inf c => cases b <;> cases c <;> simp_all [F64.lt, F64.le]
      | fin c => cases b <;> simp_all [F64.lt, F64.le]
    | fin b =>
      cases y with
      | nan => rfl
      | inf c => cases c <;> simp_all [F64.lt, F64.le]
      | fin c =>
        simp only [F64.lt, F64.le, decide_eq_true_eq, decide_eq_false_iff_not, not_lt]
          at hxy h ⊢
        exact le_trans hxy h

/-- A value that passes the test against an upper bound passes it against every larger
one. -/
theorem F64.lt_false_mono_left {p x y : F64} (hxy : F64.le x y = true)
    (h : F64.lt x p = false) : F64.lt y p = false := by
  cases p with
  | nan => cases y <;> rfl
  | inf a =>
    cases x with
    | nan => simp [F64.le] at hxy
    | inf b =>
      cases y with
      | nan => rfl
      | inf c => cases a <;> cases b <;> cases c <;> simp_all [F64.lt, F64.le]
      | fin c => cases a <;> cases b <;> simp_all [F64.lt, F64.le]
    | fin b =>
      cases y with
      | nan => rfl
      | inf c => cases a <;> cases c <;> simp_all [F64.lt, F64.le]
      | fin c => cases a <;> simp_all [F64.lt, F64.le]
  | fin a =>
    cases x with
    | nan => simp [F64.le] at hxy
    | inf b =>
      cases y with
      | nan => rfl
      | inf c => cases b <;> cases c <;> simp_all [F64.lt, F64.le]
      | fin c => cases b <;> simp_all [F64.lt, F64.le]
    | fin b =>
      cases y with
      | nan => rfl
      | inf c => cases c <;> simp_all [F64.lt, F64.le]
      | fin c =>
        simp only [F64.lt, F64.le, decide_eq_true_eq, decide_eq_false_iff_not, not_lt]
          at hxy h ⊢
        exact le_trans h hxy

theorem isFloatQ_one : IsFloatQ 1 :=
  ⟨1, 0, by norm_num, by norm_num, by norm_num, by simp⟩

theorem isFloatQ_two : IsFloatQ 2 :=
  ⟨2, 0, by norm_num, by norm_num, by norm_num, by simp⟩

/-- Dividing by 100 keeps the order. -/
theorem F64.divConst_mono {t1 t2 : F64} (h : F64.le t1 t2 = true) :
    F64.le (F64.divConst t1 100) (F64.divConst t2 100) = true := by
  cases t1 with
  | nan => simp [F64.le] at h
  | inf n =>
    cases t2 with
    | nan => simp [F64.le] at h
    | inf m => exact h
    | fin b =>
      have hn : n = true := by simpa [F64.le] using h
      subst hn
      exact F64.neg_inf_le (F64.isNaN_round _)
  | fin a =>
    cases t2 with
    | nan => simp [F64.le] at h
    | inf m =>
      have hm : m = false := by simpa [F64.le] using h
      subst hm
      exact F64.le_pos_inf (F64.isNaN_round _)
    | fin b =>
      have hab : a ≤ b := by simpa [F64.le] using h
      exact F64.round_mono (div_le_div_of_nonneg_right hab (by norm_num))

theorem F64.divConst_zero : F64.divConst F64.zero 100 = F64.fin 0 := by
  simp [F64.divConst, F64.zero, F64.round_zero]

/-- The factor `1 - d` falls when `d` grows. -/
theorem F64.sub_one_anti {x y : F64} (h : F64.le x y = true) :
    F64.le (F64.sub (F64.fin 1) y) (F64.sub (F64.fin 1) x) = true := by
  cases x with
  | nan => simp [F64.le] at h
  | inf n =>
    cases y with
    | nan => simp [F64.le] at h
    | inf m => cases n <;> cases m <;> simp_all [F64.le, F64.sub, F64.add, F64.neg]
    | fin b =>
      have hn : n = true := by simpa [F64.le] using h
      subst hn
      exact F64.le_pos_inf (F64.isNaN_round _)
  | fin a =>
    cases y with
    | nan => simp [F64.le] at h
    | inf m =>
      have hm : m = false := by simpa [F64.le] using h
      subst hm
      exact F64.neg_inf_le (F64.isNaN_round _)
    | fin b =>
      have hab : a ≤ b := by simpa [F64.le] using h
      exact F64.round_mono (by linarith)

/-- The factor `1 + d` grows with `d`. -/
theorem F64.add_one_mono {x y : F64} (h : F64.le x y = true) :
    F64.le (F64.add (F64.fin 1) x) (F64.add (F64.fin 1) y) = true := by
  cases x with
  | nan => simp [F64.le] at h
  | inf n =>
    cases y with
    | nan => simp [F64.le] at h
    | inf m => cases n <;> cases m <;> simp_all [F64.le, F64.add]
    | fin b =>
      have hn : n = true := by simpa [F64.le] using h
      subst hn
      exact F64.neg_inf_le (F64.isNaN_round _)
  | fin a =>
    cases y with
    | nan => simp [F64.le] at h
    | inf m =>
      have hm : m = false := by simpa [F64.le] using h
      subst hm
      exact F64.le_pos_inf (F64.isNaN_round _)
    | fin b =>
      have hab : a ≤ b := by simpa [F64.le] using h
      exact F64.round_mono (by linarith)

/-- The factor `1 - t/100` of the tolerance 0 is 1. -/
theorem F64.lowFactor_zero :
    F64.sub (F64.fin 1) (F64.divConst F64.zero 100) = F64.fin 1 := by
  rw [F64.divConst_zero]
  simp [F64.sub, F64.add, F64.neg, F64.round_of_isFloat isFloatQ_one]

/-- The factor `1 + t/100` of the tolerance 0 is 1. -/
theorem F64.highFactor_zero :
    F64.add (F64.fin 1) (F64.divConst F64.zero 100) = F64.fin 1 := by
  rw [F64.divConst_zero]
  simp [F64.add, F64.round_of_isFloat isFloatQ_one]

theorem F64.lowFactor_inf :
    F64.sub (F64.fin 1) (F64.divConst (F64.inf false) 100) = F64.inf true := rfl

theorem F64.highFactor_inf :
    F64.add (F64.fin 1) (F64.divConst (F64.inf false) 100) = F64.inf false := rfl

/-- The factor `1 - t/100` of a non-negative tolerance is at most 1. -/
theorem F64.lowFactor_le_one {t : F64} (h0 : F64.le F64.zero t = true) :
    F64.le (F64.sub (F64.fin 1) (F64.divConst t 100)) (F64.fin 1) = true := by
  have := F64.sub_one_anti (F64.divConst_mono h0)
  rwa [F64.lowFactor_zero] at this

/-- The factor `1 + t/100` of a non-negative tolerance is at least 1. -/
theorem F64.one_le_highFactor {t : F64} (h0 : F64.le F64.zero t = true) :
    F64.le (F64.fin 1) (F64.add (F64.fin 1) (F64.divConst t 100)) = true := by
  have := F64.add_one_mono (F64.divConst_mono h0)
  rwa [F64.highFactor_zero] at this

theorem lowered_def (opts : options) (x : F64) :
    lowered opts x =
      F64.mul (F64.sub (F64.fin 1) (F64.divConst opts.tolerance 100)) x := rfl

theorem raised_def (opts : options) (x : F64) :
    raised opts x =
      F64.mul (F64.add (F64.fin 1) (F64.divConst opts.tolerance 100)) x := rfl

/-- Under an infinite tolerance no value is below a lowered non-negative minimum. -/
theorem lower_pass_inf {m : F64} (hm : F64.le F64.zero m = true) (p : F64) :
    F64.lt p (F64.mul (F64.inf true) m) = false := by
  rcases F64.nonneg_cases hm with ⟨b, rfl, hb⟩ | rfl
  · by_cases h0 : b = 0
    · simp [F64.mul, h0, F64.lt_nan_right]
    · have : ¬ b < 0 := not_lt.2 hb
      simp [F64.mul, h0, this, F64.lt_neg_inf]
  · exact F64.lt_neg_inf p

/-- Under an infinite tolerance no value is above a raised non-negative maximum. -/
theorem upper_pass_inf {m : F64} (hm : F64.le F64.zero m = true) (p : F64) :
    F64.lt (F64.mul (F64.inf false) m) p = false := by
  rcases F64.nonneg_cases hm with ⟨b, rfl, hb⟩ | rfl
  · by_cases h0 : b = 0
    · simp only [F64.mul, h0, if_true]
      cases p <;> rfl
    · have : ¬ b < 0 := not_lt.2 hb
      simp [F64.mul, h0, this, F64.lt_pos_inf_left]
  · exact F64.lt_pos_inf_left p

/-- A factor of at most 1 or `-Inf`, never `+Inf` or NaN. -/
theorem F64.le_one_cases {c : F64} (h : F64.le c (F64.fin 1) = true) :
    (∃ q : ℚ, c = F64.fin q ∧ q ≤ 1) ∨ c = F64.inf true := by
  cases c with
  | nan => simp [F64.le] at h
  | inf n =>
    have hn : n = true := by simpa [F64.le] using h
    exact Or.inr (by rw [hn])
  | fin q => exact Or.inl ⟨q, rfl, by simpa [F64.le] using h⟩

/-- A factor of at least 1 or `+Inf`, never `-Inf` or NaN. -/
theorem F64.one_le_cases {c : F64} (h : F64.le (F64.fin 1) c = true) :
    (∃ q : ℚ, c = F64.fin q ∧ 1 ≤ q) ∨ c = F64.inf false := by
  cases c with
  | nan => simp [F64.le] at h
  | inf n =>
    have hn : n = false := by simpa [F64.le] using h
    exact Or.inr (by rw [hn])
  | fin q => exact Or.inl ⟨q, rfl, by simpa [F64.le] using h⟩

/-- A smaller factor gives a lower bound that lets through whatever the larger one did. -/
theorem F64.mul_lower_mono {c1 c2 m p : F64} (hc : F64.le c2 c1 = true)
    (h1 : F64.le c1 (F64.fin 1) = true) (hm : F64.le F64.zero m = true)
    (h : F64.lt p (F64.mul c1 m) = false) : F64.lt p (F64.mul c2 m) = false := by
  rcases F64.le_one_cases h1 with ⟨q1, rfl, hq1⟩ | rfl
  · cases c2 with
    | nan => simp [F64.le] at hc
    | inf n =>
      have hn : n = true := by simpa [F64.le] using hc
      subst hn
      exact lower_pass_inf hm p
    | fin q2 =>
      have hq : q2 ≤ q1 := by simpa [F64.le] using hc
      rcases F64.nonneg_cases hm with ⟨b, rfl, hb⟩ | rfl
      · simp only [F64.mul] at h ⊢
        exact F64.lt_false_mono_right (F64.round_mono (mul_le_mul_of_nonneg_right hq hb)) h
      · simp only [F64.mul] at h ⊢
        by_cases hz : q2 = 0
        · simp only [hz, if_true]
          exact F64.lt_nan_right p
        · by_cases hneg : q2 < 0
          · simp only [hz, if_false, hneg, decide_True]
            exact F64.lt_neg_inf p
          · have hpos : 0 < q1 := lt_of_lt_of_le (lt_of_le_of_ne (not_lt.1 hneg) (Ne.symm hz)) hq
            have h1z : ¬ q1 = 0 := ne_of_gt hpos
            have h1n : ¬ q1 < 0 := not_lt.2 hpos.le
            simp only [h1z, if_false, h1n, decide_False] at h
            simp only [hz, if_false, hneg, decide_False]
            exact h
  · cases c2 with
    | nan => simp [F64.le] at hc
    | inf n =>
      have hn : n = true := by simpa [F64.le] using hc
      subst hn
      exact h
    | fin q2 => simp [F64.le] at hc

/-- A larger factor gives an upper bound that lets through whatever the smaller one did. -/
theorem F64.mul_upper_mono {u1 u2 m p : F64} (hu : F64.le u1 u2 = true)
    (h1 : F64.le (F64.fin 1) u1 = true) (hm : F64.le F64.zero m = true)
    (h : F64.lt (F64.mul u1 m) p = false) : F64.lt (F64.mul u2 m) p = false := by
  rcases F64.one_le_cases h1 with ⟨q1, rfl, hq1⟩ | rfl
  · cases u2 with
    | nan => simp [F64.le] at hu
    | inf n =>
      have hn : n = false := by simpa [F64.le] using hu
      subst hn
      exact upper_pass_inf hm p
    | fin q2 =>
      have hq : q1 ≤ q2 := by simpa [F64.le] using hu
      rcases F64.nonneg_cases hm with ⟨b, rfl, hb⟩ | rfl
      · simp only [F64.mul] at h ⊢
        exact F64.lt_false_mono_left (F64.round_mono (mul_le_mul_of_nonneg_right hq hb)) h
      · have hp2 : 0 < q2 := by linarith
        simp only [F64.mul, ne_of_gt hp2, if_false, not_lt.2 hp2.le, decide_False]
        exact F64.lt_pos_inf_left p
  · cases u2 with
    | nan => simp [F64.le] at hu
    | inf n =>
      have hn : n = false := by simpa [F64.le] using hu
      subst hn
      exact h
    | fin q2 => simp [F64.le] at hu

/-- A wider tolerance keeps a value that passed the lower-bound test. -/
theorem lower_mono {t1 t2 m p : F64} (h0 : F64.le F64.zero t1 = true)
    (h12 : F64.le t1 t2 = true) (hm : F64.le F64.zero m = true)
    (h : F64.lt p (F64.mul (F64.sub (F64.fin 1) (F64.divConst t1 100)) m) = false) :
    F64.lt p (F64.mul (F64.sub (F64.fin 1) (F64.divConst t2 100)) m) = false :=
  F64.mul_lower_mono (F64.sub_one_anti (F64.divConst_mono h12)) (F64.lowFactor_le_one h0) hm h

/-- A wider tolerance keeps a value that passed the upper-bound test. -/
theorem upper_mono {t1 t2 m p : F64} (h0 : F64.le F64.zero t1 = true)
    (h12 : F64.le t1 t2 = true) (hm : F64.le F64.zero m = true)
    (h : F64.gt p (F64.mul (F64.add (F64.fin 1) (F64.divConst t1 100)) m) = false) :
    F64.gt p (F64.mul (F64.add (F64.fin 1) (F64.divConst t2 100)) m) = false :=
  F64.mul_upper_mono (F64.add_one_mono (F64.divConst_mono h12)) (F64.one_le_highFactor h0) hm h

theorem bool_chain (a1 a2 b1 b2 c1 c2 d e f g : Bool) :
    (if (a1 || a2) = true then false
      else if (b1 || b2) = true then false
      else if (c1 || c2) = true then false
      else if d = true then false
      else if e = true then false
      else if f = true then false
      else if g = true then false
      else true) = true ↔
    (a1 = false ∧ a2 = false) ∧ (b1 = false ∧ b2 = false) ∧ (c1 = false ∧ c2 = false) ∧
      d = false ∧ e = false ∧ f = false ∧ g = false := by
  cases a1 <;> cases a2 <;> simp

/-- The filter accepts exactly when none of its ten tests fires. -/
theorem isValid_true_iff (prod : Product) (opts : options) :
    isValid prod opts = true ↔
      (F64.lt prod.Price (lowered opts opts.minPrice) = false ∧
        F64.gt prod.Price (raised opts opts.maxPrice) = false) ∧
      (F64.lt (F64.ofInt prod.BSR) (lowered opts (F64.ofInt opts.minBSR)) = false ∧
        F64.gt (F64.ofInt prod.BSR) (raised opts (F64.ofInt opts.maxBSR)) = false) ∧
      (F64.lt (F64.ofInt prod.Reviews) (lowered opts (F64.ofInt opts.minReviews)) = false ∧
        F64.gt (F64.ofInt prod.Reviews) (raised opts (F64.ofInt opts.maxReviews)) = false) ∧
      F64.gt prod.Length (raised opts opts.maxLength) = false ∧
      F64.gt prod.Width (raised opts opts.maxWidth) = false ∧
      F64.gt prod.Height (raised opts opts.maxHeight) = false ∧
      F64.gt prod.Weight (raised opts opts.maxWeight) = false := by
  unfold isValid
  exact bool_chain _ _ _ _ _ _ _ _ _ _

theorem F64.lt_false_iff_le {x y : F64} (hx : F64.isNaN x = false)
    (hy : F64.isNaN y = false) : F64.lt x y = false ↔ F64.le y x = true := by
  rw [F64.lt_eq_not_le hx hy]
  cases F64.le y x <;> simp

theorem F64.le_zero_ofInt {n : ℤ} (h : 0 ≤ n) : F64.le F64.zero (F64.ofInt n) = true :=
  F64.round_nonneg (by exact_mod_cast h)

/-- C18: widening the tolerance never turns an accepted product into a rejected one: when
all declared bounds are non-negative and `0 <= t1 <= t2`, a product accepted under
tolerance `t1` is accepted under tolerance `t2`, the other criteria being the same. -/
theorem isValid_tolerance_monotone (prod : Product) (opts : options) (t1 t2 : F64)
    (h0 : F64.le F64.zero t1 = true) (h12 : F64.le t1 t2 = true) (hb : NonNegBounds opts)
    (h : isValid prod (withTolerance opts t1) = true) :
    isValid prod (withTolerance opts t2) = true := by
  obtain ⟨⟨m1, m2⟩, ⟨i1, i2, i3, i4⟩, ⟨m3, m4, m5, m6⟩⟩ := hb
  rw [isValid_true_iff] at h ⊢
  obtain ⟨⟨a1, a2⟩, ⟨b1, b2⟩, ⟨c1, c2⟩, d, e, f, g⟩ := h
  simp only [lowered_def, raised_def, withTolerance] at *
  exact ⟨⟨lower_mono h0 h12 m1 a1, upper_mono h0 h12 m2 a2⟩,
    ⟨lower_mono h0 h12 (F64.le_zero_ofInt i1) b1, upper_mono h0 h12 (F64.le_zero_ofInt i2) b2⟩,
    ⟨lower_mono h0 h12 (F64.le_zero_ofInt i3) c1, upper_mono h0 h12 (F64.le_zero_ofInt i4) c2⟩,
    upper_mono h0 h12 m3 d, upper_mono h0 h12 m4 e, upper_mono h0 h12 m5 f,
    upper_mono h0 h12 m6 g⟩

/-- C18 at the specification's example: the price 9.5 is accepted under tolerance 10 and
under tolerance 25; under tolerance 0 it is rejected. -/
theorem isValid_tolerance_monotone_witness :
    (F64.le F64.zero (F64.fin 10) = true ∧ F64.le (F64.fin 10) (F64.fin 25) = true ∧
      NonNegBounds sampleOptions ∧
      isValid (sampleProduct (F64.fin 9.5)) (withTolerance sampleOptions (F64.fin 10)) = true ∧
      isValid (sampleProduct (F64.fin 9.5)) (withTolerance sampleOptions (F64.fin 25)) = true) ∧
    isValid (sampleProduct (F64.fin 9.5)) (withTolerance sampleOptions (F64.fin 0)) = false :=
  ⟨⟨by decide!, by decide!, by unfold NonNegBounds; decide!, by decide!,
    isValid_tolerance_monotone (sampleProduct (F64.fin 9.5)) sampleOptions (F64.fin 10)
      (F64.fin 25) (by decide!) (by decide!) (by unfold NonNegBounds; decide!) (by decide!)⟩,
   by decide!⟩

/-- A zero passes the test against every raised non-negative maximum. -/
theorem upper_pass_zero {t m : F64} (h0 : F64.le F64.zero t = true)
    (hm : F64.le F64.zero m = true) :
    F64.gt F64.zero (F64.mul (F64.add (F64.fin 1) (F64.divConst t 100)) m) = false := by
  unfold F64.gt
  rcases F64.one_le_cases (F64.one_le_highFactor h0) with ⟨u, hu, hu1⟩ | hu
  · rw [hu]
    rcases F64.nonneg_cases hm with ⟨b, rfl, hb⟩ | rfl
    · simp only [F64.mul]
      rw [F64.lt_false_iff_le (F64.isNaN_round _) (show F64.isNaN F64.zero = false from rfl)]
      exact F64.round_nonneg (by positivity)
    · have hp : 0 < u := by linarith
      simp only [F64.mul, ne_of_gt hp, if_false, not_lt.2 hp.le, decide_False]
      rfl
  · rw [hu]
    exact upper_pass_inf hm _

/-! ## Tolerance 0 -/

/-- Every integer of at most `2^53` in magnitude is a `float64`. -/
theorem isFloatQ_intCast {n : ℤ} (h : |n| ≤ 2 ^ 53) : IsFloatQ (n : ℚ) := by
  by_cases h1 : |n| < 2 ^ 53
  · exact ⟨n, 0, h1, by norm_num, by norm_num, by simp⟩
  · have h2 : |n| = 2 ^ 53 := le_antisymm h (not_lt.1 h1)
    rcases (abs_eq (by norm_num)).1 h2 with h3 | h3
    · exact ⟨2 ^ 52, 1, by norm_num, by norm_num, by norm_num, by rw [h3]; norm_num⟩
    · exact ⟨-2 ^ 52, 1, by norm_num, by norm_num, by norm_num, by rw [h3]; norm_num⟩

/-- The conversion `float64(n)` is exact up to `2^53`. -/
theorem F64.ofInt_of_small {n : ℤ} (h : |n| ≤ 2 ^ 53) : F64.ofInt n = F64.fin n :=
  F64.round_of_isFloat (isFloatQ_intCast h)

theorem F64.le_ofInt_iff {a b : ℤ} (ha : |a| ≤ 2 ^ 53) (hb : |b| ≤ 2 ^ 53) :
    F64.le (F64.ofInt a) (F64.ofInt b) = true ↔ a ≤ b := by
  rw [F64.ofInt_of_small ha, F64.ofInt_of_small hb]
  simp [F64.le]

theorem F64.isFloat_round (q : ℚ) : F64.IsFloat (F64.round q) := by
  rcases F64.round_cases q with ⟨_, e⟩ | ⟨h, e⟩ <;> rw [e]
  · trivial
  · exact roundQ_isFloat h

theorem F64.isFloat_ofInt (n : ℤ) : F64.IsFloat (F64.ofInt n) := F64.isFloat_round n

/-- Multiplying a `float64` by 1 gives the value itself. -/
theorem F64.mul_one_left {x : F64} (hx : F64.IsFloat x) : F64.mul (F64.fin 1) x = x := by
  cases x with
  | nan => rfl
  | inf n => cases n <;> simp [F64.mul]
  | fin b =>
    simp only [F64.mul, one_mul]
    exact F64.round_of_isFloat hx

/-- C12, as the code has it: with tolerance 0 the expanded bound of every `float64` is the
value itself, and when neither a decimal field of the product nor a declared decimal bound
is NaN, and rank, review count and their bounds are at most `2^53` in magnitude, `isValid`
is true if and only if all seven checks hold with the declared bounds. -/
theorem isValid_zero_tolerance (prod : Product) (opts : options)
    (ht : opts.tolerance = F64.fin 0) :
    (∀ x : F64, F64.IsFloat x → lowered opts x = x ∧ raised opts x = x) ∧
    (NoNaNDeclared prod opts → FloatBounds opts → ExactInts prod opts →
      (isValid prod opts = true ↔ exactChecks prod opts)) := by
  have hlr : ∀ x : F64, F64.IsFloat x → lowered opts x = x ∧ raised opts x = x := by
    intro x hx
    rw [lowered_def, raised_def, ht]
    have h1 := F64.lowFactor_zero
    have h2 := F64.highFactor_zero
    unfold F64.zero at h1 h2
    rw [h1, h2]
    exact ⟨F64.mul_one_left hx, F64.mul_one_left hx⟩
  refine ⟨hlr, ?_⟩
  rintro ⟨⟨hp, hl, hw, hh, hwt⟩, ⟨b1, b2⟩, ⟨b3, b4, b5, b6⟩⟩ ⟨⟨f1, f2⟩, ⟨f3, f4, f5, f6⟩⟩
    ⟨⟨i1, i2⟩, ⟨i3, i4⟩, ⟨i5, i6⟩⟩
  have hb := F64.isNaN_ofInt prod.BSR
  have hr := F64.isNaN_ofInt prod.Reviews
  have j1 : |(prod.BSR : ℤ)| ≤ 2 ^ 53 := by rwa [abs_of_nonneg (Int.ofNat_nonneg _)]
  have j2 : |(prod.Reviews : ℤ)| ≤ 2 ^ 53 := by rwa [abs_of_nonneg (Int.ofNat_nonneg _)]
  rw [isValid_true_iff]
  simp only [(hlr _ f1).1, (hlr _ f2).2, (hlr _ f3).2, (hlr _ f4).2, (hlr _ f5).2,
    (hlr _ f6).2, (hlr _ (F64.isFloat_ofInt _)).1, (hlr _ (F64.isFloat_ofInt _)).2, F64.gt]
  rw [F64.lt_false_iff_le hp b1, F64.lt_false_iff_le b2 hp,
    F64.lt_false_iff_le hb (F64.isNaN_ofInt _), F64.lt_false_iff_le (F64.isNaN_ofInt _) hb,
    F64.lt_false_iff_le hr (F64.isNaN_ofInt _), F64.lt_false_iff_le (F64.isNaN_ofInt _) hr,
    F64.lt_false_iff_le b3 hl, F64.lt_false_iff_le b4 hw, F64.lt_false_iff_le b5 hh,
    F64.lt_false_iff_le b6 hwt,
    F64.le_ofInt_iff i3 j1, F64.le_ofInt_iff j1 i4, F64.le_ofInt_iff i5 j2,
    F64.le_ofInt_iff j2 i6]
  rfl

theorem isFloatQ_ofNat (n : ℕ) (h : n < 2 ^ 53) : IsFloatQ (n : ℚ) :=
  ⟨n, 0, by rw [abs_of_nonneg (Int.ofNat_nonneg _)]; exact_mod_cast h, by norm_num,
    by norm_num, by simp⟩

theorem isFloatQ_ten : IsFloatQ 10 := isFloatQ_ofNat 10 (by norm_num)

theorem isFloatQ_twenty : IsFloatQ 20 := isFloatQ_ofNat 20 (by norm_num)

theorem floatBounds_sample (t : F64) : FloatBounds (withTolerance sampleOptions t) :=
  ⟨⟨isFloatQ_ofNat 10 (by norm_num), isFloatQ_ofNat 20 (by norm_num)⟩,
    isFloatQ_ofNat 100 (by norm_num), isFloatQ_ofNat 100 (by norm_num),
    isFloatQ_ofNat 100 (by norm_num), isFloatQ_ofNat 100 (by norm_num)⟩

/-- C12 at exact bounds from 10 to 20: the expanded bounds are 10 and 20, the price 10 is
accepted, and the price 9.5, which a tolerance of 10 would let through, is rejected. -/
theorem isValid_zero_tolerance_witness :
    (exactOptions.tolerance = F64.fin 0 ∧
      (F64.IsFloat exactOptions.minPrice ∧
        lowered exactOptions exactOptions.minPrice = F64.fin 10) ∧
      (F64.IsFloat exactOptions.maxPrice ∧
        raised exactOptions exactOptions.maxPrice = F64.fin 20) ∧
      NoNaNDeclared (sampleProduct (F64.fin 10)) exactOptions ∧
      FloatBounds exactOptions ∧
      ExactInts (sampleProduct (F64.fin 10)) exactOptions ∧
      (isValid (sampleProduct (F64.fin 10)) exactOptions = true ↔
        exactChecks (sampleProduct (F64.fin 10)) exactOptions) ∧
      isValid (sampleProduct (F64.fin 10)) exactOptions = true) ∧
    isValid (sampleProduct (F64.fin 9.5)) exactOptions = false :=
  ⟨⟨rfl,
    ⟨isFloatQ_ten,
      ((isValid_zero_tolerance (sampleProduct (F64.fin 10)) exactOptions rfl).1
        (F64.fin 10) isFloatQ_ten).1⟩,
    ⟨isFloatQ_twenty,
      ((isValid_zero_tolerance (sampleProduct (F64.fin 10)) exactOptions rfl).1
        (F64.fin 20) isFloatQ_twenty).2⟩,
    by unfold NoNaNDeclared; decide, floatBounds_sample _,
    by unfold ExactInts; decide,
    (isValid_zero_tolerance (sampleProduct (F64.fin 10)) exactOptions rfl).2
      (by unfold NoNaNDeclared; decide) (floatBounds_sample _) (by unfold ExactInts; decide),
    by decide!⟩, by decide!⟩

/-- C12 fails as stated, twice over. With tolerance 0 and prices from 10 to 20, a product
whose price is NaN is accepted, although `10 <= price` does not hold for it. And with
tolerance 0 and a maximum rank of `2^53`, a product of rank `2^53 + 1` is accepted, because
`float64` rounds its rank to `2^53`. -/
theorem isValid_zero_tolerance_fails :
    (exactOptions.tolerance = F64.fin 0 ∧
      isValid (sampleProduct F64.nan) exactOptions = true ∧
      ¬ exactChecks (sampleProduct F64.nan) exactOptions) ∧
    ((rankOptions (2 ^ 53)).tolerance = F64.fin 0 ∧
      isValid (pricedProduct F64.zero (2 ^ 53 + 1)) (rankOptions (2 ^ 53)) = true ∧
      ¬ exactChecks (pricedProduct F64.zero (2 ^ 53 + 1)) (rankOptions (2 ^ 53))) := by
  unfold exactChecks
  decide!

/-! ## Tolerance 100 -/

/-- The factor `1 - t/100` of the tolerance 100 is 0. -/
theorem F64.lowFactor_hundred :
    F64.sub (F64.fin 1) (F64.divConst (F64.fin 100) 100) = F64.fin 0 := by
  have h : F64.divConst (F64.fin 100) 100 = F64.fin 1 := by
    simp [F64.divConst, F64.round_of_isFloat isFloatQ_one]
  rw [h]
  simp [F64.sub, F64.add, F64.neg, F64.round_zero]

/-- The factor `1 + t/100` of the tolerance 100 is 2. -/
theorem F64.highFactor_hundred :
    F64.add (F64.fin 1) (F64.divConst (F64.fin 100) 100) = F64.fin 2 := by
  have h : F64.divConst (F64.fin 100) 100 = F64.fin 1 := by
    simp [F64.divConst, F64.round_of_isFloat isFloatQ_one]
  rw [h]
  have h2 : (1 : ℚ) + 1 = 2 := by norm_num
  simp only [F64.add, h2]
  exact F64.round_of_isFloat isFloatQ_two

/-- Twice a `float64` below `2^1023` in magnitude is a `float64`. -/
theorem isFloatQ_two_mul {b : ℚ} (h : IsFloatQ b) (hb : |b| < 2 ^ 1023) :
    IsFloatQ (2 * b) := by
  obtain ⟨m, e, hm, he1, he2, rfl⟩ := h
  by_cases he : e < 971
  · refine ⟨m, e + 1, hm, by omega, by omega, ?_⟩
    rw [two_zpow_add]
    ring
  · have he3 : e = 971 := by omega
    subst he3
    refine ⟨2 * m, 971, ?_, by norm_num, by norm_num, by push_cast; ring⟩
    rw [abs_mul, abs_of_pos (two_zpow_pos 971)] at hb
    have h1 : |(m : ℚ)| < 2 ^ 52 := by
      have h2 : (2 : ℚ) ^ 1023 = 2 ^ 52 * 2 ^ (971 : ℤ) := by norm_num
      rw [h2] at hb
      exact lt_of_mul_lt_mul_right hb (two_zpow_pos 971).le
    have h3 : |m| < 2 ^ 52 := by
      have : ((|m| : ℤ) : ℚ) < ((2 ^ 52 : ℤ) : ℚ) := by
        rw [Int.cast_abs]
        norm_num
        exact h1
      exact Int.cast_lt.1 this
    rw [abs_mul]
    norm_num
    linarith

theorem F64.mul_zero_left_fin (b : ℚ) : F64.mul (F64.fin 0) (F64.fin b) = F64.fin 0 := by
  simp [F64.mul, F64.round_zero]

theorem F64.lt_mul_zero_left {p : F64} (hp : F64.le F64.zero p = true) (m : F64) :
    F64.lt p (F64.mul (F64.fin 0) m) = false := by
  cases m with
  | nan => exact F64.lt_nan_right p
  | inf n => simpa [F64.mul] using F64.lt_nan_right p
  | fin b =>
    rw [F64.mul_zero_left_fin]
    rcases F64.nonneg_cases hp with ⟨q, rfl, hq⟩ | rfl
    · simpa [F64.lt] using hq
    · rfl

/-- The conversion `float64(n)` of a 64-bit integer is a finite number. -/
theorem F64.ofInt_finite {n : ℤ} (h : |n| ≤ 2 ^ 64) : F64.ofInt n = F64.fin (roundQ n) := by
  unfold F64.ofInt F64.round
  rw [if_neg]
  rw [not_le]
  have h1 : |(n : ℚ)| ≤ 2 ^ 64 := by
    have : ((|n| : ℤ) : ℚ) ≤ ((2 ^ 64 : ℤ) : ℚ) := Int.cast_le.2 h
    rw [Int.cast_abs] at this
    norm_num at this
    exact this
  have h2 : (2 : ℚ) ^ 64 < overflowBound := by
    unfold overflowBound
    norm_num
  exact lt_of_le_of_lt h1 h2

/-- C13, as the code has it: with tolerance 100 every raised maximum is the `float64`
product of 2 and the declared maximum, which is exactly twice a declared maximum below
`2^1023` in magnitude (and twice a rank or review maximum up to `2^53`) but `+Inf` from
`2^1023` on; the lowered minimum of every finite declared minimum is 0, hence at most 0,
while that of an infinite one is NaN; and for every product whose price is non-negative
(its rank and review count are unsigned) the three lower-bound tests pass, so that
`isValid` accepts it exactly when the seven upper-bound tests pass. -/
theorem isValid_full_tolerance (opts : options) (ht : opts.tolerance = F64.fin 100) :
    (∀ x : F64, raised opts x = F64.mul (F64.fin 2) x) ∧
    (∀ b : ℚ, IsFloatQ b → |b| < 2 ^ 1023 → raised opts (F64.fin b) = F64.fin (2 * b)) ∧
    (∀ b : ℚ, 2 ^ 1023 ≤ b → raised opts (F64.fin b) = F64.inf false) ∧
    (∀ n : ℤ, |n| ≤ 2 ^ 53 → raised opts (F64.ofInt n) = F64.fin (2 * n)) ∧
    (∀ b : ℚ, lowered opts (F64.fin b) = F64.fin 0 ∧
      F64.le (lowered opts (F64.fin b)) F64.zero = true) ∧
    (∀ n : ℤ, |n| ≤ 2 ^ 64 → lowered opts (F64.ofInt n) = F64.fin 0 ∧
      F64.le (lowered opts (F64.ofInt n)) F64.zero = true) ∧
    (∀ s : Bool, lowered opts (F64.inf s) = F64.nan) ∧
    (∀ prod : Product, F64.le F64.zero prod.Price = true →
      (F64.lt prod.Price (lowered opts opts.minPrice) = false ∧
        F64.lt (F64.ofInt prod.BSR) (lowered opts (F64.ofInt opts.minBSR)) = false ∧
        F64.lt (F64.ofInt prod.Reviews) (lowered opts (F64.ofInt opts.minReviews)) = false) ∧
      (isValid prod opts = true ↔
        F64.gt prod.Price (raised opts opts.maxPrice) = false ∧
        F64.gt (F64.ofInt prod.BSR) (raised opts (F64.ofInt opts.maxBSR)) = false ∧
        F64.gt (F64.ofInt prod.Reviews) (raised opts (F64.ofInt opts.maxReviews)) = false ∧
        F64.gt prod.Length (raised opts opts.maxLength) = false ∧
        F64.gt prod.Width (raised opts opts.maxWidth) = false ∧
        F64.gt prod.Height (raised opts opts.maxHeight) = false ∧
        F64.gt prod.Weight (raised opts opts.maxWeight) = false)) := by
  have hhi : ∀ x : F64, raised opts x = F64.mul (F64.fin 2) x := by
    intro x
    rw [raised_def, ht, F64.highFactor_hundred]
  have hlo : ∀ x : F64, lowered opts x = F64.mul (F64.fin 0) x := by
    intro x
    rw [lowered_def, ht, F64.lowFactor_hundred]
  have hlofin : ∀ b : ℚ, lowered opts (F64.fin b) = F64.fin 0 := by
    intro b
    rw [hlo, F64.mul_zero_left_fin]
  have htwice : ∀ b : ℚ, IsFloatQ b → |b| < 2 ^ 1023 →
      raised opts (F64.fin b) = F64.fin (2 * b) := by
    intro b hb hlt
    rw [hhi]
    exact F64.round_of_isFloat (isFloatQ_two_mul hb hlt)
  have hlow : ∀ prod : Product, F64.le F64.zero prod.Price = true →
      F64.lt prod.Price (lowered opts opts.minPrice) = false ∧
      F64.lt (F64.ofInt prod.BSR) (lowered opts (F64.ofInt opts.minBSR)) = false ∧
      F64.lt (F64.ofInt prod.Reviews) (lowered opts (F64.ofInt opts.minReviews)) = false := by
    intro prod hp
    rw [hlo, hlo, hlo]
    exact ⟨F64.lt_mul_zero_left hp _,
      F64.lt_mul_zero_left (F64.le_zero_ofInt (Int.ofNat_nonneg _)) _,
      F64.lt_mul_zero_left (F64.le_zero_ofInt (Int.ofNat_nonneg _)) _⟩
  refine ⟨hhi, htwice, ?_, ?_, ?_, ?_, ?_, ?_⟩
  · intro b hb
    rw [hhi]
    have hpos : (0 : ℚ) < 2 * b := by
      have : (0 : ℚ) < 2 ^ 1023 := by positivity
      linarith
    have hov : overflowBound ≤ |2 * b| := by
      rw [abs_of_pos hpos]
      have h1 : overflowBound ≤ 2 * 2 ^ 1023 := by
        unfold overflowBound
        norm_num
      linarith
    simp only [F64.mul, F64.round, if_pos hov, not_lt.2 hpos.le, decide_False]
  · intro n hn
    rw [F64.ofInt_of_small hn]
    refine htwice n (isFloatQ_intCast hn) ?_
    have h1 : |(n : ℚ)| ≤ 2 ^ 53 := by
      have : ((|n| : ℤ) : ℚ) ≤ ((2 ^ 53 : ℤ) : ℚ) := Int.cast_le.2 hn
      rw [Int.cast_abs] at this
      norm_num at this
      exact this
    have h2 : (2 : ℚ) ^ 53 < 2 ^ 1023 := by norm_num
    exact lt_of_le_of_lt h1 h2
  · intro b
    refine ⟨hlofin b, ?_⟩
    rw [hlofin]
    simp [F64.le, F64.zero]
  · intro n hn
    rw [F64.ofInt_finite hn]
    refine ⟨hlofin _, ?_⟩
    rw [hlofin]
    simp [F64.le, F64.zero]
  · intro s
    rw [hlo]
    simp [F64.mul]
  · intro prod hp
    refine ⟨hlow prod hp, ?_⟩
    obtain ⟨l1, l2, l3⟩ := hlow prod hp
    rw [isValid_true_iff]
    simp only [l1, l2, l3, true_and]

/-- C13 at the criteria with prices from 10 to 20 and tolerance 100: the raised maximum
price is 40, the lowered minimum price is 0, and a product with price 0.01 passes the
lower-bound tests and is accepted. -/
theorem isValid_full_tolerance_witness :
    fullOptions.tolerance = F64.fin 100 ∧
    raised fullOptions fullOptions.maxPrice = F64.fin 40 ∧
    lowered fullOptions fullOptions.minPrice = F64.fin 0 ∧
    (F64.le F64.zero (sampleProduct (F64.fin 0.01)).Price = true ∧
      F64.lt (sampleProduct (F64.fin 0.01)).Price (lowered fullOptions fullOptions.minPrice)
        = false) ∧
    isValid (sampleProduct (F64.fin 0.01)) fullOptions = true :=
  ⟨rfl,
   ((isValid_full_tolerance fullOptions rfl).2.1 20 isFloatQ_twenty
      (by rw [abs_of_pos (by norm_num)]; norm_num)).trans (by norm_num),
   ((isValid_full_tolerance fullOptions rfl).2.2.2.2.1 10).1,
   ⟨by decide!,
    ((isValid_full_tolerance fullOptions rfl).2.2.2.2.2.2.2 (sampleProduct (F64.fin 0.01))
      (by decide!)).1.1⟩,
   by decide!⟩

/-- C13 fails as stated at the ends of the `float64` range. With tolerance 100 and a
declared maximum price of `2^1023`, the raised maximum is `+Inf`, not `2^1024`, and a
product whose price is `+Inf` is accepted. And the lowered minimum of the declared minimum
`+Inf` is NaN, which is not at most 0. -/
theorem isValid_full_tolerance_fails :
    ((priceOptions (F64.fin 100) (F64.fin 10) (F64.fin (2 ^ 1023))).tolerance = F64.fin 100 ∧
      raised (priceOptions (F64.fin 100) (F64.fin 10) (F64.fin (2 ^ 1023)))
        (F64.fin (2 ^ 1023)) = F64.inf false ∧
      isValid (pricedProduct (F64.inf false) 0)
        (priceOptions (F64.fin 100) (F64.fin 10) (F64.fin (2 ^ 1023))) = true) ∧
    ((priceOptions (F64.fin 100) (F64.inf false) (F64.inf false)).tolerance = F64.fin 100 ∧
      lowered (priceOptions (F64.fin 100) (F64.inf false) (F64.inf false)) (F64.inf false)
        = F64.nan ∧
      F64.le (lowered (priceOptions (F64.fin 100) (F64.inf false) (F64.inf false))
        (F64.inf false)) F64.zero = false) := by
  decide!

/-! ## The zero sentinel -/

/-- The largest `float64` below 100 is `100 - 2^-46`. -/
theorem isFloatQ_lt_hundred {a : ℚ} (h : IsFloatQ a) (ha : a < 100) :
    a ≤ 100 - 2 ^ (-46 : ℤ) := by
  obtain ⟨m, e, hm, he1, he2, rfl⟩ := h
  have hP : (2 : ℚ) ^ (-46 : ℤ) = 1 / 2 ^ 46 := by norm_num
  by_cases h64 : (m : ℚ) * 2 ^ e ≤ 64
  · rw [hP]
    have : (1 : ℚ) / 2 ^ 46 ≤ 1 := by norm_num
    linarith
  · push_neg at h64
    have hm1 : (m : ℚ) < 2 ^ (53 : ℤ) := by
      have h1 : m < 2 ^ 53 := lt_of_le_of_lt (le_abs_self m) hm
      have h2 : ((m : ℤ) : ℚ) < ((2 ^ 53 : ℤ) : ℚ) := Int.cast_lt.2 h1
      norm_num at h2 ⊢
      exact h2
    have h2 : (2 : ℚ) ^ (6 : ℤ) < 2 ^ (53 + e) := by
      rw [two_zpow_add]
      have h3 : (m : ℚ) * 2 ^ e < 2 ^ (53 : ℤ) * 2 ^ e :=
        mul_lt_mul_of_pos_right hm1 (two_zpow_pos e)
      have h4 : (2 : ℚ) ^ (6 : ℤ) = 64 := by norm_num
      rw [h4]
      linarith
    have he3 : (6 : ℤ) < 53 + e := by
      by_contra hc
      exact absurd h2 (not_lt.2 (two_zpow_le (not_lt.1 hc)))
    obtain ⟨k, hk⟩ : ∃ k : ℕ, e = (k : ℤ) + (-46) := ⟨(e + 46).toNat, by omega⟩
    subst hk
    rw [two_zpow_add, zpow_natCast] at ha ⊢
    have hN : ((m * 2 ^ k : ℤ) : ℚ) = (m : ℚ) * 2 ^ k := by push_cast; ring
    rw [hP] at ha ⊢
    have h5 : ((m * 2 ^ k : ℤ) : ℚ) < ((100 * 2 ^ 46 : ℤ) : ℚ) := by
      rw [hN]
      push_cast
      have hpos : (0 : ℚ) < 2 ^ 46 := by positivity
      have h6 : (m : ℚ) * (2 ^ k * (1 / 2 ^ 46)) = (m : ℚ) * 2 ^ k / 2 ^ 46 := by ring
      rw [h6, div_lt_iff₀ hpos] at ha
      exact lt_of_lt_of_eq ha (by norm_num)
    have h6 : m * 2 ^ k ≤ 100 * 2 ^ 46 - 1 := by
      have := Int.cast_lt.1 h5
      omega
    have h7 : ((m * 2 ^ k : ℤ) : ℚ) ≤ ((100 * 2 ^ 46 - 1 : ℤ) : ℚ) := Int.cast_le.2 h6
    rw [hN] at h7
    push_cast at h7
    have hpos : (0 : ℚ) < 2 ^ 46 := by positivity
    have h8 : (m : ℚ) * (2 ^ k * (1 / 2 ^ 46)) = (m : ℚ) * 2 ^ k / 2 ^ 46 := by ring
    rw [h8, div_le_iff₀ hpos]
    have h9 : ((100 : ℚ) - 1 / 2 ^ 46) * 2 ^ 46 = 100 * 2 ^ 46 - 1 := by
      field_simp
    rw [h9]
    exact h7.trans_eq (by norm_num)

theorem isFloatQ_two_zpow {e : ℤ} (h1 : -1074 ≤ e) (h2 : e ≤ 971) : IsFloatQ (2 ^ e) :=
  ⟨1, e, by norm_num, h1, h2, by simp⟩

theorem isFloatQ_below_one : IsFloatQ (1 - 2 ^ (-53 : ℤ)) :=
  ⟨2 ^ 53 - 1, -53, by norm_num, by norm_num, by norm_num, by norm_num⟩

/-- A value of at least a positive number is above zero. -/
theorem F64.lt_zero_of_le {r : ℚ} {x : F64} (hr : 0 < r) (h : F64.le (F64.fin r) x = true) :
    F64.lt F64.zero x = true := by
  cases x with
  | nan => simp [F64.le] at h
  | inf n =>
    have hn : n = false := by simpa [F64.le] using h
    rw [hn]
    rfl
  | fin q =>
    have hq : r ≤ q := by simpa [F64.le] using h
    simp only [F64.lt, F64.zero, decide_eq_true_eq]
    linarith

/-- The factor `1 - t/100` of a `float64` tolerance from 0 up to, but not including, 100
is a number between `2^-53` and 1. -/
theorem F64.lowFactor_bounds {a : ℚ} (hf : IsFloatQ a) (h0 : 0 ≤ a) (h1 : a < 100) :
    ∃ q : ℚ, F64.sub (F64.fin 1) (F64.divConst (F64.fin a) 100) = F64.fin q ∧
      2 ^ (-53 : ℤ) ≤ q ∧ q ≤ 1 := by
  have hle : F64.le (F64.divConst (F64.fin a) 100) (F64.fin (1 - 2 ^ (-53 : ℤ))) = true := by
    have h2 := isFloatQ_lt_hundred hf h1
    have h3 : a / 100 ≤ 1 - 2 ^ (-53 : ℤ) := by
      rw [div_le_iff₀ (by norm_num)]
      have h4 : (2 : ℚ) ^ (-46 : ℤ) = 1 / 2 ^ 46 := by norm_num
      have h5 : (2 : ℚ) ^ (-53 : ℤ) = 1 / 2 ^ 53 := by norm_num
      rw [h4] at h2
      rw [h5]
      have h6 : ((1 : ℚ) - 1 / 2 ^ 53) * 100 ≥ 100 - 1 / 2 ^ 46 := by norm_num
      linarith
    have := F64.round_mono h3
    rwa [F64.round_of_isFloat isFloatQ_below_one] at this
  have hlow := F64.sub_one_anti hle
  have hv : F64.sub (F64.fin 1) (F64.fin (1 - 2 ^ (-53 : ℤ))) = F64.fin (2 ^ (-53 : ℤ)) := by
    have h7 : (1 : ℚ) + -(1 - 2 ^ (-53 : ℤ)) = 2 ^ (-53 : ℤ) := by ring
    simp only [F64.sub, F64.add, F64.neg, h7]
    exact F64.round_of_isFloat (isFloatQ_two_zpow (by norm_num) (by norm_num))
  rw [hv] at hlow
  have hz : F64.le F64.zero (F64.fin a) = true := by simpa [F64.le, F64.zero] using h0
  rcases F64.le_one_cases (F64.lowFactor_le_one hz) with ⟨q, hq, hq1⟩ | hq
  · rw [hq] at hlow ⊢
    exact ⟨q, rfl, by simpa [F64.le] using hlow, hq1⟩
  · rw [hq] at hlow
    simp [F64.le] at hlow

/-- C19, as the code has it: the zero sentinel is filtered as a real zero. When the
tolerance is a `float64` with `0 <= tolerance < 100` and the declared minimum price is at
least `2^-1021`, a product whose price is 0 is rejected whatever its other fields are; and
when the declared maxima are non-negative and `tolerance >= 0`, a product whose length,
width, height and weight are 0 passes the four tests on them, so that `isValid` accepts it
exactly when the tests on price, rank and reviews pass. -/
theorem zero_sentinel_filtered (opts : options) :
    (F64.IsFloat opts.tolerance → F64.le F64.zero opts.tolerance = true →
      F64.lt opts.tolerance (F64.fin 100) = true →
      F64.le (F64.fin (2 ^ (-1021 : ℤ))) opts.minPrice = true →
      ∀ prod : Product, prod.Price = F64.zero → isValid prod opts = false) ∧
    (F64.le F64.zero opts.tolerance = true →
      F64.le F64.zero opts.maxLength = true → F64.le F64.zero opts.maxWidth = true →
      F64.le F64.zero opts.maxHeight = true → F64.le F64.zero opts.maxWeight = true →
      ∀ prod : Product, prod.Length = F64.zero → prod.Width = F64.zero →
        prod.Height = F64.zero → prod.Weight = F64.zero →
        (F64.gt prod.Length (raised opts opts.maxLength) = false ∧
          F64.gt prod.Width (raised opts opts.maxWidth) = false ∧
          F64.gt prod.Height (raised opts opts.maxHeight) = false ∧
          F64.gt prod.Weight (raised opts opts.maxWeight) = false) ∧
        (isValid prod opts = true ↔
          (F64.lt prod.Price (lowered opts opts.minPrice) = false ∧
            F64.gt prod.Price (raised opts opts.maxPrice) = false) ∧
          (F64.lt (F64.ofInt prod.BSR) (lowered opts (F64.ofInt opts.minBSR)) = false ∧
            F64.gt (F64.ofInt prod.BSR) (raised opts (F64.ofInt opts.maxBSR)) = false) ∧
          (F64.lt (F64.ofInt prod.Reviews) (lowered opts (F64.ofInt opts.minReviews)) = false ∧
            F64.gt (F64.ofInt prod.Reviews) (raised opts (F64.ofInt opts.maxReviews))
              = false))) := by
  constructor
  · intro hf ht0 ht1 hmin prod hp
    have hlow : F64.lt F64.zero (lowered opts opts.minPrice) = true := by
      rw [lowered_def]
      rcases F64.nonneg_cases ht0 with ⟨a, ha, ha0⟩ | hinf
      · rw [ha] at ht1 hf ⊢
        have ha1 : a < 100 := by simpa [F64.lt] using ht1
        obtain ⟨q, hq, hq1, hq2⟩ := F64.lowFactor_bounds hf ha0 ha1
        rw [hq]
        have hqpos : 0 < q := lt_of_lt_of_le (two_zpow_pos _) hq1
        cases hm : opts.minPrice with
        | nan => rw [hm] at hmin; simp [F64.le] at hmin
        | inf n =>
          rw [hm] at hmin
          have hn : n = false := by simpa [F64.le] using hmin
          subst hn
          simp [F64.mul, ne_of_gt hqpos, not_lt.2 hqpos.le, F64.lt, F64.zero]
        | fin b =>
          rw [hm] at hmin
          have hb : 2 ^ (-1021 : ℤ) ≤ b := by simpa [F64.le] using hmin
          have hprod : (2 : ℚ) ^ (-1074 : ℤ) ≤ q * b := by
            have h1 : (2 : ℚ) ^ (-1074 : ℤ) = 2 ^ (-53 : ℤ) * 2 ^ (-1021 : ℤ) := by
              rw [← two_zpow_add]
              norm_num
            rw [h1]
            exact mul_le_mul hq1 hb (two_zpow_pos _).le hqpos.le
          have hr := F64.round_mono hprod
          rw [F64.round_of_isFloat (isFloatQ_two_zpow (by norm_num) (by norm_num))] at hr
          simp only [F64.mul]
          exact F64.lt_zero_of_le (two_zpow_pos _) hr
      · rw [hinf] at ht1
        simp [F64.lt] at ht1
    unfold isValid
    simp [hp, hlow]
  · intro ht0 h1 h2 h3 h4 prod p1 p2 p3 p4
    have hfour : F64.gt prod.Length (raised opts opts.maxLength) = false ∧
        F64.gt prod.Width (raised opts opts.maxWidth) = false ∧
        F64.gt prod.Height (raised opts opts.maxHeight) = false ∧
        F64.gt prod.Weight (raised opts opts.maxWeight) = false := by
      rw [p1, p2, p3, p4]
      simp only [raised_def]
      exact ⟨upper_pass_zero ht0 h1, upper_pass_zero ht0 h2, upper_pass_zero ht0 h3,
        upper_pass_zero ht0 h4⟩
    refine ⟨hfour, ?_⟩
    obtain ⟨g1, g2, g3, g4⟩ := hfour
    rw [isValid_true_iff]
    simp only [g1, g2, g3, g4, and_true]

/-- C19 at the specification's example criteria (minimum price 10, tolerance 10, maxima
100): a product with price 0 is rejected, and the four tests on size and weight pass for a
product on which nothing could be read. -/
theorem zero_sentinel_filtered_witness :
    (F64.IsFloat sampleOptions.tolerance ∧
      F64.le F64.zero sampleOptions.tolerance = true ∧
      F64.lt sampleOptions.tolerance (F64.fin 100) = true ∧
      F64.le (F64.fin (2 ^ (-1021 : ℤ))) sampleOptions.minPrice = true ∧
      isValid (sampleProduct F64.zero) sampleOptions = false) ∧
    (F64.gt unreadProduct.Length (raised sampleOptions sampleOptions.maxLength) = false ∧
      F64.gt unreadProduct.Width (raised sampleOptions sampleOptions.maxWidth) = false ∧
      F64.gt unreadProduct.Height (raised sampleOptions sampleOptions.maxHeight) = false ∧
      F64.gt unreadProduct.Weight (raised sampleOptions sampleOptions.maxWeight) = false) :=
  ⟨⟨isFloatQ_ten, by decide!, by decide!, by decide!,
    (zero_sentinel_filtered sampleOptions).1 isFloatQ_ten (by decide!) (by decide!)
      (by decide!) (sampleProduct F64.zero) rfl⟩,
   ((zero_sentinel_filtered sampleOptions).2 (by decide!) (by decide!) (by decide!)
      (by decide!) (by decide!) unreadProduct rfl rfl rfl rfl).1⟩

/-- C19 fails as stated when the lowered minimum price underflows. With a declared minimum
price of `2^-1074`, the smallest positive `float64`, and a tolerance of 50, the lowered
minimum is the `float64` product of 0.5 and `2^-1074`, which is 0, and a product whose
price is 0, and on which nothing else could be read, is accepted. -/
theorem zero_sentinel_accepted :
    (F64.lt F64.zero (priceOptions (F64.fin 50) (F64.fin (2 ^ (-1074 : ℤ))) (F64.fin 20)).minPrice
        = true ∧
      F64.le F64.zero (priceOptions (F64.fin 50) (F64.fin (2 ^ (-1074 : ℤ))) (F64.fin 20)).tolerance
        = true ∧
      F64.lt (priceOptions (F64.fin 50) (F64.fin (2 ^ (-1074 : ℤ))) (F64.fin 20)).tolerance
        (F64.fin 100) = true) ∧
    lowered (priceOptions (F64.fin 50) (F64.fin (2 ^ (-1074 : ℤ))) (F64.fin 20))
      (F64.fin (2 ^ (-1074 : ℤ))) = F64.fin 0 ∧
    isValid (pricedProduct F64.zero 0)
      (priceOptions (F64.fin 50) (F64.fin (2 ^ (-1074 : ℤ))) (F64.fin 20)) = true := by
  decide!

/-! ## `findDimensions` is all or nothing -/

theorem findString_eq_nil_of_no_match (re : List Item) (s : GoString)
    (h : ∀ k, ¬ MatchAt re s k) : findString re s = [] := by
  simp [findString, firstMatch_eq_none_of_no_match re s h]

/-- C15: when the detail text holds no match of the dimension pattern, `findDimensions`
returns three zeros; and on every detail text its result is either three zeros or the
values of all three numbers of the leftmost match, never a triple of which only a part was
set to zero by a failure. -/
theorem findDimensions_atomic (container : GoString) :
    ((∀ k, ¬ MatchAt reDimensions container k) →
      findDimensions container = (F64.zero, F64.zero, F64.zero)) ∧
    (findDimensions container = (F64.zero, F64.zero, F64.zero) ∨
      ∃ (pre post : GoString) (a b c : DecNum) (w1 w2 w3 w4 w5 : GoString),
        LeftmostMatch reDimensions container pre (dimText a b c w1 w2 w3 w4 w5) post ∧
        (a.WellFormed ∧ b.WellFormed ∧ c.WellFormed) ∧
        findDimensions container = (F64.fin a.value, F64.fin b.value, F64.fin c.value)) := by
  constructor
  · intro h
    unfold findDimensions
    simp [findString_eq_nil_of_no_match _ _ h]
  · cases hf : firstMatch reDimensions container with
    | none =>
      left
      unfold findDimensions
      simp [findString, hf]
    | some mr =>
      obtain ⟨m, rest⟩ := mr
      obtain ⟨pre, hlm⟩ := firstMatch_leftmost _ _ _ _ hf
      obtain ⟨a, b, c, w1, w2, w3, w4, w5, rfl, ha, hb, hc, h1, h2, h3, h4, h5⟩ :=
        lang_dimensions hlm.2.1
      have hfs : findString reDimensions container = dimText a b c w1 w2 w3 w4 w5 := by
        simp only [findString, hf]
      have hres := findDimensions_of_match container a b c w1 w2 w3 w4 w5 ha hb hc h1.2 h2.2
        h3.2 h4.2 h5.2 hfs
      by_cases hr : a.InRange ∧ b.InRange ∧ c.InRange
      · right
        rw [if_pos hr] at hres
        exact ⟨pre, rest, a, b, c, w1, w2, w3, w4, w5, hlm, ⟨ha, hb, hc⟩, hres⟩
      · left
        rw [if_neg hr] at hres
        exact hres

/-- C15 at the text "12 x 14 inches", which has only two numbers, and at the text
"0.5 x 14 x 23 inches". -/
theorem findDimensions_atomic_witness :
    ((∀ k, ¬ MatchAt reDimensions "12 x 14 inches".toList k) ∧
      findDimensions "12 x 14 inches".toList = (F64.zero, F64.zero, F64.zero)) ∧
    findDimensions "0.5 x 14 x 23 inches".toList = (F64.fin 0.5, F64.fin 14, F64.fin 23) :=
  ⟨⟨firstMatch_none _ _ (by decide),
    (findDimensions_atomic "12 x 14 inches".toList).1 (firstMatch_none _ _ (by decide))⟩,
   by decide!⟩

/-! ## The defensive branches -/

theorem findString_lang (re : List Item) (s : GoString) (h : findString re s ≠ []) :
    Lang re (findString re s) := by
  unfold findString at h ⊢
  cases hf : firstMatch re s with
  | none => rw [hf] at h; exact absurd rfl h
  | some mr =>
    obtain ⟨m, rest⟩ := mr
    obtain ⟨pre, hlm⟩ := firstMatch_leftmost _ _ _ _ hf
    exact hlm.2.1

theorem count_x_text {n : DecNum} (h : n.WellFormed) : n.text.count 'x' = 0 :=
  List.count_eq_zero.2 (DecNum.not_mem_text h (by decide) (by decide))

theorem count_x_spaces {w : GoString} (h : ReSpaces w) : w.count 'x' = 0 :=
  List.count_eq_zero.2 (not_mem_of_reSpaces h.2 (by decide))

theorem dropWhile_append_last {p : Char → Bool} (xs : GoString) {c : Char}
    (hc : p c = false) : ∃ l, (xs ++ [c]).dropWhile p = l ++ [c] := by
  induction xs with
  | nil => exact ⟨[], by simp [List.dropWhile, hc]⟩
  | cons x xs ih =>
    by_cases hx : p x = true
    · obtain ⟨l, hl⟩ := ih
      exact ⟨l, by rw [List.cons_append, List.dropWhile_cons_of_pos hx, hl]⟩
    · exact ⟨x :: xs, by rw [List.cons_append, List.dropWhile_cons_of_neg hx]⟩

theorem trimSpace_cons_of_not_space (c : Char) (p : GoString) (hc : isSpace c = false) :
    ∃ l, trimSpace (c :: p) = c :: l := by
  unfold trimSpace
  have h1 : (c :: p).dropWhile isSpace = c :: p := by simp [List.dropWhile, hc]
  rw [h1, List.reverse_cons]
  obtain ⟨l, hl⟩ := dropWhile_append_last p.reverse hc
  exact ⟨l.reverse, by rw [hl]; simp⟩

/-- C20: the two defensive branches after a match cannot be taken. Every match of the
dimension pattern holds exactly two letters `x` and splits on "x" into exactly three
parts, so this holds for every non-empty result of the search in a detail text; and the
first part of the split on the space character of every match of the rank pattern starts
with "#", before and after trimming. -/
theorem defensive_branches_unreachable (container : GoString) :
    (∀ m : GoString, Lang reDimensions m →
      m.count 'x' = 2 ∧ (splitOn 'x' m).length = 3) ∧
    (findString reDimensions container ≠ [] →
      (findString reDimensions container).count 'x' = 2 ∧
      (splitOn 'x' (findString reDimensions container)).length = 3) ∧
    (∀ m : GoString, Lang reBSR m →
      ∃ b0 t, splitOn ' ' m = b0 :: t ∧ hasPrefix b0 ['#'] = true ∧
        hasPrefix (trimSpace b0) ['#'] = true) ∧
    (findString reBSR container ≠ [] →
      ∃ b0 t, splitOn ' ' (findString reBSR container) = b0 :: t ∧
        hasPrefix b0 ['#'] = true ∧ hasPrefix (trimSpace b0) ['#'] = true) := by
  have hdim : ∀ m : GoString, Lang reDimensions m →
      m.count 'x' = 2 ∧ (splitOn 'x' m).length = 3 := by
    intro m hm
    obtain ⟨a, b, c, w1, w2, w3, w4, w5, rfl, ha, hb, hc, h1, h2, h3, h4, h5⟩ :=
      lang_dimensions hm
    constructor
    · have hi : List.count 'x' "inches".toList = 0 := by decide
      simp only [dimText, List.count_append, List.count_cons_self, count_x_text ha,
        count_x_text hb, count_x_text hc, count_x_spaces h1, count_x_spaces h2,
        count_x_spaces h3, count_x_spaces h4, count_x_spaces h5, hi]
    · rw [splitOn_dimText a b c w1 w2 w3 w4 w5 ha hb hc h1.2 h2.2 h3.2 h4.2 h5.2]
      rfl
  have hbsr : ∀ m : GoString, Lang reBSR m →
      ∃ b0 t, splitOn ' ' m = b0 :: t ∧ hasPrefix b0 ['#'] = true ∧
        hasPrefix (trimSpace b0) ['#'] = true := by
    intro m hm
    obtain ⟨n, w, tail, rfl, hn, hw⟩ := lang_bsr hm
    obtain ⟨p, t, hsp⟩ := splitOn_cons_of_ne ' ' '#' (n.text ++ w ++ 'i' :: 'n' :: tail)
      (by decide)
    obtain ⟨l, hl⟩ := trimSpace_cons_of_not_space '#' p (by decide)
    refine ⟨'#' :: p, t, ?_, by simp [hasPrefix, List.isPrefixOf], ?_⟩
    · rw [← hsp]
      simp
    · rw [hl]
      simp [hasPrefix, List.isPrefixOf]
  exact ⟨hdim, fun h => hdim _ (findString_lang _ _ h), hbsr,
    fun h => hbsr _ (findString_lang _ _ h)⟩

/-- C20 at the texts "12.3 x 14 x 23 inches" and "#45 in Kitchen (See Top 100 Kitchen) ". -/
theorem defensive_branches_unreachable_witness :
    (findString reDimensions "12.3 x 14 x 23 inches".toList ≠ [] ∧
      (findString reDimensions "12.3 x 14 x 23 inches".toList).count 'x' = 2 ∧
      (splitOn 'x' (findString reDimensions "12.3 x 14 x 23 inches".toList)).length = 3) ∧
    (findString reBSR "#45 in Kitchen (See Top 100 Kitchen) ".toList ≠ [] ∧
      ∃ b0 t, splitOn ' ' (findString reBSR "#45 in Kitchen (See Top 100 Kitchen) ".toList)
          = b0 :: t ∧
        hasPrefix b0 ['#'] = true ∧ hasPrefix (trimSpace b0) ['#'] = true) :=
  ⟨⟨by decide,
    (defensive_branches_unreachable "12.3 x 14 x 23 inches".toList).2.1 (by decide)⟩,
   ⟨by decide,
    (defensive_branches_unreachable "#45 in Kitchen (See Top 100 Kitchen) ".toList).2.2.2
      (by decide)⟩⟩

/-! ## Cancellation in `getProduct` -/

/-- C16: when the `done` signal has fired by the time the response is available,
`getProduct` returns an error and no product, for every link and every response: the
"not found" error when the status is not 200, the "connection closed" error otherwise. The
result is the same for every body and every page reader, so no extractor is run on the
body. -/
theorem getProduct_cancelled (parse : GoString → Option Document) (link : GoString)
    (res : Response) :
    getProduct parse link (Fetch.response res) true =
      Outcome.returned (.error
        (if res.StatusCode ≠ 200 then GetError.notFound else GetError.connectionClosed)) ∧
    (∀ (parse2 : GoString → Option Document) (body2 : GoString),
      getProduct parse2 link (Fetch.response { res with Body := body2 }) true =
        getProduct parse link (Fetch.response res) true) := by
  constructor
  · by_cases h : res.StatusCode = 200 <;> simp [getProduct, h]
  · intro parse2 body2
    by_cases h : res.StatusCode = 200 <;> simp [getProduct, h]

/-- The page of the examples is read in full when the signal has not fired, and is not read
when it has. -/
theorem getProduct_sample :
    ((getProduct (fixedPage samplePage) "link".toList
        (Fetch.response ⟨200, "body".toList⟩) false).product.map Product.Name
        = some "Kettle".toList ∧
      (getProduct (fixedPage samplePage) "link".toList
        (Fetch.response ⟨200, "body".toList⟩) false).product.map Product.Price
        = some (F64.fin 12.34) ∧
      (getProduct (fixedPage samplePage) "link".toList
        (Fetch.response ⟨200, "body".toList⟩) false).product.map Product.Reviews
        = some 150 ∧
      (getProduct (fixedPage samplePage) "link".toList
        (Fetch.response ⟨200, "body".toList⟩) false).product.map Product.BSR
        = some 1045 ∧
      (getProduct (fixedPage samplePage) "link".toList
        (Fetch.response ⟨200, "body".toList⟩) false).product.map Product.Weight
        = some (F64.fin 2.5) ∧
      (getProduct (fixedPage samplePage) "link".toList
        (Fetch.response ⟨200, "body".toList⟩) false).product.map
          (fun prod => (prod.Length, prod.Width, prod.Height))
        = some (F64.fin 12.3, F64.fin 14, F64.fin 23)) ∧
    (getProduct (fixedPage samplePage) "link".toList
        (Fetch.response ⟨200, "body".toList⟩) true).product = none := by
  constructor
  · decide!
  · rfl

end Crawler
